import Mathlib

/-!
# Verification of the `ota-image-libs` specification against its source

Shallow embedding, in Lean 4, of the parts of `ota-image-libs` that the
checked claims are about, together with theorems settling each claim.

Conventions used throughout:
* Python mutable objects become explicit state values; methods become
  functions from state to state (or to `Except`/`Option` results when the
  Python code can raise).
* External libraries (the `cryptography` package, `PyJWT`, zstd, SQLite,
  the OS) are out of scope per the spec; their observable results are
  passed in as explicit inputs of the embedded functions.
* Byte strings are `List Nat` (each element a byte value), digests are
  abstracted as `Nat` where only equality matters.
-/

namespace OtaImageLibs

/-! ## `resource_table/utils.py`: `_BundleReadyEventWithRevision` (claim C3)

The Python class holds a boolean flag and a revision counter, starting at
`flag = False`, `rev = 0` (`itertools.count(0)` is consumed once in
`__init__`).  `set()` sets the flag, bumps the revision and returns the new
revision; `clear(rev)` resets the flag only when `rev` equals the current
revision.  The internal mutex only guards atomicity; the state transitions
themselves are sequential.
-/

structure BundleReadyEvent where
  flag : Bool
  rev : Nat
  deriving Repr, DecidableEq

namespace BundleReadyEvent

/-- `__init__`: flag not set, revision counter starts at 0. -/
def init : BundleReadyEvent := { flag := false, rev := 0 }

/-- `is_set`: returns the pair `(flag, rev)`. -/
def is_set (s : BundleReadyEvent) : Bool × Nat := (s.flag, s.rev)

/-- `set`: sets the flag, advances the revision, returns the new revision. -/
def set (s : BundleReadyEvent) : Nat × BundleReadyEvent :=
  let newRev := s.rev + 1
  (newRev, { flag := true, rev := newRev })

/-- `clear(rev)`: resets the flag only when `rev` equals the current
revision; otherwise the state is left untouched. -/
def clear (s : BundleReadyEvent) (rev : Nat) : BundleReadyEvent :=
  if rev ≠ s.rev then s else { s with flag := false }

end BundleReadyEvent

/-! ## `resource_table/utils.py`: the bundle waiting loop (claim C4)

`PrepareResourceHelper._prepare_bundled_resource` waits for the per-bundle
ready event in a `for _ in range(MAX_ITERS_FOR_WAITING_BUNDLE)` loop:

* if the event is set, break out and extract from the bundle;
* otherwise try the per-bundle lock without blocking; the winner prepares
  the bundle itself (success sets the event and breaks; failure raises
  `BundledRecreateFailed` at once), then releases the lock;
* a loser sleeps `WAITING_BUNDLE_INTERVAL` seconds and retries;
* when the loop exhausts all iterations, the `else:` clause raises the
  timeout flavour of `BundledRecreateFailed`.

The environment visible to the waiting thread at iteration `i` (the other
threads' effects and the non-blocking lock outcome) is passed in as the
functions `isSetAt`, `revAt`, `lockWonAt` and `prepOkAt`.
-/

def MAX_ITERS_FOR_WAITING_BUNDLE : Nat := 6

def WAITING_BUNDLE_INTERVAL : Nat := 3

/-- Possible exits of the bundle waiting loop. -/
inductive BundleWaitOutcome where
  /-- the ready event was observed set, carrying the observed revision -/
  | ready (rev : Nat)
  /-- this thread won the lock and prepared the bundle, carrying the
  revision returned by `set()` -/
  | prepared (rev : Nat)
  /-- this thread won the lock but preparing the bundle raised
  (`BundledRecreateFailed` wrapping the original error) -/
  | recreateFailed
  /-- the loop exhausted all iterations: the timeout flavour of
  `BundledRecreateFailed` (`BundleTimeout` kind) is raised -/
  | timeout
  deriving Repr, DecidableEq

/-- One pass of the waiting loop starting at iteration `i`, returning the
outcome together with the total seconds slept.  Mirrors the Python
`for`/`else` construct: iterations run while `i < MAX_ITERS_FOR_WAITING_BUNDLE`,
falling through to the timeout raise. -/
def bundleWaitFrom (isSetAt : Nat → Bool) (revAt : Nat → Nat)
    (lockWonAt : Nat → Bool) (prepOkAt : Nat → Bool) :
    Nat → BundleWaitOutcome × Nat
  | i =>
    if _h : i < MAX_ITERS_FOR_WAITING_BUNDLE then
      if isSetAt i then (.ready (revAt i), 0)
      else if lockWonAt i then
        if prepOkAt i then (.prepared (revAt i), 0) else (.recreateFailed, 0)
      else
        let rest := bundleWaitFrom isSetAt revAt lockWonAt prepOkAt (i + 1)
        (rest.1, WAITING_BUNDLE_INTERVAL + rest.2)
    else (.timeout, 0)
  termination_by i => MAX_ITERS_FOR_WAITING_BUNDLE - i

/-- The whole waiting phase of `_prepare_bundled_resource`. -/
def bundleWait (isSetAt : Nat → Bool) (revAt : Nat → Nat)
    (lockWonAt : Nat → Bool) (prepOkAt : Nat → Bool) :
    BundleWaitOutcome × Nat :=
  bundleWaitFrom isSetAt revAt lockWonAt prepOkAt 0

/-! ## `common/oci_spec.py`: blob removal (claim C7)

`OCIDescriptor.get_blob_from_resource_dir` raises `FileNotFoundError` when
the blob file is absent; `remove_blob_from_resource_dir` first calls it and
only then unlinks (`missing_ok=True`).  The resource directory is embedded
as the finite set of digests whose blob files currently exist.
-/

inductive BlobErr where
  | FileNotFound
  deriving Repr, DecidableEq

/-- `get_blob_from_resource_dir`: fail when the blob is not in the
resource directory. -/
def get_blob_from_resource_dir (resourceDir : Finset Nat) (digest : Nat) :
    Except BlobErr Nat :=
  if digest ∈ resourceDir then .ok digest else .error .FileNotFound

/-- `remove_blob_from_resource_dir`: look the blob up (raising
`FileNotFoundError` when absent), then unlink it (`missing_ok=True`, so the
unlink itself never fails). -/
def remove_blob_from_resource_dir (resourceDir : Finset Nat) (digest : Nat) :
    Except BlobErr (Finset Nat) :=
  match get_blob_from_resource_dir resourceDir digest with
  | .error e => .error e
  | .ok d => .ok (resourceDir.erase d)

/-! ## `image_index/schema.py`: the signing lifecycle gate (claim C8)

`ImageIndex.finalize_signing_image(force_sign)` raises when the image is
not finalized (`created_at` unset), raises when it is already signed and
`force_sign` is not given, and otherwise stamps `signed_at` with the
current time.  All annotation fields other than the two timestamps are
bundled in `other`; `manifests` is kept abstract.
-/

structure ImageIndexAnnotations where
  created_at : Option Nat
  signed_at : Option Nat
  /-- every other annotation field (build tool version, totals, project
  labels), opaque for this development -/
  other : List (String × String)
  deriving Repr, DecidableEq

structure ImageIndex where
  manifests : List Nat
  annotations : ImageIndexAnnotations
  deriving Repr, DecidableEq

namespace ImageIndex

/-- `image_finalized`: the `created_at` annotation is set. -/
def image_finalized (idx : ImageIndex) : Bool :=
  idx.annotations.created_at.isSome

/-- `image_signed`: the `signed_at` annotation is set. -/
def image_signed (idx : ImageIndex) : Bool :=
  idx.annotations.signed_at.isSome

/-- `image_can_be_signed`: alias for `image_finalized`. -/
def image_can_be_signed (idx : ImageIndex) : Bool :=
  idx.image_finalized

inductive SignErr where
  /-- "Image cannot be signed. Ensure it is finalized and not already
  signed." — the `Finalized` lifecycle-gate kind -/
  | NotFinalized
  /-- "Image is already signed. Use force_sign to override." — the
  `AlreadySigned` kind -/
  | AlreadySigned
  deriving Repr, DecidableEq

/-- `finalize_signing_image(force_sign)` at current time `now`.  The Python
method mutates `self` only in its last statement, so on either raise the
index is returned unchanged by construction. -/
def finalize_signing_image (idx : ImageIndex) (force_sign : Bool) (now : Nat) :
    Except SignErr ImageIndex :=
  if ¬ idx.image_can_be_signed then .error .NotFinalized
  else if idx.image_signed ∧ ¬ force_sign then .error .AlreadySigned
  else .ok { idx with annotations := { idx.annotations with signed_at := some now } }

end ImageIndex

end OtaImageLibs


namespace OtaImageLibs

/-! ## `resource_table/utils.py`: `ResumeOTADownloadHelper` (claim C9)

`check_download_dir` scans the staging directory.  For each directory
entry it removes non-regular files, names shorter than 64 characters and
names starting with `tmp`; parses the first 64 characters with
`bytes.fromhex` (removing the entry on failure); and hands the rest to
`_check_one_resource_at_thread`, which removes the file when the suffix
after position 65 names a resource id absent from the resource table
(an unparsable suffix raises in `int()` and the `except` also removes),
when the digest is absent from the resource table, or when the on-disk
bytes do not hash to the parsed digest.

The OS and SQLite are abstracted: an entry carries its name, its
regular-file flag and the SHA-256 of its on-disk bytes; the resource
table is abstracted by its two membership predicates.
-/

def SHA256DIGEST_HEX_LEN : Nat := 64

/-- ASCII whitespace skipped by CPython's `bytes.fromhex`. -/
def isPyWhitespace (c : Char) : Bool :=
  c = ' ' ∨ c = '\t' ∨ c = '\n' ∨ c = '\x0b' ∨ c = '\x0c' ∨ c = '\r'

def isHexDigitChar (c : Char) : Bool :=
  ('0' ≤ c ∧ c ≤ '9') ∨ ('a' ≤ c ∧ c ≤ 'f') ∨ ('A' ≤ c ∧ c ≤ 'F')

def hexDigitVal (c : Char) : Nat :=
  if '0' ≤ c ∧ c ≤ '9' then c.toNat - '0'.toNat
  else if 'a' ≤ c ∧ c ≤ 'f' then c.toNat - 'a'.toNat + 10
  else c.toNat - 'A'.toNat + 10

/-- `bytes.fromhex`: ASCII whitespace may separate byte pairs; each byte
is exactly two adjacent hex digits; anything else fails (raises
`ValueError` in Python, `none` here). -/
def bytesFromHex : List Char → Option (List Nat)
  | [] => some []
  | [c] => if isPyWhitespace c then some [] else none
  | c :: c2 :: rest =>
    if isPyWhitespace c then bytesFromHex (c2 :: rest)
    else if isHexDigitChar c ∧ isHexDigitChar c2 then
      (bytesFromHex rest).map (fun bs => (16 * hexDigitVal c + hexDigitVal c2) :: bs)
    else none

/-- Digit-run parser for `int()`: decimal digits with single underscores
allowed between digits. -/
def pyDigitsGo (acc : Nat) : List Char → Option Nat
  | [] => some acc
  | '_' :: d :: rest =>
    if d.isDigit then pyDigitsGo (acc * 10 + (d.toNat - '0'.toNat)) rest else none
  | d :: rest =>
    if d.isDigit then pyDigitsGo (acc * 10 + (d.toNat - '0'.toNat)) rest else none

def pyDigits : List Char → Option Nat
  | [] => none
  | d :: rest =>
    if d.isDigit then pyDigitsGo (d.toNat - '0'.toNat) rest else none

/-- `int(str)`: surrounding whitespace stripped, optional sign, decimal
digits with underscores between digits; anything else raises
(`none` here). -/
def pythonIntOfString (s : List Char) : Option Int :=
  let t := ((s.dropWhile isPyWhitespace).reverse.dropWhile isPyWhitespace).reverse
  match t with
  | '+' :: rest => (pyDigits rest).map Int.ofNat
  | '-' :: rest => (pyDigits rest).map (fun n => -(n : Int))
  | _ => (pyDigits t).map Int.ofNat

/-- The resource table as seen by `ResumeOTADownloadHelper`: existence
checks by `resource_id` and by `digest`. -/
structure ResourceTableView where
  rsidExists : Int → Bool
  digestExists : List Nat → Bool

/-- One staging-directory entry as observed by `os.scandir` plus the
SHA-256 of its on-disk bytes (`file_sha256`). -/
structure ScanEntry where
  name : List Char
  /-- `entry.is_file(follow_symlinks=False)` -/
  isRegFile : Bool
  fileHash : List Nat

inductive ScanDecision where
  | removed
  | retained
  deriving Repr, DecidableEq

/-- `_check_one_resource_at_thread`: the per-file check run in the worker
thread.  An unparsable suffix makes `int()` raise, which the blanket
`except` turns into a removal. -/
def checkOneResource (rt : ResourceTableView) (digest : List Nat)
    (slicedTargetRsid : List Char) (fileHash : List Nat) : ScanDecision :=
  if slicedTargetRsid ≠ [] then
    match pythonIntOfString slicedTargetRsid with
    | none => .removed
    | some rsid =>
      if ¬ rt.rsidExists rsid then .removed
      else if ¬ rt.digestExists digest ∨ fileHash ≠ digest then .removed
      else .retained
  else if ¬ rt.digestExists digest ∨ fileHash ≠ digest then .removed
  else .retained

/-- The per-entry decision of `check_download_dir`. -/
def scanDownloadDirDecision (rt : ResourceTableView) (e : ScanEntry) :
    ScanDecision :=
  if ¬ e.isRegFile ∨ e.name.length < SHA256DIGEST_HEX_LEN ∨
      e.name.take 3 = ['t', 'm', 'p'] then .removed
  else
    match bytesFromHex (e.name.take SHA256DIGEST_HEX_LEN) with
    | none => .removed
    | some digest =>
      checkOneResource rt digest (e.name.drop (SHA256DIGEST_HEX_LEN + 1)) e.fileHash

/-- The spec's description of which files the resume scan removes,
written as a flat disjunction over the claim's conditions. -/
def specScanRemoves (rt : ResourceTableView) (e : ScanEntry) : Prop :=
  e.isRegFile = false ∨
  e.name.take 3 = ['t', 'm', 'p'] ∨
  e.name.length < SHA256DIGEST_HEX_LEN ∨
  bytesFromHex (e.name.take SHA256DIGEST_HEX_LEN) = none ∨
  (e.name.drop (SHA256DIGEST_HEX_LEN + 1) ≠ [] ∧
    ∀ rsid, pythonIntOfString (e.name.drop (SHA256DIGEST_HEX_LEN + 1)) = some rsid →
      rt.rsidExists rsid = false) ∨
  (∃ digest, bytesFromHex (e.name.take SHA256DIGEST_HEX_LEN) = some digest ∧
    rt.digestExists digest = false) ∨
  (∃ digest, bytesFromHex (e.name.take SHA256DIGEST_HEX_LEN) = some digest ∧
    e.fileHash ≠ digest)

end OtaImageLibs

namespace OtaImageLibs

/-! ## `artifact/pack.py`: `pack_artifact` (claim C5)

`pack_artifact` walks the image root with `os.walk`.  At the top level it
adds `index.json` and then — unconditionally — `index.jwt` (`add_file`
stats the source file, so a missing `index.jwt` raises
`FileNotFoundError`), then the remaining top-level files in sorted order
skipping those two names.  Every deeper directory yields a directory
entry followed by that directory's files in sorted order; the directory
recursion order is `os.walk`'s, i.e. the order `os.scandir` returned the
subdirectory names in — the code never sorts the `dirs` list.

The source tree is embedded as `SrcDir`, whose `files` and `subdirs`
lists carry the `os.scandir` ordering.  `pack_artifact` is embedded as
the list of member arcnames written to the ZIP (directory members carry
a trailing slash, as `add_dir` writes them).
-/

def IMAGE_INDEX_FNAME : String := "index.json"

def INDEX_JWT_FNAME : String := "index.jwt"

/-- A source directory tree; list order is `os.scandir` order. -/
inductive SrcDir where
  | mk (files : List String) (subdirs : List (String × SrcDir))

def SrcDir.files : SrcDir → List String
  | .mk fs _ => fs

def SrcDir.subdirs : SrcDir → List (String × SrcDir)
  | .mk _ ds => ds

/-- Python's string order: code-point lexicographic (compared through the
character list). -/
def strLe (a b : String) : Prop := a.data ≤ b.data

instance : DecidableRel strLe := fun a b =>
  inferInstanceAs (Decidable (a.data ≤ b.data))

instance : IsTotal String strLe := ⟨fun a b => le_total a.data b.data⟩

instance : IsTrans String strLe := ⟨fun _ _ _ h1 h2 => le_trans h1 h2⟩

instance : IsAntisymm String strLe :=
  ⟨fun a b h1 h2 => by
    cases a; cases b
    simp only [strLe] at h1 h2
    exact congrArg String.mk (le_antisymm h1 h2)⟩

def sortStrings (l : List String) : List String :=
  List.insertionSort strLe l

/-- Python's `sorted` on `(name, subtree)` pairs keyed by name (used to
state the spec's "lexicographic" subdirectory order). -/
def sortSubdirPairs (l : List (String × SrcDir)) : List (String × SrcDir) :=
  List.insertionSort (fun a b => strLe a.1 b.1) l

inductive PackErr where
  /-- `FileNotFoundError` raised by `ZipInfo.from_file`/`open` inside
  `add_file` -/
  | FileNotFound (name : String)
  deriving Repr, DecidableEq

mutual

/-- `os.walk` recursion for a non-top directory at relative path `rel`:
the directory member (trailing slash), its files sorted, then its
subdirectories in scandir order. -/
def walkEmit (rel : String) : SrcDir → List String
  | .mk files subdirs =>
    (rel ++ "/") :: ((sortStrings files).map (fun f => rel ++ "/" ++ f) ++
      walkEmitList rel subdirs)

def walkEmitList (rel : String) : List (String × SrcDir) → List String
  | [] => []
  | (name, sub) :: rest =>
    walkEmit (rel ++ "/" ++ name) sub ++ walkEmitList rel rest

end

/-- The subdirectory part of the walk for the image root (top-level
subdirectory relative paths are just the names). -/
def walkTop : List (String × SrcDir) → List String
  | [] => []
  | (name, sub) :: rest => walkEmit name sub ++ walkTop rest

/-- `pack_artifact`, embedded as the ordered list of ZIP member arcnames;
errors model the exceptions escaping the Python function. -/
def pack_artifact (root : SrcDir) : Except PackErr (List String) :=
  if IMAGE_INDEX_FNAME ∈ root.files then
    if INDEX_JWT_FNAME ∈ root.files then
      .ok (IMAGE_INDEX_FNAME :: INDEX_JWT_FNAME ::
        ((sortStrings root.files).filter
            (fun f => ¬ (f = IMAGE_INDEX_FNAME ∨ f = INDEX_JWT_FNAME)) ++
          walkTop root.subdirs))
    else .error (.FileNotFound INDEX_JWT_FNAME)
  else .error (.FileNotFound IMAGE_INDEX_FNAME)

mutual

/-- Recursively put every subdirectory list into lexicographic order (the
order the spec claims for the walk). -/
def sortTree : SrcDir → SrcDir
  | .mk files subdirs =>
    .mk files (sortSubdirPairs (sortTreeList subdirs))

def sortTreeList : List (String × SrcDir) → List (String × SrcDir)
  | [] => []
  | (name, sub) :: rest => (name, sortTree sub) :: sortTreeList rest

end

/-- The member order stated by the claim: `index.json` first, `index.jwt`
second iff the image is signed (i.e. `index.jwt` exists), remaining
top-level files in lexicographic order, then subdirectories with their
contents in lexicographic order. -/
def specPackOrder (root : SrcDir) : List String :=
  IMAGE_INDEX_FNAME ::
    ((if INDEX_JWT_FNAME ∈ root.files then [INDEX_JWT_FNAME] else []) ++
      sortStrings (root.files.filter
        (fun f => ¬ (f = IMAGE_INDEX_FNAME ∨ f = INDEX_JWT_FNAME))) ++
      walkTop (sortSubdirPairs (sortTreeList root.subdirs)))

/-- The actual member order produced on success, described in the amended
claim's words: `index.json`, then `index.jwt` unconditionally, then the
remaining top-level files in lexicographic order, then subdirectories in
scandir order, each directory followed by its files in lexicographic
order and then its subdirectories in scandir order. -/
def amendedPackOrder (root : SrcDir) : List String :=
  IMAGE_INDEX_FNAME :: INDEX_JWT_FNAME ::
    (sortStrings (root.files.filter
        (fun f => ¬ (f = IMAGE_INDEX_FNAME ∨ f = INDEX_JWT_FNAME))) ++
      walkTop root.subdirs)

/-! ## `_crypto/x509_utils.py`: `X5cX509CertChain.validator` (claim C2)

The validator receives the raw `x5c` list.  Certificate parsing
(PEM/base64-DER/DER) is external crypto; a certificate is embedded as its
subject and issuer names (the `rfc4514_string()` values, abstracted as
`Nat`).  The validator:

1. folds the input into two Python dicts, `issuer_cert_map` keyed by
   issuer and `subject_cert_map` keyed by subject, rejecting a cert when
   the issuer map already holds `MAX_CHAIN_LENGTH` entries and rejecting
   self-signed certs — note the dicts *overwrite* on duplicate keys while
   keeping insertion position;
2. picks as end-entity the first value of `issuer_cert_map` whose subject
   is not a key of `issuer_cert_map` (raising when none is found);
3. walks issuer links through `subject_cert_map`, bounding the depth by
   `MAX_CHAIN_LENGTH`;
4. checks `len(issuer_cert_map) == len(interms) + 1` (the "multiple
   chains" sanity check);
5. `add_ee`/`add_interms` re-check that no intermediate is self-signed
   (`add_interms`'s length check compares the — still empty — stored list
   against `MAX_CHAIN_LENGTH`, so it can never fire here and is omitted).
-/

def MAX_CHAIN_LENGTH : Nat := 6

structure Cert where
  subject : Nat
  issuer : Nat
  deriving Repr, DecidableEq

/-- A Python `dict[str, Certificate]` as an insertion-ordered association
list. -/
abbrev CertMap := List (Nat × Cert)

def dictMem (m : CertMap) (k : Nat) : Bool := m.any (·.1 = k)

/-- `m[k] = v`: replace in place when the key exists, else append. -/
def dictInsert (m : CertMap) (k : Nat) (v : Cert) : CertMap :=
  if dictMem m k then m.map (fun p => if p.1 = k then (k, v) else p)
  else m ++ [(k, v)]

def dictLookup (m : CertMap) (k : Nat) : Option Cert :=
  (m.find? (·.1 = k)).map (·.2)

inductive ChainErr where
  /-- "Exceeded maximum chain length" while folding the input -/
  | ChainTooLong
  /-- "Reject adding root CA into cert chain" -/
  | RootInChain
  /-- "End-entity certificate not found in the chain" -/
  | NoEndEntity
  /-- "Exceeded maximum chain length ... while finding intermediates" -/
  | DepthExceeded
  /-- "Invalid certificate chain, multiple chains found" -/
  | MultipleChains
  deriving Repr, DecidableEq

/-- The first loop of the validator: build `issuer_cert_map` and
`subject_cert_map`. -/
def buildMaps : List Cert → CertMap → CertMap → Except ChainErr (CertMap × CertMap)
  | [], imap, smap => .ok (imap, smap)
  | c :: rest, imap, smap =>
    if MAX_CHAIN_LENGTH ≤ imap.length then .error .ChainTooLong
    else if c.subject = c.issuer then .error .RootInChain
    else buildMaps rest (dictInsert imap c.issuer c) (dictInsert smap c.subject c)

/-- The end-entity search: the first value of `issuer_cert_map` whose
subject is not among its keys. -/
def findEE (imap : CertMap) : Option Cert :=
  (imap.find? (fun p => ! dictMem imap p.2.subject)).map (·.2)

/-- The intermediate-chain walk (`while _cur_issuer in subject_cert_map`)
with the Python depth counter made explicit.  `fuel` is a Lean artifact
making the recursion structural; called with `fuel = MAX_CHAIN_LENGTH + 1
- depth` (as `findInterms` below does) the fuel can never run out, since
the depth check fires first — the `fuel = 0` branch mirrors the depth
check so the function equals the Python loop for every reachable call. -/
def findIntermsGo (smap : CertMap) : Nat → Nat → Nat → Except ChainErr (List Cert)
  | 0, cur, _ =>
    match dictLookup smap cur with
    | none => .ok []
    | some _ => .error .DepthExceeded
  | fuel + 1, cur, depth =>
    match dictLookup smap cur with
    | none => .ok []
    | some cert =>
      if MAX_CHAIN_LENGTH < depth + 1 then .error .DepthExceeded
      else
        match findIntermsGo smap fuel cert.issuer (depth + 1) with
        | .error e => .error e
        | .ok rest => .ok (cert :: rest)

def findInterms (smap : CertMap) (cur : Nat) (depth : Nat) :
    Except ChainErr (List Cert) :=
  findIntermsGo smap (MAX_CHAIN_LENGTH + 1 - depth) cur depth

/-- The validator's tail: the "multiple chains" sanity check followed by
`add_ee`/`add_interms` (whose only reachable effect is re-checking that no
intermediate is self-signed). -/
def x5cFinish (imap : CertMap) (ee : Cert) (interms : List Cert) :
    Except ChainErr (Cert × List Cert) :=
  if imap.length ≠ interms.length + 1 then .error .MultipleChains
  else if interms.any (fun c => c.subject = c.issuer) then .error .RootInChain
  else .ok (ee, interms)

/-- The validator after the two maps are built: end-entity search, then
the intermediate walk, then `x5cFinish`. -/
def x5cAfterMaps (imap smap : CertMap) : Except ChainErr (Cert × List Cert) :=
  match findEE imap with
  | none => .error .NoEndEntity
  | some ee =>
    match findInterms smap ee.issuer 0 with
    | .error e => .error e
    | .ok interms => x5cFinish imap ee interms

/-- `X5cX509CertChain.validator`, returning the end entity and the
intermediates on success. -/
def x5cValidator (certs : List Cert) : Except ChainErr (Cert × List Cert) :=
  match buildMaps certs [] [] with
  | .error e => .error e
  | .ok (imap, smap) => x5cAfterMaps imap smap

/-- The claim's notion of end-entity candidate: a certificate of `C`
whose subject is not the issuer of any other certificate of `C`. -/
def isEECandidate (certs : List Cert) (c : Cert) : Prop :=
  c ∈ certs ∧ ∀ c' ∈ certs, c' ≠ c → c'.issuer ≠ c.subject

/-- Adjacency along a chain, leaf first: the next certificate's subject
is the current certificate's issuer. -/
def ChainLink : Cert → Cert → Prop := fun a b => b.subject = a.issuer

/-- `ee :: l` is a maximal issuer chain inside `certs`: consecutive certs
are issuer-linked and the topmost issuer names no subject of `certs`. -/
def IsMaxChain (certs : List Cert) (ee : Cert) (l : List Cert) : Prop :=
  List.Chain ChainLink ee l ∧
  ((ee :: l).getLast (List.cons_ne_nil ee l)).issuer ∉ certs.map (·.subject)

/-- The claim's acceptance condition for a list of candidate certs: no
self-signed cert, at most `MAX_CHAIN_LENGTH` certs forming exactly one
issuer chain, and a unique end-entity candidate. -/
def specChainAccepts (certs : List Cert) : Prop :=
  (∀ c ∈ certs, c.subject ≠ c.issuer) ∧
  certs.length ≤ MAX_CHAIN_LENGTH ∧
  (∃ c, isEECandidate certs c ∧ ∀ c', isEECandidate certs c' → c' = c) ∧
  (∃ ee l, certs.Perm (ee :: l) ∧ IsMaxChain certs ee l)

/-- The issuer map produced by the validator's first loop when no two
input certs share an issuer name. -/
def fullImap (certs : List Cert) : CertMap := certs.map (fun c => (c.issuer, c))

/-- The subject map produced by the validator's first loop when no two
input certs share a subject name. -/
def fullSmap (certs : List Cert) : CertMap := certs.map (fun c => (c.subject, c))

def subjectsOf (certs : List Cert) : List Nat := certs.map (·.subject)

def issuersOf (certs : List Cert) : List Nat := certs.map (·.issuer)

/-! ## `cmds/verify_sign.py`: `verify_sign_cmd` (claim C1)

The command: check the image directory is a valid OTA image; parse
`index.json` and require `signed_at` to be set; require `index.jwt` to
exist; extract the `x5c` header and run `X5cX509CertChain.validator`
(embedded above); when `--ca-dir` is given, build a `CACertStore` and run
the `cryptography` chain verifier; then `decode_index_jwt_with_verification`:
require the end-entity key to be an EC key, verify the JWS signature with
PyJWT, validate the claims — and print them.  The external library calls
(file parsing, hashing, `cryptography`, PyJWT) enter the embedding as
observable inputs.

`localIndexDigest` is the SHA-256 over the local `index.json` bytes that
the claim says is compared against the claims' `image_index` descriptor
digest.
-/

structure IndexJWTClaims where
  iat : Nat
  /-- the digest in the claims' `image_index` descriptor -/
  imageIndexDigest : Nat
  deriving Repr, DecidableEq

structure VerifySignInput where
  /-- result of `check_if_valid_ota_image` -/
  validImage : Bool
  /-- `signed_at` annotation of the parsed local `index.json` -/
  indexSignedAt : Option Nat
  /-- SHA-256 digest of the local `index.json` bytes -/
  localIndexDigest : Nat
  /-- `index.jwt` exists as a file -/
  jwtPresent : Bool
  /-- the `x5c` JWT header (`none`: missing or not a list) -/
  x5c : Option (List Cert)
  /-- the CA certificates when `--ca-dir` is given -/
  caDir : Option (List Cert)
  /-- result of the `cryptography` verifier (`CACertStore.verify`) -/
  caVerifyOk : Bool
  /-- the end-entity public key is an `EllipticCurvePublicKey` -/
  eeIsEC : Bool
  /-- result of PyJWT's signature verification -/
  sigValid : Bool
  /-- `IndexJWTClaims.model_validate` succeeds -/
  claimsParseOk : Bool
  /-- the decoded claims -/
  claims : IndexJWTClaims
  deriving Repr, DecidableEq

inductive VerifyErr where
  /-- "... doesn't hold a valid OTA image." -/
  | InvalidImage
  /-- "OTA image on ... is not signed." -/
  | NotSigned
  /-- "index.jwt doesn't exist, broken OTA image?" -/
  | MissingJwt
  /-- "Missing x5c header in JWT" / "x5c header MUST be a list" -/
  | MissingX5c
  /-- `X5cX509CertChain.validator` raised -/
  | ChainError (e : ChainErr)
  /-- "Sign certificate verification failed" from `CACertStore.verify` -/
  | CertVerifyFailed
  /-- "Invalid end-entity certificate in the signing certificate chain" -/
  | NotECKey
  /-- PyJWT signature verification failed -/
  | BadSignature
  /-- claims validation failed -/
  | BadClaims
  deriving Repr, DecidableEq

/-- `verify_sign_cmd`, returning the verified claims it prints on
success.  Note that `localIndexDigest` is never consulted. -/
def verify_sign_cmd (inp : VerifySignInput) : Except VerifyErr IndexJWTClaims :=
  if ¬ inp.validImage then .error .InvalidImage
  else if inp.indexSignedAt.isNone then .error .NotSigned
  else if ¬ inp.jwtPresent then .error .MissingJwt
  else
    match inp.x5c with
    | none => .error .MissingX5c
    | some certs =>
      match x5cValidator certs with
      | .error e => .error (.ChainError e)
      | .ok _chain =>
        if inp.caDir.isSome ∧ ¬ inp.caVerifyOk then .error .CertVerifyFailed
        else if ¬ inp.eeIsEC then .error .NotECKey
        else if ¬ inp.sigValid then .error .BadSignature
        else if ¬ inp.claimsParseOk then .error .BadClaims
        else .ok inp.claims

/-! ## `common/msgpack_utils.py` and `_resource_filter/` (claim C10)

The filter configs serialize as `<tag>:<msgpack body>` where the body is
`msgpack.packb` of the option list, and deserialize by splitting on the
first `:` and dispatching on the tag byte through the filter registry.
The msgpack subset the filters use — integers, strings and arrays — is
embedded byte-for-byte after the msgpack specification as implemented by
`msgpack.packb` (minimal-width formats) and `msgpack.Unpacker`.

Python `str` values enter as their UTF-8 byte lists; Python `int` is
`Int` (msgpack can encode `-2^63 ≤ v < 2^64`; `packb` raises beyond
that, hence the `Option` results).
-/

inductive MsgValue where
  | int (v : Int)
  | str (s : List Nat)
  | arr (elems : List MsgValue)

/-- Big-endian byte string of `n` in `w` bytes. -/
def beBytes : Nat → Nat → List Nat
  | _, 0 => []
  | n, w + 1 => beBytes (n / 256) w ++ [n % 256]

/-- Value of a big-endian byte string. -/
def beVal (bs : List Nat) : Nat := bs.foldl (fun acc b => acc * 256 + b) 0

/-- `msgpack.packb` on an `int`: smallest-width format. -/
def packInt (v : Int) : Option (List Nat) :=
  if 0 ≤ v then
    if v.toNat < 128 then some [v.toNat]
    else if v.toNat < 256 then some [0xcc, v.toNat]
    else if v.toNat < 65536 then some (0xcd :: beBytes v.toNat 2)
    else if v.toNat < 4294967296 then some (0xce :: beBytes v.toNat 4)
    else if v.toNat < 18446744073709551616 then
      some (0xcf :: beBytes v.toNat 8)
    else none
  else
    if -32 ≤ v then some [(v + 256).toNat]
    else if -128 ≤ v then some [0xd0, (v + 256).toNat]
    else if -32768 ≤ v then some (0xd1 :: beBytes (v + 65536).toNat 2)
    else if -2147483648 ≤ v then some (0xd2 :: beBytes (v + 4294967296).toNat 4)
    else if -9223372036854775808 ≤ v then
      some (0xd3 :: beBytes (v + 18446744073709551616).toNat 8)
    else none

/-- `msgpack.packb` on a `str` (the `str` family; `use_bin_type=True`
keeps `str` in the str formats). -/
def packStr (s : List Nat) : Option (List Nat) :=
  if s.length < 32 then some ((0xa0 + s.length) :: s)
  else if s.length < 256 then some (0xd9 :: s.length :: s)
  else if s.length < 65536 then some (0xda :: (beBytes s.length 2 ++ s))
  else if s.length < 4294967296 then some (0xdb :: (beBytes s.length 4 ++ s))
  else none

/-- Array header: smallest-width format. -/
def packArrHeader (n : Nat) : Option (List Nat) :=
  if n < 16 then some [0x90 + n]
  else if n < 65536 then some (0xdc :: beBytes n 2)
  else if n < 4294967296 then some (0xdd :: beBytes n 4)
  else none

mutual

/-- `msgpack.packb` on the subset of values the filters use. -/
def packValue : MsgValue → Option (List Nat)
  | .int v => packInt v
  | .str s => packStr s
  | .arr es =>
    match packArrHeader es.length with
    | none => none
    | some hd =>
      match packList es with
      | none => none
      | some body => some (hd ++ body)

def packList : List MsgValue → Option (List Nat)
  | [] => some []
  | e :: es =>
    match packValue e with
    | none => none
    | some enc =>
      match packList es with
      | none => none
      | some rest => some (enc ++ rest)

end

/-- Read `w` raw bytes. -/
def readBytes (w : Nat) (bs : List Nat) : Option (List Nat × List Nat) :=
  if w ≤ bs.length then some (bs.take w, bs.drop w) else none

mutual

/-- One step of `msgpack.Unpacker.unpack`: parse a single value off the
front of the buffer.  `fuel` is a Lean artifact bounding the recursion
depth; every reachable input is parsed with the ample fuel
`unpack_list` supplies. -/
def parseValue : Nat → List Nat → Option (MsgValue × List Nat)
  | 0, _ => none
  | _ + 1, [] => none
  | fuel + 1, b :: bs =>
    if b < 0x80 then some (.int b, bs)
    else if 0xe0 ≤ b ∧ b ≤ 0xff then some (.int ((b : Int) - 256), bs)
    else if 0xa0 ≤ b ∧ b < 0xc0 then
      match readBytes (b - 0xa0) bs with
      | none => none
      | some (s, rest) => some (.str s, rest)
    else if 0x90 ≤ b ∧ b < 0xa0 then
      match parseMany fuel (b - 0x90) bs with
      | none => none
      | some (es, rest) => some (.arr es, rest)
    else if b = 0xcc then
      match readBytes 1 bs with
      | none => none
      | some (nb, rest) => some (.int (beVal nb), rest)
    else if b = 0xcd then
      match readBytes 2 bs with
      | none => none
      | some (nb, rest) => some (.int (beVal nb), rest)
    else if b = 0xce then
      match readBytes 4 bs with
      | none => none
      | some (nb, rest) => some (.int (beVal nb), rest)
    else if b = 0xcf then
      match readBytes 8 bs with
      | none => none
      | some (nb, rest) => some (.int (beVal nb), rest)
    else if b = 0xd0 then
      match readBytes 1 bs with
      | none => none
      | some (nb, rest) =>
        let n := beVal nb
        some (.int (if n < 128 then (n : Int) else (n : Int) - 256), rest)
    else if b = 0xd1 then
      match readBytes 2 bs with
      | none => none
      | some (nb, rest) =>
        let n := beVal nb
        some (.int (if n < 32768 then (n : Int) else (n : Int) - 65536), rest)
    else if b = 0xd2 then
      match readBytes 4 bs with
      | none => none
      | some (nb, rest) =>
        let n := beVal nb
        some (.int (if n < 2147483648 then (n : Int)
          else (n : Int) - 4294967296), rest)
    else if b = 0xd3 then
      match readBytes 8 bs with
      | none => none
      | some (nb, rest) =>
        let n := beVal nb
        some (.int (if n < 9223372036854775808 then (n : Int)
          else (n : Int) - 18446744073709551616), rest)
    else if b = 0xd9 then
      match readBytes 1 bs with
      | none => none
      | some (nb, rest) =>
        match readBytes (beVal nb) rest with
        | none => none
        | some (s, rest2) => some (.str s, rest2)
    else if b = 0xda then
      match readBytes 2 bs with
      | none => none
      | some (nb, rest) =>
        match readBytes (beVal nb) rest with
        | none => none
        | some (s, rest2) => some (.str s, rest2)
    else if b = 0xdb then
      match readBytes 4 bs with
      | none => none
      | some (nb, rest) =>
        match readBytes (beVal nb) rest with
        | none => none
        | some (s, rest2) => some (.str s, rest2)
    else if b = 0xdc then
      match readBytes 2 bs with
      | none => none
      | some (nb, rest) =>
        match parseMany fuel (beVal nb) rest with
        | none => none
        | some (es, rest2) => some (.arr es, rest2)
    else if b = 0xdd then
      match readBytes 4 bs with
      | none => none
      | some (nb, rest) =>
        match parseMany fuel (beVal nb) rest with
        | none => none
        | some (es, rest2) => some (.arr es, rest2)
    else none

/-- Parse `n` consecutive values (the elements of an array). -/
def parseMany : Nat → Nat → List Nat → Option (List MsgValue × List Nat)
  | 0, _, _ => none
  | _ + 1, 0, bs => some ([], bs)
  | fuel + 1, n + 1, bs =>
    match parseValue fuel bs with
    | none => none
    | some (v, rest) =>
      match parseMany fuel n rest with
      | none => none
      | some (vs, rest2) => some (v :: vs, rest2)

end

mutual

/-- Fuel sufficient to parse a value back (see the round-trip lemmas). -/
def fuelV : MsgValue → Nat
  | .int _ => 1
  | .str _ => 1
  | .arr es => 1 + fuelL es

/-- Fuel sufficient to parse a list of consecutive values back. -/
def fuelL : List MsgValue → Nat
  | [] => 1
  | e :: es => 1 + max (fuelV e) (fuelL es)

end

def FILTER_STRING_MAX_SIZE : Nat := 1048576

/-- `pack_obj`: `packb` plus the 1 MiB size gate. -/
def pack_obj (v : MsgValue) : Option (List Nat) :=
  match packValue v with
  | none => none
  | some r => if FILTER_STRING_MAX_SIZE < r.length then none else some r

structure BundleFilter where
  bundle_resource_id : Int
  offset : Int
  len : Int
  deriving Repr, DecidableEq

structure CompressFilter where
  resource_id : Int
  /-- the UTF-8 bytes of the `compression_alg` string -/
  compression_alg : List Nat
  deriving Repr, DecidableEq

structure SliceFilter where
  slices : List Int
  deriving Repr, DecidableEq

/-- The tagged union over the three registered filters (the Python
registry keyed by the tag byte). -/
inductive FilterConfig where
  | bundle (f : BundleFilter)
  | compress (f : CompressFilter)
  | slice (f : SliceFilter)
  deriving Repr, DecidableEq

/-- The option list each filter passes to `pack_obj`. -/
def FilterConfig.optionsValue : FilterConfig → MsgValue
  | .bundle f => .arr [.int f.bundle_resource_id, .int f.offset, .int f.len]
  | .compress f => .arr [.int f.resource_id, .str f.compression_alg]
  | .slice f => .arr (f.slices.map MsgValue.int)

/-- The registry tag byte (`b"b"`, `b"c"`, `b"s"`). -/
def FilterConfig.filterTag : FilterConfig → Nat
  | .bundle _ => 98
  | .compress _ => 99
  | .slice _ => 115

/-- `bytes_schema_serializer`: `<tag>:<packed options>`. -/
def FilterConfig.bytes_schema_serializer (fc : FilterConfig) :
    Option (List Nat) :=
  match pack_obj fc.optionsValue with
  | none => none
  | some body => some (fc.filterTag :: 58 :: body)

/-- `pre_process_raw`: split at the first `:` (byte 58); no colon is a
`ValueError`. -/
def pre_process_raw : List Nat → Option (List Nat × List Nat)
  | [] => none
  | b :: rest =>
    if b = 58 then some ([], rest)
    else
      match pre_process_raw rest with
      | none => none
      | some (t, o) => some (b :: t, o)

/-- Ample parser fuel: more than enough for any buffer within the 1 MiB
limit (see the round-trip development). -/
def PARSE_FUEL : Nat := 2 * FILTER_STRING_MAX_SIZE + 2

/-- `unpack_list`: unpack one msgpack object, require a list, optionally
require an exact length (`expect_len and len(...) != expect_len`). -/
def unpack_list (bs : List Nat) (expectLen : Option Nat) :
    Option (List MsgValue) :=
  match parseValue PARSE_FUEL bs with
  | some (.arr es, _rest) =>
    match expectLen with
    | some el => if el ≠ 0 ∧ es.length ≠ el then none else some es
    | none => some es
  | _ => none

/-- `BundleFilter.from_raw_options`.  (Python destructures the 3-list
without type checks; the embedding pins the fields to msgpack ints,
which is what serialized bundle filters always carry.) -/
def BundleFilter.from_raw_options (bs : List Nat) : Option BundleFilter :=
  match unpack_list bs (some 3) with
  | some [.int a, .int b, .int c] => some ⟨a, b, c⟩
  | _ => none

def CompressFilter.from_raw_options (bs : List Nat) : Option CompressFilter :=
  match unpack_list bs (some 2) with
  | some [.int a, .str s] => some ⟨a, s⟩
  | _ => none

def extractInts : List MsgValue → Option (List Int)
  | [] => some []
  | .int v :: rest => (extractInts rest).map (v :: ·)
  | _ => none

def SliceFilter.from_raw_options (bs : List Nat) : Option SliceFilter :=
  match unpack_list bs none with
  | some es => (extractInts es).map SliceFilter.mk
  | none => none

/-- `FilterConfig.bytes_schema_validator`: split on the first `:`, look
the tag byte up in the registry, and run the concrete filter's
`from_raw_options`. -/
def FilterConfig.bytes_schema_validator (bs : List Nat) :
    Option FilterConfig :=
  match pre_process_raw bs with
  | none => none
  | some (tag, options) =>
    if tag = [98] then (BundleFilter.from_raw_options options).map .bundle
    else if tag = [99] then
      (CompressFilter.from_raw_options options).map .compress
    else if tag = [115] then
      (SliceFilter.from_raw_options options).map .slice
    else none

/-! ## `file_table/utils.py` and `deploy_image.py` (claim C6)

The deployer (run as root) prepares the target rootfs from file-table
rows.  The filesystem is modeled as hard-link-aware metadata state:
paths (resource blobs `res digest` and deployed target paths `tgt p`)
map to inode ids, and inodes carry the `stat` metadata the claim talks
about (file type, permission bits, uid, gid, xattrs).  Association
lists with first-match lookup model the maps; updates prepend.

Modeled syscall behavior, after CPython on Linux:
`Path.touch(exist_ok=True, mode=...)` creates the file with the mode's
permission bits masked by the process umask and leaves an existing
file's metadata untouched; `mkdir(exist_ok=True)` creates with
`0o777 &~ umask`; `os.chmod` sets the permission bits only;
`os.link` makes `dst` share `src`'s inode and fails if `dst` exists;
file contents are not tracked (the claim is about stat metadata).
`_process_regular_file_entries` dispatches rows in file-table iteration
order; the worker bodies run under `_hardlink_group_lock` (hardlinked
case) or touch only their own fresh path, so the sequential
linearization in dispatch order models the thread pool. -/

inductive FType where
  | reg
  | dir
  deriving Repr, DecidableEq

structure InodeMeta where
  ftype : FType
  perm : Nat
  uid : Nat
  gid : Nat
  xattrs : List (Nat × Nat)
  deriving Repr, DecidableEq

inductive DeployPath where
  | res (digest : Nat)
  | tgt (p : Nat)
  deriving Repr, DecidableEq

structure FsState where
  link : List (DeployPath × Nat)
  inodes : List (Nat × InodeMeta)
  nextInode : Nat
  deriving Repr, DecidableEq

def alistLookup {α β : Type} [DecidableEq α] : List (α × β) → α → Option β
  | [], _ => none
  | (k, v) :: rest, key => if k = key then some v else alistLookup rest key

/-- `os.stat`: the metadata of the inode behind a path. -/
def statOf (st : FsState) (p : DeployPath) : Option InodeMeta :=
  match alistLookup st.link p with
  | none => none
  | some ino => alistLookup st.inodes ino

/-- Permission bits of `mode` masked by the process umask (what a
fresh `open`/`touch` leaves on a created file). -/
def maskPerm (umask mode : Nat) : Nat :=
  mode &&& 4095 &&& (4095 ^^^ (umask &&& 4095))

/-- `Path.touch(exist_ok=True, mode=...)`: create a regular file owned
by the (root) process with umask-masked permissions; no-op on an
existing path. -/
def fsTouch (umask : Nat) (st : FsState) (p : DeployPath) (mode : Nat) :
    FsState :=
  match alistLookup st.link p with
  | some _ => st
  | none =>
    { link := (p, st.nextInode) :: st.link,
      inodes := (st.nextInode,
        ⟨FType.reg, maskPerm umask mode, 0, 0, []⟩) :: st.inodes,
      nextInode := st.nextInode + 1 }

/-- `Path.mkdir(exist_ok=True)`: create a directory owned by the (root)
process with umask-masked default permissions; no-op on an existing
path. -/
def fsMkdir (umask : Nat) (st : FsState) (p : DeployPath) : FsState :=
  match alistLookup st.link p with
  | some _ => st
  | none =>
    { link := (p, st.nextInode) :: st.link,
      inodes := (st.nextInode,
        ⟨FType.dir, maskPerm umask 511, 0, 0, []⟩) :: st.inodes,
      nextInode := st.nextInode + 1 }

/-- Update the metadata of the inode behind `p` (fails when the path
does not exist, as the corresponding syscalls do). -/
def updInodeMeta (st : FsState) (p : DeployPath) (f : InodeMeta → InodeMeta) :
    Option FsState :=
  match alistLookup st.link p with
  | none => none
  | some ino =>
    match alistLookup st.inodes ino with
    | none => none
    | some m => some { st with inodes := (ino, f m) :: st.inodes }

/-- `os.chown`. -/
def fsChown (st : FsState) (p : DeployPath) (uid gid : Nat) :
    Option FsState :=
  updInodeMeta st p (fun m => { m with uid := uid, gid := gid })

/-- `os.chmod`: only the permission bits of the mode are applied. -/
def fsChmod (st : FsState) (p : DeployPath) (mode : Nat) : Option FsState :=
  updInodeMeta st p (fun m => { m with perm := mode &&& 4095 })

/-- `_set_xattr`: `os.setxattr` for each key/value in order (a later
duplicate key overwrites an earlier one). -/
def fsSetXattrs (st : FsState) (p : DeployPath) (kvs : List (Nat × Nat)) :
    Option FsState :=
  updInodeMeta st p
    (fun m => { m with xattrs := kvs.foldl (fun acc kv => kv :: acc) m.xattrs })

/-- `os.link(src, dst)`: `dst` becomes another name for `src`'s inode;
raises when `dst` already exists or `src` is missing. -/
def fsLink (st : FsState) (src dst : DeployPath) : Option FsState :=
  match alistLookup st.link dst with
  | some _ => none
  | none =>
    match alistLookup st.link src with
    | none => none
    | some ino => some { st with link := (dst, ino) :: st.link }

/-- A `DirRow`: canonical path (as an id), uid, gid, mode, xattrs. -/
structure FTDirRow where
  path : Nat
  uid : Nat
  gid : Nat
  mode : Nat
  xattrs : List (Nat × Nat)
  deriving Repr, DecidableEq

/-- A `RegularFileRow` joined with its inode table entry.
`hardlinked` is `links_count is not None and links_count > 1`;
`inlined` is `entry.contents or entry.size == 0`. -/
structure FTRegularRow where
  path : Nat
  uid : Nat
  gid : Nat
  mode : Nat
  xattrs : List (Nat × Nat)
  digest : Nat
  inode_id : Nat
  hardlinked : Bool
  inlined : Bool
  deriving Repr, DecidableEq

/-- `prepare_dir`: mkdir (exist_ok, parents), chown, chmod, then xattrs
when non-empty. -/
def prepare_dir (umask : Nat) (st : FsState) (row : FTDirRow) :
    Option FsState :=
  let st1 := fsMkdir umask st (.tgt row.path)
  match fsChown st1 (.tgt row.path) row.uid row.gid with
  | none => none
  | some st2 =>
    match fsChmod st2 (.tgt row.path) row.mode with
    | none => none
    | some st3 =>
      if row.xattrs.isEmpty then some st3
      else fsSetXattrs st3 (.tgt row.path) row.xattrs

/-- The shared tail of `prepare_regular_copy` (lines 125-132) and
`prepare_regular_inlined` (lines 150-157): chown and chmod are skipped
when the row's uid and gid are both 0; xattrs applied when non-empty. -/
def applyRegularPerms (st : FsState) (row : FTRegularRow) :
    Option FsState :=
  let stepped :=
    if row.uid = 0 ∧ row.gid = 0 then some st
    else
      match fsChown st (.tgt row.path) row.uid row.gid with
      | none => none
      | some st2 => fsChmod st2 (.tgt row.path) row.mode
  match stepped with
  | none => none
  | some st3 =>
    if row.xattrs.isEmpty then some st3
    else fsSetXattrs st3 (.tgt row.path) row.xattrs

/-- `prepare_regular_copy`: touch (exist_ok, mode), copy the blob from
the resource dir (content untracked; fails when the blob is missing),
then the conditional chown/chmod and xattrs. -/
def prepare_regular_copy (umask : Nat) (st : FsState) (row : FTRegularRow)
    (rs : DeployPath) : Option FsState :=
  let st1 := fsTouch umask st (.tgt row.path) row.mode
  match alistLookup st1.link rs with
  | none => none
  | some _ => applyRegularPerms st1 row

/-- `prepare_regular_inlined`: touch (exist_ok, mode), write the inlined
contents (untracked), then the conditional chown/chmod and xattrs. -/
def prepare_regular_inlined (umask : Nat) (st : FsState)
    (row : FTRegularRow) : Option FsState :=
  let st1 := fsTouch umask st (.tgt row.path) row.mode
  applyRegularPerms st1 row

/-- `prepare_regular_hardlink`: `os.link` the source onto the target,
then (unless `hardlink_skip_apply_permission`) unconditional chown,
chmod and xattrs. -/
def prepare_regular_hardlink (st : FsState) (row : FTRegularRow)
    (rs : DeployPath) (skipApplyPermission : Bool) : Option FsState :=
  match fsLink st rs (.tgt row.path) with
  | none => none
  | some st1 =>
    if skipApplyPermission then some st1
    else
      match fsChown st1 (.tgt row.path) row.uid row.gid with
      | none => none
      | some st2 =>
        match fsChmod st2 (.tgt row.path) row.mode with
        | none => none
        | some st3 =>
          if row.xattrs.isEmpty then some st3
          else fsSetXattrs st3 (.tgt row.path) row.xattrs

/-- `RootfsDeployer._process_hardlinked_file_at_thread`: under the
group lock, a later member links the group head; otherwise this row
becomes the head via the inlined / first-to-prepare-hardlink / copy
path and registers itself. -/
def process_hardlinked_file (umask : Nat) (fs : FsState)
    (groups : List (Nat × Nat)) (row : FTRegularRow) (first : Bool) :
    Option (FsState × List (Nat × Nat)) :=
  match alistLookup groups row.inode_id with
  | some head =>
    (prepare_regular_hardlink fs row (.tgt head) true).map
      (fun fs2 => (fs2, groups))
  | none =>
    if row.inlined then
      (prepare_regular_inlined umask fs row).map
        (fun fs2 => (fs2, (row.inode_id, row.path) :: groups))
    else if first then
      (prepare_regular_hardlink fs row (.res row.digest) false).map
        (fun fs2 => (fs2, (row.inode_id, row.path) :: groups))
    else
      (prepare_regular_copy umask fs row (.res row.digest)).map
        (fun fs2 => (fs2, (row.inode_id, row.path) :: groups))

/-- `RootfsDeployer._process_normal_file_at_thread`. -/
def process_normal_file (umask : Nat) (fs : FsState) (row : FTRegularRow)
    (first : Bool) : Option FsState :=
  if row.inlined then prepare_regular_inlined umask fs row
  else if first then
    prepare_regular_hardlink fs row (.res row.digest) false
  else prepare_regular_copy umask fs row (.res row.digest)

/-- Loop state of `_process_regular_file_entries`: the filesystem, the
`_first_prepared_digest` set and the `_hardlink_group` map. -/
structure DeployCtx where
  fs : FsState
  firstPrepared : List Nat
  hardlinkGroup : List (Nat × Nat)
  deriving Repr, DecidableEq

/-- One iteration of the dispatch loop: compute `first_to_prepare`,
record the digest, and run the hardlinked or normal worker body. -/
def processOneRegular (umask : Nat) (ctx : DeployCtx)
    (row : FTRegularRow) : Option DeployCtx :=
  let first := ! ctx.firstPrepared.contains row.digest
  let fset :=
    if first then row.digest :: ctx.firstPrepared else ctx.firstPrepared
  if row.hardlinked then
    match process_hardlinked_file umask ctx.fs ctx.hardlinkGroup row first with
    | none => none
    | some (fs2, groups2) => some ⟨fs2, fset, groups2⟩
  else
    match process_normal_file umask ctx.fs row first with
    | none => none
    | some fs2 => some ⟨fs2, fset, ctx.hardlinkGroup⟩

def processRegulars (umask : Nat) : DeployCtx → List FTRegularRow →
    Option DeployCtx
  | ctx, [] => some ctx
  | ctx, row :: rest =>
    match processOneRegular umask ctx row with
    | none => none
    | some ctx2 => processRegulars umask ctx2 rest

def processDirs (umask : Nat) : FsState → List FTDirRow → Option FsState
  | st, [] => some st
  | st, row :: rest =>
    match prepare_dir umask st row with
    | none => none
    | some st2 => processDirs umask st2 rest

/-- `RootfsDeployer.setup_rootfs`: the directory phase, then the
regular-file phase.  (The non-regular phase in between touches only
symlink and devnode paths, disjoint from the rows modeled here.) -/
def setup_rootfs (umask : Nat) (st : FsState) (dirs : List FTDirRow)
    (regs : List FTRegularRow) : Option FsState :=
  match processDirs umask st dirs with
  | none => none
  | some st1 =>
    match processRegulars umask ⟨st1, [], []⟩ regs with
    | none => none
    | some ctx => some ctx.fs

/-- What the spec's permission invariant asks of a deployed directory
row: type, uid, gid, mode permission bits, xattrs presence. -/
def DirGood (row : FTDirRow) (m : InodeMeta) : Prop :=
  m.ftype = FType.dir ∧ m.uid = row.uid ∧ m.gid = row.gid ∧
  m.perm = row.mode &&& 4095 ∧
  ∀ kv ∈ row.xattrs, alistLookup m.xattrs kv.1 = some kv.2

/-- What actually holds of a deployed regular row: uid, gid and xattrs
as the spec asks; the permission bits match the row except that the
root-owned copy/inlined fast path leaves the umask-masked creation
bits. -/
def RegGood (umask : Nat) (row : FTRegularRow) (m : InodeMeta) : Prop :=
  m.ftype = FType.reg ∧ m.uid = row.uid ∧ m.gid = row.gid ∧
  (∀ kv ∈ row.xattrs, alistLookup m.xattrs kv.1 = some kv.2) ∧
  (m.perm = row.mode &&& 4095 ∨
    (row.uid = 0 ∧ row.gid = 0 ∧ m.perm = maskPerm umask row.mode))

/-- Initial-state side conditions: a path in the initial state is a
resource blob. -/
def IsRes : DeployPath → Bool
  | .res _ => true
  | .tgt _ => false

/-- The regular-phase loop invariant, as a statement over the remaining
rows: under the running side conditions (rows still to process have
fresh paths and distinct names, link targets are bounded by the inode
counter, a deployed path aliases a resource blob only for an already
first-prepared digest, resource links are injective and regular, and
every registered hardlink-group head already carries metadata good for
its whole group), a successful run leaves every processed row with
`RegGood` metadata and never disturbs the stat of a previously deployed
path. -/
def RegInvMotive (umask : Nat) (regs0 todo : List FTRegularRow) : Prop :=
  ∀ ctx ctxF : DeployCtx,
    processRegulars umask ctx todo = some ctxF →
    (∀ r ∈ todo, r ∈ regs0) →
    (∀ r ∈ todo, (r.xattrs.map Prod.fst).Nodup) →
    (∀ r ∈ todo, alistLookup ctx.fs.link (DeployPath.tgt r.path) = none) →
    (todo.map FTRegularRow.path).Nodup →
    (∀ p ino, alistLookup ctx.fs.link p = some ino →
      ino < ctx.fs.nextInode) →
    (∀ p ino d, alistLookup ctx.fs.link (DeployPath.tgt p) = some ino →
      alistLookup ctx.fs.link (DeployPath.res d) = some ino →
      d ∈ ctx.firstPrepared) →
    (∀ d1 d2 ino, alistLookup ctx.fs.link (DeployPath.res d1) = some ino →
      alistLookup ctx.fs.link (DeployPath.res d2) = some ino → d1 = d2) →
    (∀ d ino m0, alistLookup ctx.fs.link (DeployPath.res d) = some ino →
      alistLookup ctx.fs.inodes ino = some m0 → m0.ftype = FType.reg) →
    (∀ ino p, alistLookup ctx.hardlinkGroup ino = some p →
      ∃ m, statOf ctx.fs (DeployPath.tgt p) = some m ∧
        ∀ r ∈ regs0, r.inode_id = ino → RegGood umask r m) →
    ((∀ r ∈ todo, ∃ m, statOf ctxF.fs (DeployPath.tgt r.path) = some m ∧
        RegGood umask r m) ∧
      (∀ p ino, alistLookup ctx.fs.link (DeployPath.tgt p) = some ino →
        alistLookup ctxF.fs.link (DeployPath.tgt p) = some ino ∧
        statOf ctxF.fs (DeployPath.tgt p) = statOf ctx.fs
          (DeployPath.tgt p)))

/-- The directory-phase loop invariant: every processed dir row ends up
with `DirGood` metadata, and the phase only creates fresh target paths
with fresh inodes, leaving resource blobs, pre-existing paths and
pre-existing inodes untouched. -/
def DirInvMotive (umask : Nat) (dirs : List FTDirRow) : Prop :=
  ∀ st stF : FsState,
    processDirs umask st dirs = some stF →
    (∀ r ∈ dirs, alistLookup st.link (DeployPath.tgt r.path) = none) →
    (dirs.map FTDirRow.path).Nodup →
    (∀ r ∈ dirs, (r.xattrs.map Prod.fst).Nodup) →
    (∀ p ino, alistLookup st.link p = some ino → ino < st.nextInode) →
    ((∀ r ∈ dirs, ∃ m, statOf stF (DeployPath.tgt r.path) = some m ∧
        DirGood r m) ∧
      (∀ p ino, alistLookup st.link (DeployPath.tgt p) = some ino →
        alistLookup stF.link (DeployPath.tgt p) = some ino ∧
        statOf stF (DeployPath.tgt p) = statOf st (DeployPath.tgt p)) ∧
      (∀ d, alistLookup stF.link (DeployPath.res d) =
        alistLookup st.link (DeployPath.res d)) ∧
      (∀ i, i < st.nextInode →
        alistLookup stF.inodes i = alistLookup st.inodes i) ∧
      (∀ p ino, alistLookup stF.link p = some ino → ino < stF.nextInode) ∧
      st.nextInode ≤ stF.nextInode ∧
      (∀ p, alistLookup st.link (DeployPath.tgt p) = none →
        p ∉ dirs.map FTDirRow.path →
        alistLookup stF.link (DeployPath.tgt p) = none) ∧
      (∀ p ino, alistLookup stF.link (DeployPath.tgt p) = some ino →
        alistLookup st.link (DeployPath.tgt p) = some ino ∨
        st.nextInode ≤ ino))

/-- Effect of the copy / inlined paths: the row's target gets a fresh
inode satisfying `RegGood`; every other path and inode is untouched. -/
def FreshRegEffect (umask : Nat) (st : FsState) (row : FTRegularRow)
    (st2 : FsState) : Prop :=
  ∃ m2, alistLookup st2.link (DeployPath.tgt row.path) = some st.nextInode ∧
    alistLookup st2.inodes st.nextInode = some m2 ∧ RegGood umask row m2 ∧
    (∀ q, q ≠ DeployPath.tgt row.path →
      alistLookup st2.link q = alistLookup st.link q) ∧
    (∀ i, i ≠ st.nextInode →
      alistLookup st2.inodes i = alistLookup st.inodes i) ∧
    st2.nextInode = st.nextInode + 1

/-- Effect of the first-to-prepare hardlink path: the row's target
shares the resource blob's inode, whose metadata now satisfies
`RegGood`; every other path and inode is untouched. -/
def LinkFirstEffect (umask : Nat) (st : FsState) (row : FTRegularRow)
    (st2 : FsState) : Prop :=
  ∃ ino m2, alistLookup st.link (DeployPath.res row.digest) = some ino ∧
    alistLookup st2.link (DeployPath.tgt row.path) = some ino ∧
    alistLookup st2.inodes ino = some m2 ∧ RegGood umask row m2 ∧
    (∀ q, q ≠ DeployPath.tgt row.path →
      alistLookup st2.link q = alistLookup st.link q) ∧
    (∀ i, i ≠ ino → alistLookup st2.inodes i = alistLookup st.inodes i) ∧
    st2.nextInode = st.nextInode

/-- **C3.** For the per-bundle ready flag with revision counter,
`clear(rev)` resets the flag to not-ready only when `rev` equals the
current revision: a stale revision leaves the state (in particular the
flag) untouched, clearing at the current revision resets only the flag,
and `set()` advances the revision — so a flag set by a newer
re-preparation is never cleared by a consumer holding the revision it
observed before that `set()`. -/
theorem bundle_ready_event_revision_gated_clear :
    (∀ (s : BundleReadyEvent) (rev : Nat), rev ≠ s.rev →
        s.clear rev = s) ∧
    (∀ s : BundleReadyEvent, s.clear s.rev = { s with flag := false }) ∧
    (∀ s : BundleReadyEvent,
        (s.set).1 = s.rev + 1 ∧ (s.set).2.rev = s.rev + 1 ∧
        (s.set).2.flag = true) ∧
    (∀ (s : BundleReadyEvent) (staleRev : Nat), staleRev < (s.set).2.rev →
        ((s.set).2.clear staleRev).flag = true) := by
  refine ⟨fun s rev h => ?_, fun s => ?_, fun s => ⟨rfl, rfl, rfl⟩,
    fun s staleRev h => ?_⟩
  · simp [BundleReadyEvent.clear, h]
  · simp [BundleReadyEvent.clear]
  · have hne : staleRev ≠ (s.set).2.rev := Nat.ne_of_lt h
    simp only [BundleReadyEvent.set] at hne ⊢
    simp [BundleReadyEvent.clear, hne]

/-- Closed witness for `bundle_ready_event_revision_gated_clear`. -/
theorem bundle_ready_event_revision_gated_clear_witness :
    (BundleReadyEvent.init.set).2.clear 0 = (BundleReadyEvent.init.set).2 := by
  have h := bundle_ready_event_revision_gated_clear.1
    (BundleReadyEvent.init.set).2 0 (by decide)
  exact h

/-- **C4.** A worker waiting for a bundle performs at most
`MAX_ITERS_FOR_WAITING_BUNDLE = 6` iterations sleeping
`WAITING_BUNDLE_INTERVAL = 3` seconds each (so it sleeps at most 18
seconds), and when the ready flag is never observed set and the
per-bundle lock is never won during those iterations, the wait ends by
raising the timeout error (`BundleTimeout` kind) after exactly 18
seconds of sleeping, instead of blocking forever. -/
theorem bundle_wait_timeout_bounded :
    (∀ isSetAt revAt lockWonAt prepOkAt,
        (∀ i, i < MAX_ITERS_FOR_WAITING_BUNDLE →
            isSetAt i = false ∧ lockWonAt i = false) →
        bundleWait isSetAt revAt lockWonAt prepOkAt =
          (.timeout, MAX_ITERS_FOR_WAITING_BUNDLE * WAITING_BUNDLE_INTERVAL)) ∧
    (∀ isSetAt revAt lockWonAt prepOkAt,
        (bundleWait isSetAt revAt lockWonAt prepOkAt).2 ≤
          MAX_ITERS_FOR_WAITING_BUNDLE * WAITING_BUNDLE_INTERVAL) := by
  constructor
  · intro isSetAt revAt lockWonAt prepOkAt h
    have key : ∀ k i, i + k = MAX_ITERS_FOR_WAITING_BUNDLE →
        bundleWaitFrom isSetAt revAt lockWonAt prepOkAt i =
          (.timeout, k * WAITING_BUNDLE_INTERVAL) := by
      intro k
      induction k with
      | zero =>
        intro i hi
        have hge : ¬ i < MAX_ITERS_FOR_WAITING_BUNDLE := by omega
        rw [bundleWaitFrom]
        simp [hge]
      | succ n ih =>
        intro i hi
        have hlt : i < MAX_ITERS_FOR_WAITING_BUNDLE := by omega
        have hset := (h i hlt).1
        have hlock := (h i hlt).2
        rw [bundleWaitFrom]
        simp only [hlt, dif_pos, hset, hlock, if_false, Bool.false_eq_true]
        rw [ih (i + 1) (by omega)]
        simp [Nat.succ_mul, Nat.add_comm]
    exact key MAX_ITERS_FOR_WAITING_BUNDLE 0 rfl
  · intro isSetAt revAt lockWonAt prepOkAt
    have key : ∀ k i, i + k = MAX_ITERS_FOR_WAITING_BUNDLE →
        (bundleWaitFrom isSetAt revAt lockWonAt prepOkAt i).2 ≤
          k * WAITING_BUNDLE_INTERVAL := by
      intro k
      induction k with
      | zero =>
        intro i hi
        have hge : ¬ i < MAX_ITERS_FOR_WAITING_BUNDLE := by omega
        rw [bundleWaitFrom]
        simp [hge]
      | succ n ih =>
        intro i hi
        have hlt : i < MAX_ITERS_FOR_WAITING_BUNDLE := by omega
        rw [bundleWaitFrom]
        simp only [hlt, dif_pos]
        by_cases hset : isSetAt i
        · simp [hset]
        · by_cases hlock : lockWonAt i
          · by_cases hprep : prepOkAt i <;> simp [hset, hlock, hprep]
          · have := ih (i + 1) (by omega)
            simp only [hset, hlock, if_false, Bool.false_eq_true]
            calc WAITING_BUNDLE_INTERVAL +
                (bundleWaitFrom isSetAt revAt lockWonAt prepOkAt (i + 1)).2 ≤
                WAITING_BUNDLE_INTERVAL + n * WAITING_BUNDLE_INTERVAL :=
                  Nat.add_le_add_left this _
              _ = (n + 1) * WAITING_BUNDLE_INTERVAL := by ring
    exact key MAX_ITERS_FOR_WAITING_BUNDLE 0 rfl

/-- Closed witness for `bundle_wait_timeout_bounded`: with the flag never
set and the lock never won, the loop times out after 18 seconds. -/
theorem bundle_wait_timeout_bounded_witness :
    bundleWait (fun _ => false) (fun _ => 0) (fun _ => false) (fun _ => false) =
      (.timeout, 18) := by
  have h := bundle_wait_timeout_bounded.1 (fun _ => false) (fun _ => 0)
    (fun _ => false) (fun _ => false) (fun i _ => ⟨rfl, rfl⟩)
  simpa using h

/-- **C7, counterexample.** The claim says removing a blob that is already
absent succeeds silently; but `remove_blob_from_resource_dir` first calls
`get_blob_from_resource_dir`, which raises `FileNotFoundError` for an
absent blob: on an empty resource directory the removal errors. -/
theorem remove_blob_absent_raises :
    remove_blob_from_resource_dir (∅ : Finset Nat) 0 = .error .FileNotFound := by
  simp [remove_blob_from_resource_dir, get_blob_from_resource_dir]

/-- **C7, amended.** Removing a blob from the resource directory succeeds
iff the blob file is present (absence raises `FileNotFoundError` from the
lookup, despite the `missing_ok=True` unlink); on success exactly that
blob is removed. -/
theorem remove_blob_characterization :
    ∀ (resourceDir : Finset Nat) (digest : Nat),
      (∀ rd', remove_blob_from_resource_dir resourceDir digest = .ok rd' ↔
          (digest ∈ resourceDir ∧ rd' = resourceDir.erase digest)) ∧
      (remove_blob_from_resource_dir resourceDir digest = .error .FileNotFound ↔
          digest ∉ resourceDir) := by
  intro resourceDir digest
  unfold remove_blob_from_resource_dir get_blob_from_resource_dir
  by_cases h : digest ∈ resourceDir <;> simp [h, eq_comm]

/-- Closed witness for `remove_blob_characterization`. -/
theorem remove_blob_characterization_witness :
    remove_blob_from_resource_dir ({3} : Finset Nat) 3 =
      .ok (({3} : Finset Nat).erase 3) :=
  ((remove_blob_characterization {3} 3).1 _).mpr ⟨by decide, rfl⟩

/-- **C8.** `finalize_signing_image(force_sign)` stamps `signed_at` with
the current time iff the image is finalized (`created_at` set) and either
not already signed or `force_sign` is given; an unfinalized image raises
the `Finalized`-kind error, a signed image without `force_sign` raises
the `AlreadySigned`-kind error, and in both error cases no part of the
index (manifests nor annotations) is modified — the success value changes
the `signed_at` annotation only. -/
theorem finalize_signing_image_gate :
    ∀ (idx : ImageIndex) (force_sign : Bool) (now : Nat),
      (idx.finalize_signing_image force_sign now =
          .ok { idx with annotations := { idx.annotations with signed_at := some now } } ↔
        (idx.image_finalized = true ∧
          (idx.image_signed = false ∨ force_sign = true))) ∧
      (idx.image_finalized = false →
        idx.finalize_signing_image force_sign now = .error .NotFinalized) ∧
      (idx.image_finalized = true → idx.image_signed = true → force_sign = false →
        idx.finalize_signing_image force_sign now = .error .AlreadySigned) := by
  intro idx force_sign now
  unfold ImageIndex.finalize_signing_image ImageIndex.image_can_be_signed
  refine ⟨?_, ?_, ?_⟩
  · by_cases hf : idx.image_finalized <;>
      by_cases hs : idx.image_signed <;>
      by_cases hforce : force_sign <;>
      simp [hf, hs, hforce]
  · intro hf
    simp [hf]
  · intro hf hs hforce
    simp [hf, hs, hforce]

/-- Closed witness for `finalize_signing_image_gate`: a finalized,
unsigned index gets `signed_at` stamped. -/
theorem finalize_signing_image_gate_witness :
    ImageIndex.finalize_signing_image
        { manifests := [], annotations := { created_at := some 5, signed_at := none, other := [] } }
        false 7 =
      .ok { manifests := [],
            annotations := { created_at := some 5, signed_at := some 7, other := [] } } :=
  (finalize_signing_image_gate _ false 7).1.mpr ⟨by decide, Or.inl (by decide)⟩


theorem sorted_sortStrings (l : List String) :
    List.Sorted strLe (sortStrings l) :=
  List.sorted_insertionSort strLe l

theorem filter_sortStrings (p : String → Bool) (l : List String) :
    (sortStrings l).filter p = sortStrings (l.filter p) := by
  refine List.eq_of_perm_of_sorted ?_ ((sorted_sortStrings l).filter p)
    (sorted_sortStrings (l.filter p))
  have h1 : (List.filter p (sortStrings l)).Perm (List.filter p l) :=
    (List.perm_insertionSort strLe l).filter p
  have h2 : (sortStrings (List.filter p l)).Perm (List.filter p l) :=
    List.perm_insertionSort strLe _
  exact h1.trans h2.symm

/-- **C9.** The resume scan removes exactly the staging-directory entries
matching the claim's conditions — not a regular file, name starting with
`tmp` or shorter than 64 characters, first 64 characters not valid hex,
suffix resource id absent from the resource table, digest absent from the
resource table, or on-disk bytes not hashing to the digest in the
filename — and retains every other file. -/
theorem resume_scan_removes_iff :
    ∀ (rt : ResourceTableView) (e : ScanEntry),
      (scanDownloadDirDecision rt e = .removed ↔ specScanRemoves rt e) ∧
      (scanDownloadDirDecision rt e = .retained ↔ ¬ specScanRemoves rt e) := by
  intro rt e
  have main : scanDownloadDirDecision rt e = .removed ↔ specScanRemoves rt e := by
    unfold scanDownloadDirDecision specScanRemoves
    by_cases hfile : e.isRegFile
    case neg => simp [hfile]
    case pos =>
    by_cases hlen : e.name.length < SHA256DIGEST_HEX_LEN
    case pos => simp [hfile, hlen]
    case neg =>
    by_cases htmp : e.name.take 3 = ['t', 'm', 'p']
    case pos => simp [hfile, hlen, htmp]
    case neg =>
    simp only [hfile, hlen, htmp, not_true, or_self, or_false, false_or,
      if_false, Bool.true_eq_false, not_false_iff]
    cases hhex : bytesFromHex (e.name.take SHA256DIGEST_HEX_LEN) with
    | none => simp [hhex]
    | some digest =>
      simp only [hhex, reduceCtorEq, false_or, Option.some.injEq]
      unfold checkOneResource
      by_cases hsuf : e.name.drop (SHA256DIGEST_HEX_LEN + 1) = []
      case pos =>
        simp only [hsuf, ne_eq, not_true_eq_false, if_false, false_and, false_or]
        by_cases hd : rt.digestExists digest
        · by_cases hh : e.fileHash = digest <;>
            simp [hd, hh]
        · simp [hd]
      case neg =>
        simp only [ne_eq, hsuf, not_false_eq_true, if_true]
        cases hparse : pythonIntOfString (e.name.drop (SHA256DIGEST_HEX_LEN + 1)) with
        | none => simp [hparse, hsuf]
        | some rsid =>
          by_cases hrs : rt.rsidExists rsid
          · by_cases hd : rt.digestExists digest
            · by_cases hh : e.fileHash = digest <;>
                simp [hparse, hsuf, hrs, hd, hh]
            · simp [hparse, hsuf, hrs, hd]
          · simp [hparse, hsuf, hrs]
  refine ⟨main, ?_⟩
  rw [← main]
  cases h : scanDownloadDirDecision rt e <;> simp [h]

/-- Closed witness for `resume_scan_removes_iff`: a valid 64-hex-digit
name whose digest is in the table and whose bytes hash correctly is
retained. -/
theorem resume_scan_removes_iff_witness :
    scanDownloadDirDecision
      { rsidExists := fun _ => true,
        digestExists := fun d => d = List.replicate 32 0 }
      { name := List.replicate 64 '0', isRegFile := true,
        fileHash := List.replicate 32 0 } = .retained :=
  (resume_scan_removes_iff _ _).2.mpr (by
    intro h
    have h0 : bytesFromHex (List.take SHA256DIGEST_HEX_LEN (List.replicate 64 '0')) =
        some (List.replicate 32 0) := by decide
    rcases h with h | h | h | h | ⟨h1, _⟩ | ⟨d, hd, hex⟩ | ⟨d, hd, hh⟩
    · exact absurd h (by decide)
    · exact absurd h (by decide)
    · exact absurd h (by decide)
    · have h' : bytesFromHex (List.take SHA256DIGEST_HEX_LEN (List.replicate 64 '0')) =
          none := h
      rw [h0] at h'
      exact Option.noConfusion h'
    · exact absurd h1 (by decide)
    · have hd' : bytesFromHex (List.take SHA256DIGEST_HEX_LEN (List.replicate 64 '0')) =
          some d := hd
      rw [h0] at hd'
      have hdd := Option.some.inj hd'
      subst hdd
      exact absurd hex (by decide)
    · have hd' : bytesFromHex (List.take SHA256DIGEST_HEX_LEN (List.replicate 64 '0')) =
          some d := hd
      rw [h0] at hd'
      have hdd := Option.some.inj hd'
      subst hdd
      exact absurd hh (by decide))

/-- **C5, counterexample.** The claimed member order fails twice on the
code.  (1) For an unsigned image (no `index.jwt`), `pack_artifact` does
not emit the members without `index.jwt` — it raises `FileNotFoundError`,
because `add_file` is called for `index.jwt` unconditionally.  (2) For a
signed image whose subdirectories are listed by `os.scandir` as
`["b", "a"]`, the members are emitted with `b` before `a`: the code never
sorts `os.walk`'s directory list, so subdirectories are not emitted in
lexicographic order. -/
theorem pack_artifact_order_counterexample :
    (pack_artifact (.mk [IMAGE_INDEX_FNAME] []) =
        .error (.FileNotFound INDEX_JWT_FNAME) ∧
      specPackOrder (.mk [IMAGE_INDEX_FNAME] []) = [IMAGE_INDEX_FNAME]) ∧
    (pack_artifact
        (.mk [IMAGE_INDEX_FNAME, INDEX_JWT_FNAME]
          [("b", .mk ["x"] []), ("a", .mk ["y"] [])]) =
        .ok ["index.json", "index.jwt", "b/", "b/x", "a/", "a/y"] ∧
      specPackOrder
        (.mk [IMAGE_INDEX_FNAME, INDEX_JWT_FNAME]
          [("b", .mk ["x"] []), ("a", .mk ["y"] [])]) =
        ["index.json", "index.jwt", "a/", "a/y", "b/", "b/x"] ∧
      (["index.json", "index.jwt", "b/", "b/x", "a/", "a/y"] : List String) ≠
        ["index.json", "index.jwt", "a/", "a/y", "b/", "b/x"]) := by
  refine ⟨⟨?_, ?_⟩, ?_, ?_, ?_⟩ <;> first
    | decide
    | rfl

/-- **C5, amended.** When the image root contains both `index.json` and
`index.jwt`, `pack_artifact` emits `index.json` first, `index.jwt`
second (unconditionally — packing an unsigned image fails instead of
omitting the member), then the remaining top-level files in
lexicographic order, then the subdirectories in `os.scandir` order (not
sorted), each directory member followed by that directory's files in
lexicographic order and then its own subdirectories, again in scandir
order. -/
theorem pack_artifact_actual_order :
    ∀ root : SrcDir, IMAGE_INDEX_FNAME ∈ root.files →
      INDEX_JWT_FNAME ∈ root.files →
      pack_artifact root = .ok (amendedPackOrder root) := by
  intro root h1 h2
  unfold pack_artifact amendedPackOrder
  rw [if_pos h1, if_pos h2, filter_sortStrings]

/-- Closed witness for `pack_artifact_actual_order`. -/
theorem pack_artifact_actual_order_witness :
    pack_artifact
        (.mk [IMAGE_INDEX_FNAME, INDEX_JWT_FNAME]
          [("b", .mk ["x"] []), ("a", .mk ["y"] [])]) =
      .ok (amendedPackOrder
        (.mk [IMAGE_INDEX_FNAME, INDEX_JWT_FNAME]
          [("b", .mk ["x"] []), ("a", .mk ["y"] [])])) :=
  pack_artifact_actual_order _ (by decide) (by decide)

theorem dictMem_iff_mem_keys (m : CertMap) (k : Nat) :
    dictMem m k = true ↔ k ∈ m.map (·.1) := by
  simp only [dictMem, List.any_eq_true, decide_eq_true_eq, List.mem_map]

theorem dictInsert_fresh (m : CertMap) (k : Nat) (v : Cert)
    (h : k ∉ m.map (·.1)) : dictInsert m k v = m ++ [(k, v)] := by
  have hb : dictMem m k = false := by
    rw [← Bool.not_eq_true, dictMem_iff_mem_keys]
    exact h
  simp [dictInsert, hb]

theorem buildMaps_ok_of :
    ∀ (certs : List Cert) (pre1 pre2 : CertMap),
      pre1.length + certs.length ≤ MAX_CHAIN_LENGTH →
      (∀ c ∈ certs, c.subject ≠ c.issuer) →
      (∀ c ∈ certs, c.issuer ∉ pre1.map (·.1)) →
      (issuersOf certs).Nodup →
      (∀ c ∈ certs, c.subject ∉ pre2.map (·.1)) →
      (subjectsOf certs).Nodup →
      buildMaps certs pre1 pre2 = .ok (pre1 ++ fullImap certs, pre2 ++ fullSmap certs)
  | [], pre1, pre2, _, _, _, _, _, _ => by
    simp [buildMaps, fullImap, fullSmap]
  | c :: rest, pre1, pre2, hlen, hss, hif, hin, hsf, hsn => by
    have hlt : ¬ MAX_CHAIN_LENGTH ≤ pre1.length := by
      simp only [List.length_cons] at hlen
      omega
    have hcss : ¬ c.subject = c.issuer := hss c (by simp)
    rw [buildMaps, if_neg hlt, if_neg hcss,
      dictInsert_fresh pre1 c.issuer c (hif c (by simp)),
      dictInsert_fresh pre2 c.subject c (hsf c (by simp))]
    simp only [issuersOf, subjectsOf, List.map_cons, List.nodup_cons] at hin hsn
    rw [buildMaps_ok_of rest (pre1 ++ [(c.issuer, c)]) (pre2 ++ [(c.subject, c)])
      (by simp only [List.length_append, List.length_cons, List.length_nil] at hlen ⊢
          omega)
      (fun d hd => hss d (by simp [hd]))
      (fun d hd => by
        simp only [List.map_append, List.mem_append]
        push_neg
        refine ⟨hif d (by simp [hd]), ?_⟩
        simp only [List.map_cons, List.map_nil, List.mem_singleton]
        intro hc
        exact hin.1 (hc ▸ List.mem_map_of_mem (·.issuer) hd))
      hin.2
      (fun d hd => by
        simp only [List.map_append, List.mem_append]
        push_neg
        refine ⟨hsf d (by simp [hd]), ?_⟩
        simp only [List.map_cons, List.map_nil, List.mem_singleton]
        intro hc
        exact hsn.1 (hc ▸ List.mem_map_of_mem (·.subject) hd))
      hsn.2]
    simp [fullImap, fullSmap]

theorem buildMaps_error_of :
    ∀ (certs : List Cert) (pre1 pre2 : CertMap),
      ((∃ c ∈ certs, c.subject = c.issuer) ∨
        (MAX_CHAIN_LENGTH < pre1.length + certs.length ∧ certs ≠ [])) →
      (∀ c ∈ certs, c.issuer ∉ pre1.map (·.1)) →
      (issuersOf certs).Nodup →
      ∃ e, buildMaps certs pre1 pre2 = .error e
  | [], _, _, h, _, _ => by
    rcases h with ⟨c, hc, _⟩ | ⟨_, hne⟩
    · exact absurd hc (List.not_mem_nil c)
    · exact absurd rfl hne
  | c :: rest, pre1, pre2, h, hif, hin => by
    by_cases hlt : MAX_CHAIN_LENGTH ≤ pre1.length
    · exact ⟨.ChainTooLong, by rw [buildMaps, if_pos hlt]⟩
    by_cases hcss : c.subject = c.issuer
    · exact ⟨.RootInChain, by rw [buildMaps, if_neg hlt, if_pos hcss]⟩
    rw [buildMaps, if_neg hlt, if_neg hcss,
      dictInsert_fresh pre1 c.issuer c (hif c (by simp))]
    simp only [issuersOf, List.map_cons, List.nodup_cons] at hin
    refine buildMaps_error_of rest (pre1 ++ [(c.issuer, c)]) _ ?_
      (fun d hd => by
        simp only [List.map_append, List.mem_append]
        push_neg
        refine ⟨hif d (by simp [hd]), ?_⟩
        simp only [List.map_cons, List.map_nil, List.mem_singleton]
        intro hc
        exact hin.1 (hc ▸ List.mem_map_of_mem (·.issuer) hd))
      hin.2
    rcases h with ⟨d, hd, hss⟩ | ⟨hlong, _⟩
    · rcases List.mem_cons.mp hd with rfl | hd'
      · exact absurd hss hcss
      · exact Or.inl ⟨d, hd', hss⟩
    · right
      constructor
      · simp only [List.length_append, List.length_cons, List.length_nil] at hlong ⊢
        omega
      · intro hrest
        subst hrest
        simp only [List.length_cons, List.length_nil] at hlong
        omega

theorem lookup_fullSmap_none (certs : List Cert) (k : Nat) :
    dictLookup (fullSmap certs) k = none ↔ k ∉ subjectsOf certs := by
  simp only [dictLookup, Option.map_eq_none', List.find?_eq_none, fullSmap,
    subjectsOf, List.mem_map, decide_eq_true_eq]
  constructor
  · rintro h ⟨c, hc, rfl⟩
    exact h (c.subject, c) ⟨c, hc, rfl⟩ rfl
  · rintro h p ⟨c, hc, rfl⟩ hk
    exact h ⟨c, hc, hk⟩

theorem lookup_fullSmap_some (certs : List Cert) (k : Nat) (c : Cert) :
    (subjectsOf certs).Nodup →
    (dictLookup (fullSmap certs) k = some c ↔ (c ∈ certs ∧ c.subject = k)) := by
  induction certs with
  | nil => simp [dictLookup, fullSmap]
  | cons d rest ih =>
    intro hs
    simp only [subjectsOf, List.map_cons, List.nodup_cons] at hs
    by_cases hd : d.subject = k
    · have hfind : dictLookup (fullSmap (d :: rest)) k = some d := by
        simp only [dictLookup, fullSmap, List.map_cons]
        rw [List.find?_cons_of_pos _ (by simpa using hd)]
        rfl
      rw [hfind]
      simp only [Option.some.injEq, List.mem_cons]
      constructor
      · rintro rfl
        exact ⟨Or.inl rfl, hd⟩
      · rintro ⟨hmem | hmem, hsub⟩
        · exact hmem.symm
        · exact absurd
            (show d.subject ∈ List.map (·.subject) rest from
              (hsub.trans hd.symm) ▸ List.mem_map_of_mem (·.subject) hmem)
            hs.1
    · have hfind : dictLookup (fullSmap (d :: rest)) k =
          dictLookup (fullSmap rest) k := by
        simp only [dictLookup, fullSmap, List.map_cons]
        rw [List.find?_cons_of_neg _ (by simpa using hd)]
      rw [hfind, ih (by simpa [subjectsOf] using hs.2)]
      simp only [List.mem_cons]
      constructor
      · rintro ⟨hm, hsub⟩
        exact ⟨Or.inr hm, hsub⟩
      · rintro ⟨hmem | hmem, hsub⟩
        · exact absurd (hmem ▸ hsub) hd
        · exact ⟨hmem, hsub⟩

theorem findEE_some_spec (certs : List Cert) (ee : Cert)
    (h : findEE (fullImap certs) = some ee) :
    ee ∈ certs ∧ ee.subject ∉ issuersOf certs := by
  simp only [findEE, Option.map_eq_some'] at h
  rcases h with ⟨p, hfind, rfl⟩
  have hmem := List.mem_of_find?_eq_some hfind
  have hpred := List.find?_some hfind
  rcases List.mem_map.mp hmem with ⟨c, hc, rfl⟩
  simp only [Bool.not_eq_true'] at hpred
  refine ⟨hc, ?_⟩
  intro hin
  have : dictMem (fullImap certs) c.subject = true := by
    rw [dictMem_iff_mem_keys]
    simpa [fullImap, issuersOf, List.map_map, Function.comp] using hin
  rw [this] at hpred
  exact Bool.noConfusion hpred

theorem findEE_isSome_of (certs : List Cert) (c : Cert)
    (hmem : c ∈ certs) (hpred : c.subject ∉ issuersOf certs) :
    ∃ d, findEE (fullImap certs) = some d := by
  have hex : ∃ p ∈ fullImap certs, (! dictMem (fullImap certs) p.2.subject) = true := by
    refine ⟨(c.issuer, c), List.mem_map_of_mem _ hmem, ?_⟩
    simp only [Bool.not_eq_true']
    rw [← Bool.not_eq_true, dictMem_iff_mem_keys]
    simpa [fullImap, issuersOf, List.map_map, Function.comp] using hpred
  have := List.find?_isSome.mpr hex
  rcases Option.isSome_iff_exists.mp this with ⟨p, hp⟩
  exact ⟨p.2, by simp [findEE, hp]⟩

theorem lookup_fullSmap_some_weak (certs : List Cert) (k : Nat) (c : Cert)
    (h : dictLookup (fullSmap certs) k = some c) :
    c ∈ certs ∧ c.subject = k := by
  simp only [dictLookup, Option.map_eq_some'] at h
  rcases h with ⟨p, hf, rfl⟩
  have hpred := List.find?_some hf
  have hmem := List.mem_of_find?_eq_some hf
  rcases List.mem_map.mp hmem with ⟨d, hd, rfl⟩
  simp only [decide_eq_true_eq] at hpred
  exact ⟨hd, hpred⟩

theorem findIntermsGo_sound (certs : List Cert) :
    ∀ (fuel cur depth : Nat) (l : List Cert),
      findIntermsGo (fullSmap certs) fuel cur depth = .ok l →
      (∀ c ∈ l, c ∈ certs) ∧
      ∀ a : Cert, a.issuer = cur →
        List.Chain ChainLink a l ∧
        ((a :: l).getLast (List.cons_ne_nil a l)).issuer ∉ subjectsOf certs := by
  intro fuel
  induction fuel with
  | zero =>
    intro cur depth l h
    rw [findIntermsGo] at h
    cases hlk : dictLookup (fullSmap certs) cur with
    | none =>
      rw [hlk] at h
      cases h
      refine ⟨by simp, fun a ha => ⟨List.Chain.nil, ?_⟩⟩
      simp only [List.getLast_singleton]
      exact ha ▸ (lookup_fullSmap_none certs cur).mp hlk
    | some cert =>
      rw [hlk] at h
      exact Except.noConfusion h
  | succ f ih =>
    intro cur depth l h
    rw [findIntermsGo] at h
    cases hlk : dictLookup (fullSmap certs) cur with
    | none =>
      rw [hlk] at h
      cases h
      refine ⟨by simp, fun a ha => ⟨List.Chain.nil, ?_⟩⟩
      simp only [List.getLast_singleton]
      exact ha ▸ (lookup_fullSmap_none certs cur).mp hlk
    | some cert =>
      rw [hlk] at h
      have h2 : (if MAX_CHAIN_LENGTH < depth + 1 then
          (Except.error ChainErr.DepthExceeded : Except ChainErr (List Cert))
          else match findIntermsGo (fullSmap certs) f cert.issuer (depth + 1) with
            | Except.error e => Except.error e
            | Except.ok rest => Except.ok (cert :: rest)) = Except.ok l := h
      clear h
      by_cases hdep : MAX_CHAIN_LENGTH < depth + 1
      · rw [if_pos hdep] at h2
        exact Except.noConfusion h2
      · rw [if_neg hdep] at h2
        cases hrec : findIntermsGo (fullSmap certs) f cert.issuer (depth + 1) with
        | error e =>
          rw [hrec] at h2
          exact Except.noConfusion h2
        | ok rest =>
          rw [hrec] at h2
          cases h2
          have hcert := lookup_fullSmap_some_weak certs cur cert hlk
          have hrec' := ih cert.issuer (depth + 1) rest hrec
          refine ⟨?_, fun a ha => ⟨?_, ?_⟩⟩
          · intro c hc
            rcases List.mem_cons.mp hc with rfl | hc'
            · exact hcert.1
            · exact hrec'.1 c hc'
          · exact List.Chain.cons (show cert.subject = a.issuer by
              rw [hcert.2, ha]) ((hrec'.2 cert rfl).1)
          · rw [List.getLast_cons (List.cons_ne_nil cert rest)]
            exact (hrec'.2 cert rfl).2

theorem findIntermsGo_complete (certs : List Cert)
    (hs : (subjectsOf certs).Nodup) :
    ∀ (l : List Cert) (a : Cert) (depth fuel : Nat),
      List.Chain ChainLink a l → (∀ c ∈ l, c ∈ certs) →
      ((a :: l).getLast (List.cons_ne_nil a l)).issuer ∉ subjectsOf certs →
      depth + l.length ≤ MAX_CHAIN_LENGTH → l.length ≤ fuel →
      findIntermsGo (fullSmap certs) fuel a.issuer depth = .ok l := by
  intro l
  induction l with
  | nil =>
    intro a depth fuel _ _ hexit _ _
    simp only [List.getLast_singleton] at hexit
    have hnone := (lookup_fullSmap_none certs a.issuer).mpr hexit
    cases fuel <;> simp [findIntermsGo, hnone]
  | cons c t ih =>
    intro a depth fuel hchain hmem hexit hdep hfuel
    cases hchain with
    | cons hlink htail =>
      have hlookup : dictLookup (fullSmap certs) a.issuer = some c :=
        (lookup_fullSmap_some certs a.issuer c hs).mpr
          ⟨hmem c (List.mem_cons_self c t), hlink⟩
      cases fuel with
      | zero =>
        simp only [List.length_cons] at hfuel
        omega
      | succ f =>
        have hdep' : ¬ MAX_CHAIN_LENGTH < depth + 1 := by
          simp only [List.length_cons] at hdep
          omega
        have hexit' : ((c :: t).getLast (List.cons_ne_nil c t)).issuer ∉
            subjectsOf certs := by
          rw [List.getLast_cons (List.cons_ne_nil c t)] at hexit
          exact hexit
        have hrec := ih c (depth + 1) f htail
          (fun d hd => hmem d (List.mem_cons_of_mem c hd)) hexit'
          (by simp only [List.length_cons] at hdep; omega)
          (by simp only [List.length_cons] at hfuel; omega)
        simp [findIntermsGo, hlookup, hdep', hrec]

theorem subject_injOn (certs : List Cert) (hs : (subjectsOf certs).Nodup) :
    ∀ a ∈ certs, ∀ b ∈ certs, a.subject = b.subject → a = b := by
  intro a ha b hb h
  exact List.inj_on_of_nodup_map
    (show (List.map (·.subject) certs).Nodup from hs) ha hb h

theorem getLast_congr_eq {α : Type} (u v : List α) (h1 : u ≠ []) (h2 : v ≠ [])
    (he : u = v) : u.getLast h1 = v.getLast h2 := by
  subst he
  rfl

theorem getLast_append_right {α : Type} (x y : List α) (hy : y ≠ [])
    (hxy : x ++ y ≠ []) : (x ++ y).getLast hxy = y.getLast hy := by
  rw [List.getLast_append]
  rw [dif_neg (by simpa [List.isEmpty_iff] using hy)]

theorem chain_last_link {α : Type} {R : α → α → Prop} :
    ∀ (l : List α) (a b : α), List.Chain R a (l ++ [b]) →
      R ((a :: l).getLast (List.cons_ne_nil a l)) b := by
  intro l
  induction l with
  | nil =>
    intro a b h
    cases h with
    | cons hR _ =>
      simpa [List.getLast_singleton] using hR
  | cons c t ih =>
    intro a b h
    cases h with
    | cons hR htail =>
      rw [List.getLast_cons (List.cons_ne_nil c t)]
      exact ih c b htail

theorem maxchain_unique (certs : List Cert) (hs : (subjectsOf certs).Nodup) :
    ∀ (l1 l2 : List Cert) (ee : Cert),
      List.Chain ChainLink ee l1 → List.Chain ChainLink ee l2 →
      (∀ c ∈ l1, c ∈ certs) → (∀ c ∈ l2, c ∈ certs) →
      ((ee :: l1).getLast (List.cons_ne_nil ee l1)).issuer ∉ subjectsOf certs →
      ((ee :: l2).getLast (List.cons_ne_nil ee l2)).issuer ∉ subjectsOf certs →
      l1 = l2 := by
  intro l1
  induction l1 with
  | nil =>
    intro l2 ee _ hc2 _ hm2 hx1 _
    cases l2 with
    | nil => rfl
    | cons d t2 =>
      cases hc2 with
      | cons hR _ =>
        simp only [List.getLast_singleton] at hx1
        exact absurd (show ee.issuer ∈ subjectsOf certs from
          hR ▸ List.mem_map_of_mem (·.subject) (hm2 d (List.mem_cons_self d t2)))
          hx1
  | cons d1 t1 ih =>
    intro l2 ee hc1 hc2 hm1 hm2 hx1 hx2
    cases l2 with
    | nil =>
      cases hc1 with
      | cons hR _ =>
        simp only [List.getLast_singleton] at hx2
        exact absurd (show ee.issuer ∈ subjectsOf certs from
          hR ▸ List.mem_map_of_mem (·.subject) (hm1 d1 (List.mem_cons_self d1 t1)))
          hx2
    | cons d2 t2 =>
      cases hc1 with
      | cons hR1 ht1 =>
        cases hc2 with
        | cons hR2 ht2 =>
          have hd : d1 = d2 :=
            subject_injOn certs hs d1 (hm1 d1 (List.mem_cons_self d1 t1))
              d2 (hm2 d2 (List.mem_cons_self d2 t2)) (by rw [hR1, hR2])
          subst hd
          have := ih t2 d1 ht1 ht2
            (fun c hc => hm1 c (List.mem_cons_of_mem d1 hc))
            (fun c hc => hm2 c (List.mem_cons_of_mem d1 hc))
            (by rw [List.getLast_cons (List.cons_ne_nil d1 t1)] at hx1; exact hx1)
            (by rw [List.getLast_cons (List.cons_ne_nil d1 t2)] at hx2; exact hx2)
          rw [this]

theorem maxchain_nodup (certs : List Cert) (hs : (subjectsOf certs).Nodup)
    (hss : ∀ c ∈ certs, c.subject ≠ c.issuer) :
    ∀ (l : List Cert) (ee : Cert),
      List.Chain ChainLink ee l → ee ∈ certs → (∀ c ∈ l, c ∈ certs) →
      ((ee :: l).getLast (List.cons_ne_nil ee l)).issuer ∉ subjectsOf certs →
      (ee :: l).Nodup := by
  intro l
  induction l with
  | nil =>
    intro ee _ _ _ _
    simp
  | cons d t ih =>
    intro ee hchain heem hmem hexit
    cases hchain with
    | cons hR htail =>
      have htailexit : ((d :: t).getLast (List.cons_ne_nil d t)).issuer ∉
          subjectsOf certs := by
        rw [List.getLast_cons (List.cons_ne_nil d t)] at hexit
        exact hexit
      have htnodup : (d :: t).Nodup :=
        ih d htail (hmem d (List.mem_cons_self d t))
          (fun c hc => hmem c (List.mem_cons_of_mem d hc)) htailexit
      rw [List.nodup_cons]
      refine ⟨?_, htnodup⟩
      intro heein
      rcases List.mem_cons.mp heein with rfl | heet
      · exact hss ee heem (hR ▸ rfl)
      · rcases List.append_of_mem heet with ⟨t1, t2, rfl⟩
        have hsplit := List.chain_split.mp
          (show List.Chain ChainLink ee ((d :: t1) ++ ee :: t2) from
            List.Chain.cons hR htail)
        have hchain2 : List.Chain ChainLink ee t2 := hsplit.2
        have hexit2 : ((ee :: t2).getLast (List.cons_ne_nil ee t2)).issuer ∉
            subjectsOf certs := by
          have hform : ee :: d :: (t1 ++ ee :: t2) =
              (ee :: d :: t1) ++ (ee :: t2) := by simp
          have hval : (ee :: d :: (t1 ++ ee :: t2)).getLast
              (List.cons_ne_nil ee (d :: (t1 ++ ee :: t2))) =
              (ee :: t2).getLast (List.cons_ne_nil ee t2) :=
            (getLast_congr_eq _ _ _ (by simp) hform).trans
              (getLast_append_right (ee :: d :: t1) (ee :: t2)
                (List.cons_ne_nil ee t2) (by simp))
          rw [hval] at hexit
          exact hexit
        have heq := maxchain_unique certs hs (d :: (t1 ++ ee :: t2)) t2 ee
          (List.Chain.cons hR htail) hchain2 hmem
          (fun c hc => hmem c (List.mem_cons_of_mem d (List.mem_append_right t1
            (List.mem_cons_of_mem ee hc))))
          hexit hexit2
        have hlen : (d :: (t1 ++ ee :: t2)).length = t2.length := by
          rw [heq]
        simp only [List.length_cons, List.length_append] at hlen
        omega

theorem maxchain_candidates (certs : List Cert) (hs : (subjectsOf certs).Nodup)
    (ee : Cert) (l : List Cert)
    (hperm : certs.Perm (ee :: l))
    (hchain : List.Chain ChainLink ee l)
    (hexit : ((ee :: l).getLast (List.cons_ne_nil ee l)).issuer ∉
      subjectsOf certs) :
    isEECandidate certs ee ∧ ∀ c, isEECandidate certs c → c = ee := by
  have hnodupC : certs.Nodup := List.Nodup.of_map _ hs
  have hnodup : (ee :: l).Nodup := hperm.nodup hnodupC
  have heemem : ee ∈ certs := hperm.mem_iff.mpr (List.mem_cons_self ee l)
  have heenotin : ee ∉ l := (List.nodup_cons.mp hnodup).1
  have hcand : isEECandidate certs ee := by
    refine ⟨heemem, ?_⟩
    intro c' hc' hne hissue
    have hc'in : c' ∈ ee :: l := hperm.mem_iff.mp hc'
    rcases List.mem_cons.mp hc'in with rfl | hc'l
    · exact hne rfl
    rcases List.append_of_mem hc'l with ⟨t1, t2, rfl⟩
    cases t2 with
    | nil =>
      have hlast : ((ee :: (t1 ++ [c'])).getLast
          (List.cons_ne_nil ee (t1 ++ [c']))) = c' := by
        have hform : ee :: (t1 ++ [c']) = (ee :: t1) ++ [c'] := by simp
        exact (getLast_congr_eq _ _ _ (by simp) hform).trans
          (List.getLast_concat _)
      rw [hlast] at hexit
      exact hexit (hissue ▸ List.mem_map_of_mem (·.subject) heemem)
    | cons d t2' =>
      have hsplit := List.chain_split.mp
        (show List.Chain ChainLink ee (t1 ++ c' :: (d :: t2')) from hchain)
      cases hsplit.2 with
      | cons hRd _ =>
        have hdmem : d ∈ certs := hperm.mem_iff.mpr
          (List.mem_cons_of_mem ee (List.mem_append_right t1
            (List.mem_cons_of_mem c' (List.mem_cons_self d t2'))))
        have hde : d = ee := subject_injOn certs hs d hdmem ee heemem
          (by rw [show d.subject = c'.issuer from hRd, hissue])
        exact heenotin (hde ▸ (List.mem_append_right t1
          (List.mem_cons_of_mem c' (List.mem_cons_self d t2'))))
  refine ⟨hcand, ?_⟩
  intro c hc
  by_contra hne
  have hcin : c ∈ ee :: l := hperm.mem_iff.mp hc.1
  rcases List.mem_cons.mp hcin with rfl | hcl
  · exact hne rfl
  rcases List.append_of_mem hcl with ⟨t1, t2, rfl⟩
  have hsplit := List.chain_split.mp
    (show List.Chain ChainLink ee (t1 ++ c :: t2) from hchain)
  have hlink := chain_last_link t1 ee c hsplit.1
  have hpredmem_el : (ee :: t1).getLast (List.cons_ne_nil ee t1) ∈ ee :: t1 :=
    List.getLast_mem (List.cons_ne_nil ee t1)
  have hpredmem : (ee :: t1).getLast (List.cons_ne_nil ee t1) ∈ certs := by
    refine hperm.mem_iff.mpr ?_
    rcases List.mem_cons.mp hpredmem_el with heq | hmem1
    · rw [heq]
      exact List.mem_cons_self ee _
    · exact List.mem_cons_of_mem ee (List.mem_append_left _ hmem1)
  have hpredne : (ee :: t1).getLast (List.cons_ne_nil ee t1) ≠ c := by
    intro heq
    have hnodup' : ((ee :: t1) ++ (c :: t2)).Nodup := by
      simpa using hnodup
    have hdisj := List.disjoint_of_nodup_append hnodup'
    exact hdisj (heq ▸ hpredmem_el) (List.mem_cons_self c t2)
  exact hc.2 ((ee :: t1).getLast (List.cons_ne_nil ee t1)) hpredmem hpredne
    (show ChainLink _ c from hlink).symm

theorem subject_not_issuer_of_candidate (certs : List Cert) (c : Cert)
    (hnoSS : ∀ d ∈ certs, d.subject ≠ d.issuer)
    (hc : isEECandidate certs c) : c.subject ∉ issuersOf certs := by
  intro hin
  rcases List.mem_map.mp hin with ⟨c', hc', hceq⟩
  by_cases he : c' = c
  · exact hnoSS c hc.1 (by rw [← he] at hceq ⊢; exact hceq.symm)
  · exact hc.2 c' hc' he hceq

theorem candidate_of_subject_not_issuer (certs : List Cert) (c : Cert)
    (hmem : c ∈ certs) (hnin : c.subject ∉ issuersOf certs) :
    isEECandidate certs c := by
  refine ⟨hmem, ?_⟩
  intro c' hc' _ hiss
  exact hnin (hiss ▸ List.mem_map_of_mem (·.issuer) hc')

/-- **C2, amended.** When the certificates carry pairwise-distinct subject
names and pairwise-distinct issuer names (so that the two Python dicts do
not shadow any certificate), the validator accepts `C` iff `C` contains no
self-signed certificate, has at most `MAX_CHAIN_LENGTH = 6` certificates,
has exactly one end-entity candidate, and forms exactly one issuer chain
(a permutation of `C` that is issuer-linked from the end entity and whose
topmost issuer names no subject of `C`).  Without the distinctness
proviso the claim fails: see the counterexample. -/
theorem x5c_validator_characterization :
    ∀ certs : List Cert,
      (subjectsOf certs).Nodup → (issuersOf certs).Nodup →
      ((∃ res, x5cValidator certs = .ok res) ↔ specChainAccepts certs) := by
  intro certs hs hi
  constructor
  · rintro ⟨⟨ee, interms⟩, hok⟩
    unfold x5cValidator at hok
    cases hbm : buildMaps certs [] [] with
    | error e =>
      rw [hbm] at hok
      exact Except.noConfusion hok
    | ok maps =>
      obtain ⟨imap, smap⟩ := maps
      rw [hbm] at hok
      have hok2 : x5cAfterMaps imap smap = .ok (ee, interms) := hok
      clear hok
      have hnoSS : ∀ c ∈ certs, c.subject ≠ c.issuer := by
        intro c hc hself
        obtain ⟨e, he⟩ := buildMaps_error_of certs [] []
          (Or.inl ⟨c, hc, hself⟩) (by simp) hi
        rw [he] at hbm
        exact Except.noConfusion hbm
      have hlen : certs.length ≤ MAX_CHAIN_LENGTH := by
        by_contra hlong
        push_neg at hlong
        have hne : certs ≠ [] := by
          intro h0
          rw [h0] at hlong
          simp only [List.length_nil] at hlong
          omega
        obtain ⟨e, he⟩ := buildMaps_error_of certs [] []
          (Or.inr ⟨by simpa using hlong, hne⟩) (by simp) hi
        rw [he] at hbm
        exact Except.noConfusion hbm
      have hmaps := buildMaps_ok_of certs [] [] (by simpa using hlen) hnoSS
        (by simp) hi (by simp) hs
      rw [hmaps] at hbm
      have himap : imap = fullImap certs := by
        have := (Except.ok.inj hbm)
        simpa using congrArg Prod.fst this.symm
      have hsmap : smap = fullSmap certs := by
        have := (Except.ok.inj hbm)
        simpa using congrArg Prod.snd this.symm
      subst himap
      subst hsmap
      unfold x5cAfterMaps at hok2
      cases hee : findEE (fullImap certs) with
      | none =>
        rw [hee] at hok2
        exact Except.noConfusion hok2
      | some ee0 =>
        rw [hee] at hok2
        have hok3 : (match findInterms (fullSmap certs) ee0.issuer 0 with
            | Except.error e => Except.error e
            | Except.ok interms => x5cFinish (fullImap certs) ee0 interms) =
            Except.ok (ee, interms) := hok2
        clear hok2
        have hee0 := findEE_some_spec certs ee0 hee
        cases hwalk : findInterms (fullSmap certs) ee0.issuer 0 with
        | error e =>
          rw [hwalk] at hok3
          exact Except.noConfusion hok3
        | ok interms0 =>
          rw [hwalk] at hok3
          have hfin : x5cFinish (fullImap certs) ee0 interms0 =
              .ok (ee, interms) := hok3
          have hsan : (fullImap certs).length = interms0.length + 1 := by
            by_contra hne
            unfold x5cFinish at hfin
            rw [if_pos hne] at hfin
            exact Except.noConfusion hfin
          have hsound := findIntermsGo_sound certs
            (MAX_CHAIN_LENGTH + 1 - 0) ee0.issuer 0 interms0 hwalk
          have hchain : List.Chain ChainLink ee0 interms0 :=
            (hsound.2 ee0 rfl).1
          have hexit : ((ee0 :: interms0).getLast
              (List.cons_ne_nil ee0 interms0)).issuer ∉ subjectsOf certs :=
            (hsound.2 ee0 rfl).2
          have hmemb : ∀ c ∈ interms0, c ∈ certs := hsound.1
          have hnodup01 : (ee0 :: interms0).Nodup :=
            maxchain_nodup certs hs hnoSS interms0 ee0 hchain hee0.1 hmemb hexit
          have hsub : (ee0 :: interms0) ⊆ certs := by
            intro c hc
            rcases List.mem_cons.mp hc with rfl | hc'
            · exact hee0.1
            · exact hmemb c hc'
          have hlencerts : certs.length = interms0.length + 1 := by
            have : (fullImap certs).length = certs.length := by
              simp [fullImap]
            omega
          have hperm : certs.Perm (ee0 :: interms0) := by
            refine ((hnodup01.subperm hsub).perm_of_length_le ?_).symm
            rw [hlencerts]
            simp
          refine ⟨hnoSS, hlen, ?_, ee0, interms0, hperm, hchain, hexit⟩
          obtain ⟨hcand, huniq⟩ :=
            maxchain_candidates certs hs ee0 interms0 hperm hchain hexit
          exact ⟨ee0, hcand, huniq⟩
  · rintro ⟨hnoSS, hlen, ⟨eeu, hcandu, huniqu⟩, ee, l, hperm, hchain, hexit⟩
    obtain ⟨hcand, huniq⟩ := maxchain_candidates certs hs ee l hperm hchain hexit
    have hmaps : buildMaps certs [] [] =
        .ok (fullImap certs, fullSmap certs) := by
      have := buildMaps_ok_of certs [] [] (by simpa using hlen) hnoSS
        (by simp) hi (by simp) hs
      simpa using this
    have heenin : ee.subject ∉ issuersOf certs :=
      subject_not_issuer_of_candidate certs ee hnoSS hcand
    obtain ⟨d, hd⟩ := findEE_isSome_of certs ee hcand.1 heenin
    have hdspec := findEE_some_spec certs d hd
    have hdcand : isEECandidate certs d :=
      candidate_of_subject_not_issuer certs d hdspec.1 hdspec.2
    have hde : d = ee := huniq d hdcand
    subst hde
    have hlenl : certs.length = l.length + 1 := by
      have := hperm.length_eq
      simpa using this
    have hwalk : findInterms (fullSmap certs) d.issuer 0 = .ok l := by
      unfold findInterms
      exact findIntermsGo_complete certs hs l d 0 (MAX_CHAIN_LENGTH + 1 - 0)
        hchain (fun c hc => hperm.mem_iff.mpr (List.mem_cons_of_mem d hc))
        hexit (by omega) (by omega)
    refine ⟨(d, l), ?_⟩
    unfold x5cValidator
    rw [hmaps]
    show x5cAfterMaps (fullImap certs) (fullSmap certs) = .ok (d, l)
    unfold x5cAfterMaps
    rw [hd]
    show (match findInterms (fullSmap certs) d.issuer 0 with
      | Except.error e => Except.error e
      | Except.ok interms => x5cFinish (fullImap certs) d interms) =
      Except.ok (d, l)
    rw [hwalk]
    show x5cFinish (fullImap certs) d l = .ok (d, l)
    unfold x5cFinish
    rw [if_neg (by
      simp only [fullImap, List.length_map]
      omega)]
    rw [if_neg ?_]
    intro hany
    rcases List.any_eq_true.mp hany with ⟨c, hc, hcself⟩
    exact hnoSS c (hperm.mem_iff.mpr (List.mem_cons_of_mem d hc))
      (by simpa using hcself)

/-- Closed witness for `x5c_validator_characterization`: a well-formed
two-cert chain (EE issued by one intermediate) is accepted. -/
theorem x5c_validator_characterization_witness :
    ∃ res, x5cValidator [⟨1, 10⟩, ⟨10, 100⟩] = .ok res :=
  (x5c_validator_characterization [⟨1, 10⟩, ⟨10, 100⟩]
      (by decide) (by decide)).mpr
    ⟨by decide, by decide,
      ⟨⟨1, 10⟩, ⟨by decide, by decide⟩, by
        rintro c' ⟨hmem, hprop⟩
        rcases List.mem_cons.mp hmem with rfl | hmem2
        · rfl
        · rcases List.mem_cons.mp hmem2 with rfl | hmem3
          · exact absurd rfl (hprop ⟨1, 10⟩ (by simp) (by decide))
          · exact absurd hmem3 (List.not_mem_nil c')⟩,
      ⟨1, 10⟩, [⟨10, 100⟩], List.Perm.refl _,
      List.Chain.cons rfl List.Chain.nil, by decide⟩

theorem beBytes_length (n w : Nat) : (beBytes n w).length = w := by
  induction w generalizing n with
  | zero => rfl
  | succ w ih =>
    rw [beBytes]
    simp [ih]

theorem beVal_append_singleton (xs : List Nat) (b : Nat) :
    beVal (xs ++ [b]) = beVal xs * 256 + b := by
  simp [beVal, List.foldl_append]

theorem beVal_beBytes (n w : Nat) (h : n < 256 ^ w) :
    beVal (beBytes n w) = n := by
  induction w generalizing n with
  | zero =>
    interval_cases n
    rfl
  | succ w ih =>
    rw [beBytes, beVal_append_singleton]
    rw [ih (n / 256) (by
      rw [pow_succ] at h
      exact Nat.div_lt_of_lt_mul (by omega))]
    omega

theorem readBytes_exact (xs rest : List Nat) :
    readBytes xs.length (xs ++ rest) = some (xs, rest) := by
  unfold readBytes
  rw [if_pos (by simp)]
  rw [List.take_left, List.drop_left]

theorem readBytes_one (b : Nat) (rest : List Nat) :
    readBytes 1 (b :: rest) = some ([b], rest) :=
  readBytes_exact [b] rest

theorem readBytes_beBytes (m w : Nat) (rest : List Nat) :
    readBytes w (beBytes m w ++ rest) = some (beBytes m w, rest) := by
  have h := readBytes_exact (beBytes m w) rest
  rwa [beBytes_length] at h

theorem beVal_singleton (b : Nat) : beVal [b] = b := by
  simp [beVal]

set_option maxHeartbeats 1600000 in
theorem parseValue_packInt (fuel : Nat) (v : Int) (enc rest : List Nat)
    (h : packInt v = some enc) :
    parseValue (fuel + 1) (enc ++ rest) = some (.int v, rest) := by
  unfold packInt at h
  by_cases hpos : 0 ≤ v
  · rw [if_pos hpos] at h
    have hv : ((v.toNat : Int)) = v := Int.toNat_of_nonneg hpos
    by_cases h1 : v.toNat < 128
    · rw [if_pos h1] at h
      cases h
      rw [List.cons_append, List.nil_append, parseValue, if_pos h1, hv]
    · rw [if_neg h1] at h
      by_cases h2 : v.toNat < 256
      · rw [if_pos h2] at h
        cases h
        simp only [List.cons_append, List.nil_append, parseValue]
        norm_num
        rw [readBytes_one]
        simp [beVal_singleton, hv]
      · rw [if_neg h2] at h
        by_cases h3 : v.toNat < 65536
        · rw [if_pos h3] at h
          cases h
          have hval : beVal (beBytes v.toNat 2) = v.toNat :=
            beVal_beBytes _ _ (by norm_num; omega)
          have hrb := readBytes_exact (beBytes v.toNat 2) rest
          rw [beBytes_length] at hrb
          simp only [List.cons_append, parseValue]
          norm_num
          rw [hrb]
          simp [hval, hv]
        · rw [if_neg h3] at h
          by_cases h4 : v.toNat < 4294967296
          · rw [if_pos h4] at h
            cases h
            have hval : beVal (beBytes v.toNat 4) = v.toNat :=
              beVal_beBytes _ _ (by norm_num; omega)
            have hrb := readBytes_exact (beBytes v.toNat 4) rest
            rw [beBytes_length] at hrb
            simp only [List.cons_append, parseValue]
            norm_num
            rw [hrb]
            simp [hval, hv]
          · rw [if_neg h4] at h
            by_cases h5 : v.toNat < 18446744073709551616
            · rw [if_pos h5] at h
              cases h
              have hval : beVal (beBytes v.toNat 8) = v.toNat :=
                beVal_beBytes _ _ (by norm_num; omega)
              have hrb := readBytes_exact (beBytes v.toNat 8) rest
              rw [beBytes_length] at hrb
              simp only [List.cons_append, parseValue]
              norm_num
              rw [hrb]
              simp [hval, hv]
            · rw [if_neg h5] at h
              exact Option.noConfusion h
  · rw [if_neg hpos] at h
    push_neg at hpos
    by_cases h1 : -32 ≤ v
    · rw [if_pos h1] at h
      cases h
      have hb1 : ¬ (v + 256).toNat < 128 := by omega
      have hb2 : 0xe0 ≤ (v + 256).toNat ∧ (v + 256).toNat ≤ 0xff := by omega
      rw [List.cons_append, List.nil_append, parseValue, if_neg hb1,
        if_pos hb2]
      simp only [Option.some.injEq, Prod.mk.injEq, MsgValue.int.injEq]
      refine ⟨?_, trivial⟩
      omega
    · rw [if_neg h1] at h
      by_cases h2 : -128 ≤ v
      · rw [if_pos h2] at h
        cases h
        have hcast : (((v + 256).toNat : Int)) = v + 256 :=
          Int.toNat_of_nonneg (by omega)
        have hn : ¬ (v + 256).toNat < 128 := by omega
        simp only [List.cons_append, List.nil_append, parseValue]
        norm_num
        rw [readBytes_one]
        simp only [beVal_singleton]
        rw [if_neg hn]
        simp [hcast]
      · rw [if_neg h2] at h
        by_cases h3 : -32768 ≤ v
        · rw [if_pos h3] at h
          cases h
          have hval : beVal (beBytes (v + 65536).toNat 2) = (v + 65536).toNat :=
            beVal_beBytes _ _ (by norm_num; omega)
          have hcast : (((v + 65536).toNat : Int)) = v + 65536 :=
            Int.toNat_of_nonneg (by omega)
          have hn : ¬ (v + 65536).toNat < 32768 := by omega
          have hrb := readBytes_exact (beBytes (v + 65536).toNat 2) rest
          rw [beBytes_length] at hrb
          simp only [List.cons_append, parseValue]
          norm_num
          rw [hrb]
          simp only [hval]
          rw [if_neg hn]
          simp [hcast]
        · rw [if_neg h3] at h
          by_cases h4 : -2147483648 ≤ v
          · rw [if_pos h4] at h
            cases h
            have hval : beVal (beBytes (v + 4294967296).toNat 4) =
                (v + 4294967296).toNat :=
              beVal_beBytes _ _ (by norm_num; omega)
            have hcast : (((v + 4294967296).toNat : Int)) = v + 4294967296 :=
              Int.toNat_of_nonneg (by omega)
            have hn : ¬ (v + 4294967296).toNat < 2147483648 := by omega
            have hrb := readBytes_exact (beBytes (v + 4294967296).toNat 4) rest
            rw [beBytes_length] at hrb
            simp only [List.cons_append, parseValue]
            norm_num
            rw [hrb]
            simp only [hval]
            rw [if_neg hn]
            simp [hcast]
          · rw [if_neg h4] at h
            by_cases h5 : -9223372036854775808 ≤ v
            · rw [if_pos h5] at h
              cases h
              have hval : beVal (beBytes (v + 18446744073709551616).toNat 8) =
                  (v + 18446744073709551616).toNat :=
                beVal_beBytes _ _ (by norm_num; omega)
              have hcast : (((v + 18446744073709551616).toNat : Int)) =
                  v + 18446744073709551616 :=
                Int.toNat_of_nonneg (by omega)
              have hn : ¬ (v + 18446744073709551616).toNat <
                  9223372036854775808 := by omega
              have hrb := readBytes_exact
                (beBytes (v + 18446744073709551616).toNat 8) rest
              rw [beBytes_length] at hrb
              simp only [List.cons_append, parseValue]
              norm_num
              rw [hrb]
              simp only [hval]
              rw [if_neg hn]
              simp [hcast]
            · rw [if_neg h5] at h
              exact Option.noConfusion h

set_option maxHeartbeats 1600000 in
theorem parseValue_packStr (fuel : Nat) (s enc rest : List Nat)
    (h : packStr s = some enc) :
    parseValue (fuel + 1) (enc ++ rest) = some (.str s, rest) := by
  unfold packStr at h
  by_cases h1 : s.length < 32
  · rw [if_pos h1] at h
    cases h
    have hb1 : ¬ (0xa0 + s.length) < 0x80 := by omega
    have hb2 : ¬ (0xe0 ≤ 0xa0 + s.length ∧ 0xa0 + s.length ≤ 0xff) := by
      omega
    have hb3 : 0xa0 ≤ 0xa0 + s.length ∧ 0xa0 + s.length < 0xc0 := by omega
    rw [List.cons_append, parseValue, if_neg hb1, if_neg hb2, if_pos hb3]
    have hlen : 0xa0 + s.length - 0xa0 = s.length := by omega
    rw [hlen]
    have hrb := readBytes_exact s rest
    rw [hrb]
  · rw [if_neg h1] at h
    by_cases h2 : s.length < 256
    · rw [if_pos h2] at h
      cases h
      simp only [List.cons_append, parseValue]
      norm_num
      rw [readBytes_one]
      simp only [beVal_singleton]
      rw [readBytes_exact s rest]
    · rw [if_neg h2] at h
      by_cases h3 : s.length < 65536
      · rw [if_pos h3] at h
        cases h
        have hval : beVal (beBytes s.length 2) = s.length :=
          beVal_beBytes _ _ (by norm_num; omega)
        have hrb := readBytes_exact (beBytes s.length 2) (s ++ rest)
        rw [beBytes_length] at hrb
        simp only [List.cons_append, List.append_assoc, parseValue]
        norm_num
        rw [hrb]
        simp only [hval]
        rw [readBytes_exact s rest]
      · rw [if_neg h3] at h
        by_cases h4 : s.length < 4294967296
        · rw [if_pos h4] at h
          cases h
          have hval : beVal (beBytes s.length 4) = s.length :=
            beVal_beBytes _ _ (by norm_num; omega)
          have hrb := readBytes_exact (beBytes s.length 4) (s ++ rest)
          rw [beBytes_length] at hrb
          simp only [List.cons_append, List.append_assoc, parseValue]
          norm_num
          rw [hrb]
          simp only [hval]
          rw [readBytes_exact s rest]
        · rw [if_neg h4] at h
          exact Option.noConfusion h

theorem fuelV_pos (v : MsgValue) : 1 ≤ fuelV v := by
  cases v <;> simp [fuelV]

theorem fuelL_pos (es : List MsgValue) : 1 ≤ fuelL es := by
  cases es <;> simp [fuelL]

set_option maxHeartbeats 1600000 in
theorem parse_pack_roundtrip : ∀ fuel : Nat,
    (∀ (v : MsgValue) (enc rest : List Nat), packValue v = some enc →
      fuelV v ≤ fuel → parseValue fuel (enc ++ rest) = some (v, rest)) ∧
    (∀ (es : List MsgValue) (encs rest : List Nat), packList es = some encs →
      fuelL es ≤ fuel →
      parseMany fuel es.length (encs ++ rest) = some (es, rest)) := by
  intro fuel
  induction fuel using Nat.strong_induction_on with
  | _ fuel ih =>
    constructor
    · intro v enc rest hpack hfuel
      cases v with
      | int i =>
        cases fuel with
        | zero => simp [fuelV] at hfuel
        | succ f => exact parseValue_packInt f i enc rest hpack
      | str s =>
        cases fuel with
        | zero => simp [fuelV] at hfuel
        | succ f => exact parseValue_packStr f s enc rest hpack
      | arr es =>
        cases fuel with
        | zero => simp [fuelV] at hfuel
        | succ f =>
          unfold packValue at hpack
          cases hhd : packArrHeader es.length with
          | none => rw [hhd] at hpack; exact Option.noConfusion hpack
          | some hd =>
            rw [hhd] at hpack
            cases hbody : packList es with
            | none => rw [hbody] at hpack; exact Option.noConfusion hpack
            | some body =>
              rw [hbody] at hpack
              cases hpack
              have hmany : parseMany f es.length (body ++ rest) =
                  some (es, rest) := by
                refine (ih f (Nat.lt_succ_self f)).2 es body rest hbody ?_
                simp only [fuelV] at hfuel
                omega
              unfold packArrHeader at hhd
              by_cases k1 : es.length < 16
              · rw [if_pos k1] at hhd
                cases hhd
                have hb1 : ¬ (0x90 + es.length) < 0x80 := by omega
                have hb2 : ¬ (0xe0 ≤ 0x90 + es.length ∧
                    0x90 + es.length ≤ 0xff) := by omega
                have hb3 : ¬ (0xa0 ≤ 0x90 + es.length ∧
                    0x90 + es.length < 0xc0) := by omega
                have hb4 : 0x90 ≤ 0x90 + es.length ∧
                    0x90 + es.length < 0xa0 := by omega
                simp only [List.cons_append, List.nil_append]
                rw [parseValue, if_neg hb1, if_neg hb2, if_neg hb3,
                  if_pos hb4]
                have hlen : 0x90 + es.length - 0x90 = es.length := by omega
                rw [hlen, hmany]
              · rw [if_neg k1] at hhd
                by_cases k2 : es.length < 65536
                · rw [if_pos k2] at hhd
                  cases hhd
                  have hval : beVal (beBytes es.length 2) = es.length :=
                    beVal_beBytes _ _ (by norm_num; omega)
                  have hrb := readBytes_exact (beBytes es.length 2)
                    (body ++ rest)
                  rw [beBytes_length] at hrb
                  simp only [List.cons_append, List.append_assoc, parseValue]
                  norm_num
                  rw [hrb]
                  simp only [hval]
                  rw [hmany]
                · rw [if_neg k2] at hhd
                  by_cases k3 : es.length < 4294967296
                  · rw [if_pos k3] at hhd
                    cases hhd
                    have hval : beVal (beBytes es.length 4) = es.length :=
                      beVal_beBytes _ _ (by norm_num; omega)
                    have hrb := readBytes_exact (beBytes es.length 4)
                      (body ++ rest)
                    rw [beBytes_length] at hrb
                    simp only [List.cons_append, List.append_assoc, parseValue]
                    norm_num
                    rw [hrb]
                    simp only [hval]
                    rw [hmany]
                  · rw [if_neg k3] at hhd
                    exact Option.noConfusion hhd
    · intro es encs rest hpack hfuel
      cases es with
      | nil =>
        cases hpack
        cases fuel with
        | zero => simp [fuelL] at hfuel
        | succ f =>
          rw [List.nil_append, List.length_nil, parseMany]
      | cons e es' =>
        unfold packList at hpack
        cases henc1 : packValue e with
        | none => rw [henc1] at hpack; exact Option.noConfusion hpack
        | some enc1 =>
          rw [henc1] at hpack
          cases hencs' : packList es' with
          | none => rw [hencs'] at hpack; exact Option.noConfusion hpack
          | some encs' =>
            rw [hencs'] at hpack
            cases hpack
            cases fuel with
            | zero => simp [fuelL] at hfuel
            | succ f =>
              simp only [fuelL] at hfuel
              have hv : parseValue f (enc1 ++ (encs' ++ rest)) =
                  some (e, encs' ++ rest) :=
                (ih f (Nat.lt_succ_self f)).1 e enc1 (encs' ++ rest) henc1
                  (by omega)
              have hm : parseMany f es'.length (encs' ++ rest) =
                  some (es', rest) :=
                (ih f (Nat.lt_succ_self f)).2 es' encs' rest hencs'
                  (by omega)
              rw [List.length_cons, List.append_assoc, parseMany, hv]
              show (match parseMany f es'.length (encs' ++ rest) with
                  | none => none
                  | some (vs, rest2) => some (e :: vs, rest2)) =
                some (e :: es', rest)
              rw [hm]

/-- **C1, counterexample.** An accepted verification run in which the
digest carried in the verified claims' `image_index` descriptor (1) and
the SHA-256 digest of the local `index.json` bytes (2) differ:
`verify_sign_cmd` validates the chain, the trust store and the JWS
signature, then returns the claims — it never performs the comparison, so
the mismatch does not make verification fail (there is no
`IndexDigestMismatch` path in the code). -/
theorem verify_sign_digest_mismatch_counterexample :
    verify_sign_cmd
        { validImage := true, indexSignedAt := some 1, localIndexDigest := 2,
          jwtPresent := true, x5c := some [⟨1, 10⟩, ⟨10, 100⟩],
          caDir := some [⟨100, 100⟩], caVerifyOk := true, eeIsEC := true,
          sigValid := true, claimsParseOk := true,
          claims := { iat := 0, imageIndexDigest := 1 } } =
      .ok { iat := 0, imageIndexDigest := 1 } ∧
    ({ iat := 0, imageIndexDigest := 1 } : IndexJWTClaims).imageIndexDigest ≠ 2 :=
  ⟨rfl, by decide⟩

/-- **C1, amended.** After the certificate chain and JWS signature are
validated, `verify_sign_cmd` returns the decoded claims as they are: its
outcome is entirely independent of the digest of the local `index.json`
bytes, and on success the returned claims are exactly the decoded claims
— no digest comparison is performed and no `IndexDigestMismatch` failure
exists. -/
theorem verify_sign_no_digest_comparison :
    (∀ (inp : VerifySignInput) (d : Nat),
        verify_sign_cmd { inp with localIndexDigest := d } =
          verify_sign_cmd inp) ∧
    (∀ (inp : VerifySignInput) (claims' : IndexJWTClaims),
        verify_sign_cmd inp = .ok claims' → claims' = inp.claims) := by
  constructor
  · intro inp d
    rfl
  · intro inp claims' h
    unfold verify_sign_cmd at h
    repeat' split at h
    all_goals first
      | exact Except.noConfusion h
      | exact (Except.ok.inj h).symm

/-- Closed witness for `verify_sign_no_digest_comparison`. -/
theorem verify_sign_no_digest_comparison_witness :
    ({ iat := 3, imageIndexDigest := 7 } : IndexJWTClaims) =
      ({ validImage := true, indexSignedAt := some 1, localIndexDigest := 9,
         jwtPresent := true, x5c := some [⟨1, 10⟩, ⟨10, 100⟩],
         caDir := none, caVerifyOk := false, eeIsEC := true,
         sigValid := true, claimsParseOk := true,
         claims := { iat := 3, imageIndexDigest := 7 } } : VerifySignInput).claims :=
  verify_sign_no_digest_comparison.2 _ _ rfl

/-- **C2, counterexample.** For `A = (subject 1, issuer 10)`,
`B = (subject 2, issuer 10)`, `I = (subject 10, issuer 100)` the input
`[A, B, I]` has *two* end-entity candidates (`A` and `B`: neither 1 nor 2
is the issuer of any certificate), so the claim requires the validator to
raise; but because `issuer_cert_map` is keyed by issuer, `B` overwrites
`A` and the validator accepts, returning `B` with intermediate `[I]`. -/
theorem x5c_validator_counterexample :
    x5cValidator [⟨1, 10⟩, ⟨2, 10⟩, ⟨10, 100⟩] =
        .ok (⟨2, 10⟩, [⟨10, 100⟩]) ∧
      isEECandidate [⟨1, 10⟩, ⟨2, 10⟩, ⟨10, 100⟩] ⟨1, 10⟩ ∧
      isEECandidate [⟨1, 10⟩, ⟨2, 10⟩, ⟨10, 100⟩] ⟨2, 10⟩ ∧
      (⟨1, 10⟩ : Cert) ≠ ⟨2, 10⟩ := by
  refine ⟨rfl, ?_, ?_, by decide⟩ <;>
    exact ⟨by decide, by decide⟩

theorem packArrHeader_length_pos (n : Nat) (hd : List Nat)
    (h : packArrHeader n = some hd) : 1 ≤ hd.length := by
  unfold packArrHeader at h
  split_ifs at h <;>
    first
      | exact Option.noConfusion h
      | (rw [← Option.some.inj h]; simp [beBytes_length])

theorem packValue_length_pos (v : MsgValue) (enc : List Nat)
    (h : packValue v = some enc) : 1 ≤ enc.length := by
  cases v with
  | int i =>
    have h2 : packInt i = some enc := h
    unfold packInt at h2
    split_ifs at h2 <;>
      first
        | exact Option.noConfusion h2
        | (rw [← Option.some.inj h2]; simp [beBytes_length])
  | str s =>
    have h2 : packStr s = some enc := h
    unfold packStr at h2
    split_ifs at h2 <;>
      first
        | exact Option.noConfusion h2
        | (rw [← Option.some.inj h2]; simp [beBytes_length])
  | arr es =>
    have h2 : (match packArrHeader es.length with
      | none => none
      | some hd =>
        match packList es with
        | none => none
        | some body => some (hd ++ body)) = some enc := h
    cases hh : packArrHeader es.length with
    | none => rw [hh] at h2; exact Option.noConfusion h2
    | some hd =>
      rw [hh] at h2
      cases hb : packList es with
      | none => rw [hb] at h2; exact Option.noConfusion h2
      | some body =>
        rw [hb] at h2
        have henc := Option.some.inj h2
        have hhd := packArrHeader_length_pos _ _ hh
        rw [← henc]
        simp only [List.length_append]
        omega

/-- The fuel needed to reparse a packed value is at most twice the
encoding length (tight for nested empty arrays). -/
theorem fuel_le_aux : ∀ n : Nat,
    (∀ (v : MsgValue) (enc : List Nat), enc.length ≤ n →
      packValue v = some enc → fuelV v ≤ 2 * enc.length) ∧
    (∀ (es : List MsgValue) (encs : List Nat), encs.length ≤ n →
      packList es = some encs → fuelL es ≤ 2 * encs.length + 1) := by
  intro n
  induction n using Nat.strong_induction_on with
  | _ n ih =>
    have hval : ∀ (v : MsgValue) (enc : List Nat), enc.length ≤ n →
        packValue v = some enc → fuelV v ≤ 2 * enc.length := by
      intro v enc hlen hpack
      cases v with
      | int i =>
        have h1 := packValue_length_pos _ _ hpack
        simp only [fuelV]
        omega
      | str s =>
        have h1 := packValue_length_pos _ _ hpack
        simp only [fuelV]
        omega
      | arr es =>
        have hp : (match packArrHeader es.length with
          | none => none
          | some hd =>
            match packList es with
            | none => none
            | some body => some (hd ++ body)) = some enc := hpack
        cases hh : packArrHeader es.length with
        | none => rw [hh] at hp; exact Option.noConfusion hp
        | some hd =>
          rw [hh] at hp
          cases hb : packList es with
          | none => rw [hb] at hp; exact Option.noConfusion hp
          | some body =>
            rw [hb] at hp
            have henc := Option.some.inj hp
            have hhd := packArrHeader_length_pos _ _ hh
            have hle : hd.length + body.length ≤ n := by
              rw [← henc] at hlen
              simpa [List.length_append] using hlen
            have hrec := (ih body.length (by omega)).2 es body le_rfl hb
            have hlenc : enc.length = hd.length + body.length := by
              rw [← henc]; simp [List.length_append]
            simp only [fuelV]
            omega
    refine ⟨hval, ?_⟩
    intro es encs hlen hpack
    cases es with
    | nil =>
      have h2 : (some ([] : List Nat)) = some encs := hpack
      have := Option.some.inj h2
      subst this
      simp [fuelL]
    | cons e es' =>
      have hp : (match packValue e with
        | none => none
        | some enc =>
          match packList es' with
          | none => none
          | some rest => some (enc ++ rest)) = some encs := hpack
      cases h1 : packValue e with
      | none => rw [h1] at hp; exact Option.noConfusion hp
      | some enc1 =>
        rw [h1] at hp
        cases h2 : packList es' with
        | none => rw [h2] at hp; exact Option.noConfusion hp
        | some encs' =>
          rw [h2] at hp
          have henc := Option.some.inj hp
          have he1 := packValue_length_pos _ _ h1
          have hle : enc1.length + encs'.length ≤ n := by
            rw [← henc] at hlen
            simpa [List.length_append] using hlen
          have hv := hval e enc1 (by omega) h1
          have hrec := (ih encs'.length (by omega)).2 es' encs' le_rfl h2
          have hlenc : encs.length = enc1.length + encs'.length := by
            rw [← henc]; simp [List.length_append]
          have hmax : max (fuelV e) (fuelL es') ≤ 2 * encs.length := by
            apply max_le <;> omega
          simp only [fuelL]
          omega

theorem fuelV_le_pack (v : MsgValue) (enc : List Nat)
    (h : packValue v = some enc) : fuelV v ≤ 2 * enc.length :=
  (fuel_le_aux enc.length).1 v enc le_rfl h

theorem extractInts_map (l : List Int) :
    extractInts (l.map MsgValue.int) = some l := by
  induction l with
  | nil => rfl
  | cons a l ih => simp [extractInts, ih]

theorem pre_process_raw_tag (t : Nat) (body : List Nat) (ht : t ≠ 58) :
    pre_process_raw (t :: 58 :: body) = some ([t], body) := by
  simp [pre_process_raw, ht]

theorem pack_obj_spec (v : MsgValue) (body : List Nat)
    (h : pack_obj v = some body) :
    packValue v = some body ∧ body.length ≤ FILTER_STRING_MAX_SIZE := by
  unfold pack_obj at h
  cases hp : packValue v with
  | none => rw [hp] at h; exact Option.noConfusion h
  | some r =>
    rw [hp] at h
    have h2 : (if FILTER_STRING_MAX_SIZE < r.length then none
        else some r) = some body := h
    by_cases hl : FILTER_STRING_MAX_SIZE < r.length
    · rw [if_pos hl] at h2; exact Option.noConfusion h2
    · rw [if_neg hl] at h2
      have := Option.some.inj h2
      subst this
      exact ⟨rfl, by omega⟩

/-- A successful `pack_obj` output reparses to exactly the original
value with nothing left over: the 1 MiB gate keeps the encoding within
the `PARSE_FUEL` budget. -/
theorem parse_pack_body (v : MsgValue) (body : List Nat)
    (h : pack_obj v = some body) :
    parseValue PARSE_FUEL body = some (v, []) := by
  obtain ⟨hpv, hlen⟩ := pack_obj_spec v body h
  have hfl := fuelV_le_pack v body hpv
  have hmax : PARSE_FUEL = 2 * FILTER_STRING_MAX_SIZE + 2 := rfl
  have hfuel : fuelV v ≤ PARSE_FUEL := by omega
  have hb := (parse_pack_roundtrip PARSE_FUEL).1 v body [] hpv hfuel
  rwa [List.append_nil] at hb

theorem alistLookup_cons_self {α β : Type} [DecidableEq α] (k : α) (v : β)
    (m : List (α × β)) : alistLookup ((k, v) :: m) k = some v := by
  simp [alistLookup]

theorem alistLookup_cons_ne {α β : Type} [DecidableEq α] (k key : α) (v : β)
    (m : List (α × β)) (h : k ≠ key) :
    alistLookup ((k, v) :: m) key = alistLookup m key := by
  simp [alistLookup, h]

theorem alistLookup_mem {α β : Type} [DecidableEq α] :
    ∀ (m : List (α × β)) (k : α) (v : β),
    alistLookup m k = some v → (k, v) ∈ m := by
  intro m
  induction m with
  | nil => intro k v h; exact Option.noConfusion h
  | cons e rest ih =>
    intro k v h
    rw [show e = (e.1, e.2) from rfl] at h ⊢
    by_cases he : e.1 = k
    · subst he
      rw [alistLookup_cons_self] at h
      have := Option.some.inj h
      subst this
      exact List.mem_cons_self _ _
    · rw [alistLookup_cons_ne _ _ _ _ he] at h
      exact List.mem_cons_of_mem _ (ih k v h)

theorem xfold_notin (kvs : List (Nat × Nat)) :
    ∀ (base : List (Nat × Nat)) (k : Nat), k ∉ kvs.map Prod.fst →
    alistLookup (kvs.foldl (fun acc kv => kv :: acc) base) k =
      alistLookup base k := by
  induction kvs with
  | nil => intro base k _; rfl
  | cons x rest ih =>
    intro base k hk
    simp only [List.map_cons, List.mem_cons] at hk
    push_neg at hk
    have h1 := ih ((x.1, x.2) :: base) k hk.2
    simp only [List.foldl_cons]
    rw [show (x :: base) = ((x.1, x.2) :: base) from rfl]
    rw [h1, alistLookup_cons_ne _ _ _ _ (fun he => hk.1 he.symm)]

theorem xfold_mem (kvs : List (Nat × Nat))
    (hnd : (kvs.map Prod.fst).Nodup) :
    ∀ (base : List (Nat × Nat)), ∀ kv ∈ kvs,
    alistLookup (kvs.foldl (fun acc kv => kv :: acc) base) kv.1 =
      some kv.2 := by
  induction kvs with
  | nil => intro base kv h; exact absurd h (List.not_mem_nil _)
  | cons x rest ih =>
    intro base kv hkv
    simp only [List.map_cons, List.nodup_cons] at hnd
    rcases List.mem_cons.mp hkv with he | hm
    · subst he
      simp only [List.foldl_cons]
      rw [xfold_notin rest ((kv.1, kv.2) :: base) kv.1 hnd.1]
      exact alistLookup_cons_self _ _ _
    · simp only [List.foldl_cons]
      exact ih hnd.2 ((x.1, x.2) :: base) kv hm

theorem fsTouch_spec (umask : Nat) (st : FsState) (p : DeployPath)
    (mode : Nat) (h : alistLookup st.link p = none) :
    fsTouch umask st p mode =
      { link := (p, st.nextInode) :: st.link,
        inodes := (st.nextInode,
          ⟨FType.reg, maskPerm umask mode, 0, 0, []⟩) :: st.inodes,
        nextInode := st.nextInode + 1 } := by
  unfold fsTouch
  rw [h]

theorem fsMkdir_spec (umask : Nat) (st : FsState) (p : DeployPath)
    (h : alistLookup st.link p = none) :
    fsMkdir umask st p =
      { link := (p, st.nextInode) :: st.link,
        inodes := (st.nextInode,
          ⟨FType.dir, maskPerm umask 511, 0, 0, []⟩) :: st.inodes,
        nextInode := st.nextInode + 1 } := by
  unfold fsMkdir
  rw [h]

theorem updInodeMeta_spec (st : FsState) (p : DeployPath)
    (f : InodeMeta → InodeMeta) (ino : Nat) (m : InodeMeta)
    (h1 : alistLookup st.link p = some ino)
    (h2 : alistLookup st.inodes ino = some m) :
    updInodeMeta st p f = some { st with inodes := (ino, f m) :: st.inodes }
    := by
  simp only [updInodeMeta, h1, h2]

theorem fsLink_spec (st : FsState) (src dst : DeployPath) (ino : Nat)
    (h1 : alistLookup st.link dst = none)
    (h2 : alistLookup st.link src = some ino) :
    fsLink st src dst = some { st with link := (dst, ino) :: st.link } := by
  unfold fsLink
  rw [h1, h2]

/-- `RegGood` only looks at the row fields shared along a hardlink
group, so it transfers between rows with identical uid, gid, mode and
xattrs. -/
theorem RegGood_congr (umask : Nat) (r1 r2 : FTRegularRow) (m : InodeMeta)
    (hu : r1.uid = r2.uid) (hg : r1.gid = r2.gid) (hm : r1.mode = r2.mode)
    (hx : r1.xattrs = r2.xattrs) (h : RegGood umask r1 m) :
    RegGood umask r2 m := by
  obtain ⟨h1, h2, h3, h4, h5⟩ := h
  refine ⟨h1, hu ▸ h2, hg ▸ h3, hx ▸ h4, ?_⟩
  rw [← hm, ← hu, ← hg]
  exact h5

/-- On the freshly-touched root-owned file, the conditional chown/chmod
plus xattrs step of the copy/inlined path always succeeds and leaves a
`RegGood` metadata: the row's values when chown/chmod ran, the
umask-masked creation bits when the uid-0/gid-0 fast path skipped
them. -/
theorem applyRegularPerms_good (umask : Nat) (st : FsState)
    (row : FTRegularRow) (ino : Nat)
    (h1 : alistLookup st.link (DeployPath.tgt row.path) = some ino)
    (h2 : alistLookup st.inodes ino =
      some ⟨FType.reg, maskPerm umask row.mode, 0, 0, []⟩)
    (hx : (row.xattrs.map Prod.fst).Nodup) :
    ∃ st2 m2, applyRegularPerms st row = some st2 ∧
      st2.link = st.link ∧ st2.nextInode = st.nextInode ∧
      alistLookup st2.inodes ino = some m2 ∧
      (∀ i, i ≠ ino → alistLookup st2.inodes i = alistLookup st.inodes i) ∧
      RegGood umask row m2 := by
  by_cases hz : row.uid = 0 ∧ row.gid = 0
  · by_cases he : row.xattrs.isEmpty
    · refine ⟨st, ⟨FType.reg, maskPerm umask row.mode, 0, 0, []⟩,
        ?_, rfl, rfl, h2, fun i _ => rfl, ?_⟩
      · simp [applyRegularPerms, hz, he]
      · have hxe : row.xattrs = [] := List.isEmpty_iff.mp he
        exact ⟨rfl, hz.1.symm, hz.2.symm,
          by rw [hxe]; intro kv h; exact absurd h (List.not_mem_nil _),
          Or.inr ⟨hz.1, hz.2, rfl⟩⟩
    · have hupd := updInodeMeta_spec st (DeployPath.tgt row.path)
        (fun m => { m with
          xattrs := row.xattrs.foldl (fun acc kv => kv :: acc) m.xattrs })
        ino ⟨FType.reg, maskPerm umask row.mode, 0, 0, []⟩ h1 h2
      refine ⟨{ st with inodes := (ino, ⟨FType.reg,
          maskPerm umask row.mode, 0, 0,
          row.xattrs.foldl (fun acc kv => kv :: acc) []⟩) :: st.inodes },
        ⟨FType.reg, maskPerm umask row.mode, 0, 0,
          row.xattrs.foldl (fun acc kv => kv :: acc) []⟩,
        ?_, rfl, rfl, alistLookup_cons_self _ _ _,
        fun i hi => alistLookup_cons_ne _ _ _ _ hi.symm, ?_⟩
      · show applyRegularPerms st row =
          some { st with inodes := (ino, ⟨FType.reg,
            maskPerm umask row.mode, 0, 0,
            row.xattrs.foldl (fun acc kv => kv :: acc) []⟩) :: st.inodes }
        simp only [applyRegularPerms, if_pos hz, he, Bool.false_eq_true,
          if_false, fsSetXattrs]
        exact hupd
      · exact ⟨rfl, hz.1.symm, hz.2.symm,
          fun kv h => xfold_mem row.xattrs hx [] kv h,
          Or.inr ⟨hz.1, hz.2, rfl⟩⟩
  · have hchown := updInodeMeta_spec st (DeployPath.tgt row.path)
      (fun m => { m with uid := row.uid, gid := row.gid })
      ino ⟨FType.reg, maskPerm umask row.mode, 0, 0, []⟩ h1 h2
    have hchmod := updInodeMeta_spec
      { st with inodes := (ino, ⟨FType.reg, maskPerm umask row.mode,
          row.uid, row.gid, []⟩) :: st.inodes }
      (DeployPath.tgt row.path)
      (fun m => { m with perm := row.mode &&& 4095 })
      ino ⟨FType.reg, maskPerm umask row.mode, row.uid, row.gid, []⟩ h1
      (alistLookup_cons_self _ _ _)
    have hstep : (if row.uid = 0 ∧ row.gid = 0 then some st
        else match fsChown st (DeployPath.tgt row.path) row.uid row.gid with
          | none => none
          | some st2 => fsChmod st2 (DeployPath.tgt row.path) row.mode) =
        some { st with inodes :=
          (ino, ⟨FType.reg, row.mode &&& 4095, row.uid, row.gid, []⟩) ::
          (ino, ⟨FType.reg, maskPerm umask row.mode, row.uid, row.gid, []⟩)
          :: st.inodes } := by
      rw [if_neg hz]
      rw [show fsChown st (DeployPath.tgt row.path) row.uid row.gid =
        some { st with inodes := (ino, ⟨FType.reg, maskPerm umask row.mode,
          row.uid, row.gid, []⟩) :: st.inodes } from hchown]
      exact hchmod
    by_cases he : row.xattrs.isEmpty
    · refine ⟨{ st with inodes :=
          (ino, ⟨FType.reg, row.mode &&& 4095, row.uid, row.gid, []⟩) ::
          (ino, ⟨FType.reg, maskPerm umask row.mode, row.uid, row.gid, []⟩)
          :: st.inodes },
        ⟨FType.reg, row.mode &&& 4095, row.uid, row.gid, []⟩,
        ?_, rfl, rfl, alistLookup_cons_self _ _ _, ?_, ?_⟩
      · show (match (if row.uid = 0 ∧ row.gid = 0 then some st
            else match fsChown st (DeployPath.tgt row.path) row.uid row.gid
              with
              | none => none
              | some st2 =>
                fsChmod st2 (DeployPath.tgt row.path) row.mode) with
          | none => none
          | some st3 =>
            if row.xattrs.isEmpty then some st3
            else fsSetXattrs st3 (DeployPath.tgt row.path) row.xattrs) =
          some { st with inodes :=
            (ino, ⟨FType.reg, row.mode &&& 4095, row.uid, row.gid, []⟩) ::
            (ino, ⟨FType.reg, maskPerm umask row.mode, row.uid, row.gid,
              []⟩) :: st.inodes }
        rw [hstep]
        simp [he]
      · intro i hi
        rw [alistLookup_cons_ne _ _ _ _ hi.symm,
          alistLookup_cons_ne _ _ _ _ hi.symm]
      · have hxe : row.xattrs = [] := List.isEmpty_iff.mp he
        exact ⟨rfl, rfl, rfl,
          by rw [hxe]; intro kv h; exact absurd h (List.not_mem_nil _),
          Or.inl rfl⟩
    · have hupd := updInodeMeta_spec
        { st with inodes :=
          (ino, ⟨FType.reg, row.mode &&& 4095, row.uid, row.gid, []⟩) ::
          (ino, ⟨FType.reg, maskPerm umask row.mode, row.uid, row.gid, []⟩)
          :: st.inodes }
        (DeployPath.tgt row.path)
        (fun m => { m with
          xattrs := row.xattrs.foldl (fun acc kv => kv :: acc) m.xattrs })
        ino ⟨FType.reg, row.mode &&& 4095, row.uid, row.gid, []⟩ h1
        (alistLookup_cons_self _ _ _)
      refine ⟨{ st with inodes :=
          (ino, ⟨FType.reg, row.mode &&& 4095, row.uid, row.gid,
            row.xattrs.foldl (fun acc kv => kv :: acc) []⟩) ::
          (ino, ⟨FType.reg, row.mode &&& 4095, row.uid, row.gid, []⟩) ::
          (ino, ⟨FType.reg, maskPerm umask row.mode, row.uid, row.gid, []⟩)
          :: st.inodes },
        ⟨FType.reg, row.mode &&& 4095, row.uid, row.gid,
          row.xattrs.foldl (fun acc kv => kv :: acc) []⟩,
        ?_, rfl, rfl, alistLookup_cons_self _ _ _, ?_, ?_⟩
      · show (match (if row.uid = 0 ∧ row.gid = 0 then some st
            else match fsChown st (DeployPath.tgt row.path) row.uid row.gid
              with
              | none => none
              | some st2 =>
                fsChmod st2 (DeployPath.tgt row.path) row.mode) with
          | none => none
          | some st3 =>
            if row.xattrs.isEmpty then some st3
            else fsSetXattrs st3 (DeployPath.tgt row.path) row.xattrs) =
          some { st with inodes :=
            (ino, ⟨FType.reg, row.mode &&& 4095, row.uid, row.gid,
              row.xattrs.foldl (fun acc kv => kv :: acc) []⟩) ::
            (ino, ⟨FType.reg, row.mode &&& 4095, row.uid, row.gid, []⟩) ::
            (ino, ⟨FType.reg, maskPerm umask row.mode, row.uid, row.gid,
              []⟩) :: st.inodes }
        rw [hstep]
        simp only [he, Bool.false_eq_true, if_false, fsSetXattrs]
        exact hupd
      · intro i hi
        rw [alistLookup_cons_ne _ _ _ _ hi.symm,
          alistLookup_cons_ne _ _ _ _ hi.symm,
          alistLookup_cons_ne _ _ _ _ hi.symm]
      · exact ⟨rfl, rfl, rfl,
          fun kv h => xfold_mem row.xattrs hx [] kv h, Or.inl rfl⟩

theorem fsLink_inv (st : FsState) (src dst : DeployPath) (st1 : FsState)
    (h : fsLink st src dst = some st1) :
    alistLookup st.link dst = none ∧ ∃ ino,
      alistLookup st.link src = some ino ∧
      st1 = { st with link := (dst, ino) :: st.link } := by
  unfold fsLink at h
  cases hd : alistLookup st.link dst with
  | some v => rw [hd] at h; exact Option.noConfusion h
  | none =>
    rw [hd] at h
    cases hs : alistLookup st.link src with
    | none => rw [hs] at h; exact Option.noConfusion h
    | some ino =>
      rw [hs] at h
      exact ⟨rfl, ino, rfl, (Option.some.inj h).symm⟩

theorem prepare_inlined_effect (umask : Nat) (st : FsState)
    (row : FTRegularRow) (st2 : FsState)
    (hrun : prepare_regular_inlined umask st row = some st2)
    (habs : alistLookup st.link (DeployPath.tgt row.path) = none)
    (hx : (row.xattrs.map Prod.fst).Nodup) :
    FreshRegEffect umask st row st2 := by
  have hrun2 : applyRegularPerms
      (fsTouch umask st (DeployPath.tgt row.path) row.mode) row = some st2 :=
    hrun
  rw [fsTouch_spec umask st (DeployPath.tgt row.path) row.mode habs] at hrun2
  obtain ⟨st3, m2, heq, hlink, hnext, hino, hothers, hgood⟩ :=
    applyRegularPerms_good umask
      { link := (DeployPath.tgt row.path, st.nextInode) :: st.link,
        inodes := (st.nextInode,
          ⟨FType.reg, maskPerm umask row.mode, 0, 0, []⟩) :: st.inodes,
        nextInode := st.nextInode + 1 }
      row st.nextInode (alistLookup_cons_self _ _ _)
      (alistLookup_cons_self _ _ _) hx
  rw [heq] at hrun2
  have hst := Option.some.inj hrun2
  subst hst
  refine ⟨m2, ?_, hino, hgood, ?_, ?_, hnext⟩
  · rw [hlink]; exact alistLookup_cons_self _ _ _
  · intro q hq
    rw [hlink]
    exact alistLookup_cons_ne _ _ _ _ hq.symm
  · intro i hi
    rw [hothers i hi]
    exact alistLookup_cons_ne _ _ _ _ hi.symm

theorem prepare_copy_effect (umask : Nat) (st : FsState)
    (row : FTRegularRow) (rs : DeployPath) (st2 : FsState)
    (hrun : prepare_regular_copy umask st row rs = some st2)
    (habs : alistLookup st.link (DeployPath.tgt row.path) = none)
    (hx : (row.xattrs.map Prod.fst).Nodup) :
    FreshRegEffect umask st row st2 := by
  have hrun2 : (match alistLookup
      (fsTouch umask st (DeployPath.tgt row.path) row.mode).link rs with
    | none => none
    | some _ => applyRegularPerms
        (fsTouch umask st (DeployPath.tgt row.path) row.mode) row) =
      some st2 := hrun
  cases hres : alistLookup
      (fsTouch umask st (DeployPath.tgt row.path) row.mode).link rs with
  | none => rw [hres] at hrun2; exact Option.noConfusion hrun2
  | some v =>
    rw [hres] at hrun2
    rw [fsTouch_spec umask st (DeployPath.tgt row.path) row.mode habs]
      at hrun2
    obtain ⟨st3, m2, heq, hlink, hnext, hino, hothers, hgood⟩ :=
      applyRegularPerms_good umask
        { link := (DeployPath.tgt row.path, st.nextInode) :: st.link,
          inodes := (st.nextInode,
            ⟨FType.reg, maskPerm umask row.mode, 0, 0, []⟩) :: st.inodes,
          nextInode := st.nextInode + 1 }
        row st.nextInode (alistLookup_cons_self _ _ _)
        (alistLookup_cons_self _ _ _) hx
    rw [heq] at hrun2
    have hst := Option.some.inj hrun2
    subst hst
    refine ⟨m2, ?_, hino, hgood, ?_, ?_, hnext⟩
    · rw [hlink]; exact alistLookup_cons_self _ _ _
    · intro q hq
      rw [hlink]
      exact alistLookup_cons_ne _ _ _ _ hq.symm
    · intro i hi
      rw [hothers i hi]
      exact alistLookup_cons_ne _ _ _ _ hi.symm

theorem prepare_member_effect (st : FsState) (row : FTRegularRow)
    (src : DeployPath) (st2 : FsState)
    (hrun : prepare_regular_hardlink st row src true = some st2) :
    alistLookup st.link (DeployPath.tgt row.path) = none ∧ ∃ ino,
      alistLookup st.link src = some ino ∧
      st2 = { st with link := (DeployPath.tgt row.path, ino) :: st.link }
    := by
  have hrun2 : (match fsLink st src (DeployPath.tgt row.path) with
    | none => none
    | some st1 => if (true : Bool) then some st1
      else
        match fsChown st1 (DeployPath.tgt row.path) row.uid row.gid with
        | none => none
        | some stA =>
          match fsChmod stA (DeployPath.tgt row.path) row.mode with
          | none => none
          | some stB =>
            if row.xattrs.isEmpty then some stB
            else fsSetXattrs stB (DeployPath.tgt row.path) row.xattrs) =
      some st2 := hrun
  cases hl : fsLink st src (DeployPath.tgt row.path) with
  | none => rw [hl] at hrun2; exact Option.noConfusion hrun2
  | some st1 =>
    rw [hl] at hrun2
    simp only [if_true] at hrun2
    have hst := Option.some.inj hrun2
    subst hst
    obtain ⟨hd, ino, hs, hst1⟩ := fsLink_inv st src _ st1 hl
    exact ⟨hd, ino, hs, hst1⟩

theorem prepare_linkfirst_effect (umask : Nat) (st : FsState)
    (row : FTRegularRow) (st2 : FsState)
    (hrun : prepare_regular_hardlink st row (DeployPath.res row.digest)
      false = some st2)
    (hx : (row.xattrs.map Prod.fst).Nodup)
    (hres : ∀ ino m0,
      alistLookup st.link (DeployPath.res row.digest) = some ino →
      alistLookup st.inodes ino = some m0 → m0.ftype = FType.reg) :
    LinkFirstEffect umask st row st2 := by
  have hrun2 : (match fsLink st (DeployPath.res row.digest)
      (DeployPath.tgt row.path) with
    | none => none
    | some st1 => if (false : Bool) then some st1
      else
        match fsChown st1 (DeployPath.tgt row.path) row.uid row.gid with
        | none => none
        | some stA =>
          match fsChmod stA (DeployPath.tgt row.path) row.mode with
          | none => none
          | some stB =>
            if row.xattrs.isEmpty then some stB
            else fsSetXattrs stB (DeployPath.tgt row.path) row.xattrs) =
      some st2 := hrun
  cases hl : fsLink st (DeployPath.res row.digest)
      (DeployPath.tgt row.path) with
  | none => rw [hl] at hrun2; exact Option.noConfusion hrun2
  | some st1 =>
    rw [hl] at hrun2
    simp only [Bool.false_eq_true, if_false] at hrun2
    obtain ⟨hd, ino, hs, hst1⟩ := fsLink_inv st _ _ st1 hl
    have hl1 : alistLookup st1.link (DeployPath.tgt row.path) = some ino := by
      rw [hst1]; exact alistLookup_cons_self _ _ _
    have hlq : ∀ q, q ≠ DeployPath.tgt row.path →
        alistLookup st1.link q = alistLookup st.link q := by
      intro q hq; rw [hst1]; exact alistLookup_cons_ne _ _ _ _ hq.symm
    have hi1 : st1.inodes = st.inodes := by rw [hst1]
    have hn1 : st1.nextInode = st.nextInode := by rw [hst1]
    cases hm0 : alistLookup st.inodes ino with
    | none =>
      exfalso
      have hchown : fsChown st1 (DeployPath.tgt row.path) row.uid row.gid =
          none := by
        simp only [fsChown, updInodeMeta, hl1, hi1, hm0]
      rw [hchown] at hrun2
      exact Option.noConfusion hrun2
    | some m0 =>
      obtain ⟨ft0, p0, u0, g0, x0⟩ := m0
      have hft : ft0 = FType.reg := hres ino ⟨ft0, p0, u0, g0, x0⟩ hs hm0
      subst hft
      have hm1 : alistLookup st1.inodes ino =
          some ⟨FType.reg, p0, u0, g0, x0⟩ := by rw [hi1]; exact hm0
      have hchown := updInodeMeta_spec st1 (DeployPath.tgt row.path)
        (fun m => { m with uid := row.uid, gid := row.gid })
        ino ⟨FType.reg, p0, u0, g0, x0⟩ hl1 hm1
      have hchmod := updInodeMeta_spec
        { st1 with inodes :=
          (ino, ⟨FType.reg, p0, row.uid, row.gid, x0⟩) :: st1.inodes }
        (DeployPath.tgt row.path)
        (fun m => { m with perm := row.mode &&& 4095 })
        ino ⟨FType.reg, p0, row.uid, row.gid, x0⟩ hl1
        (alistLookup_cons_self _ _ _)
      have hchownF : fsChown st1 (DeployPath.tgt row.path) row.uid row.gid =
          some { st1 with inodes :=
            (ino, ⟨FType.reg, p0, row.uid, row.gid, x0⟩) :: st1.inodes } :=
        hchown
      have hchmodF : fsChmod
          { st1 with inodes :=
            (ino, ⟨FType.reg, p0, row.uid, row.gid, x0⟩) :: st1.inodes }
          (DeployPath.tgt row.path) row.mode =
          some { st1 with inodes :=
            (ino, ⟨FType.reg, row.mode &&& 4095, row.uid, row.gid, x0⟩) ::
            (ino, ⟨FType.reg, p0, row.uid, row.gid, x0⟩) :: st1.inodes } :=
        hchmod
      rw [hchownF] at hrun2
      have hrun3 : (match fsChmod
          { st1 with inodes :=
            (ino, ⟨FType.reg, p0, row.uid, row.gid, x0⟩) :: st1.inodes }
          (DeployPath.tgt row.path) row.mode with
        | none => none
        | some stB =>
          if row.xattrs.isEmpty then some stB
          else fsSetXattrs stB (DeployPath.tgt row.path) row.xattrs) =
          some st2 := hrun2
      rw [hchmodF] at hrun3
      have hrun4 : (if row.xattrs.isEmpty then
          some { st1 with inodes :=
            (ino, ⟨FType.reg, row.mode &&& 4095, row.uid, row.gid, x0⟩) ::
            (ino, ⟨FType.reg, p0, row.uid, row.gid, x0⟩) :: st1.inodes }
        else fsSetXattrs
          { st1 with inodes :=
            (ino, ⟨FType.reg, row.mode &&& 4095, row.uid, row.gid, x0⟩) ::
            (ino, ⟨FType.reg, p0, row.uid, row.gid, x0⟩) :: st1.inodes }
          (DeployPath.tgt row.path) row.xattrs) = some st2 := hrun3
      by_cases he : row.xattrs.isEmpty
      · rw [if_pos he] at hrun4
        have hst := Option.some.inj hrun4
        subst hst
        have hxe : row.xattrs = [] := List.isEmpty_iff.mp he
        refine ⟨ino, ⟨FType.reg, row.mode &&& 4095, row.uid, row.gid, x0⟩,
          hs, hl1, alistLookup_cons_self _ _ _,
          ⟨rfl, rfl, rfl,
            by rw [hxe]; intro kv h; exact absurd h (List.not_mem_nil _),
            Or.inl rfl⟩,
          hlq, ?_, hn1⟩
        intro i hi
        rw [alistLookup_cons_ne _ _ _ _ hi.symm,
          alistLookup_cons_ne _ _ _ _ hi.symm, hi1]
      · rw [if_neg he] at hrun4
        have hupd := updInodeMeta_spec
          { st1 with inodes :=
            (ino, ⟨FType.reg, row.mode &&& 4095, row.uid, row.gid, x0⟩) ::
            (ino, ⟨FType.reg, p0, row.uid, row.gid, x0⟩) :: st1.inodes }
          (DeployPath.tgt row.path)
          (fun m => { m with
            xattrs := row.xattrs.foldl (fun acc kv => kv :: acc) m.xattrs })
          ino ⟨FType.reg, row.mode &&& 4095, row.uid, row.gid, x0⟩ hl1
          (alistLookup_cons_self _ _ _)
        have hupdF : fsSetXattrs
            { st1 with inodes :=
              (ino, ⟨FType.reg, row.mode &&& 4095, row.uid, row.gid, x0⟩)
              :: (ino, ⟨FType.reg, p0, row.uid, row.gid, x0⟩) :: st1.inodes }
            (DeployPath.tgt row.path) row.xattrs =
            some { st1 with inodes :=
              (ino, ⟨FType.reg, row.mode &&& 4095, row.uid, row.gid,
                row.xattrs.foldl (fun acc kv => kv :: acc) x0⟩) ::
              (ino, ⟨FType.reg, row.mode &&& 4095, row.uid, row.gid, x0⟩)
              :: (ino, ⟨FType.reg, p0, row.uid, row.gid, x0⟩) :: st1.inodes }
            := hupd
        rw [hupdF] at hrun4
        have hst := Option.some.inj hrun4
        subst hst
        refine ⟨ino, ⟨FType.reg, row.mode &&& 4095, row.uid, row.gid,
            row.xattrs.foldl (fun acc kv => kv :: acc) x0⟩,
          hs, hl1, alistLookup_cons_self _ _ _,
          ⟨rfl, rfl, rfl,
            fun kv h => xfold_mem row.xattrs hx x0 kv h, Or.inl rfl⟩,
          hlq, ?_, hn1⟩
        intro i hi
        rw [alistLookup_cons_ne _ _ _ _ hi.symm,
          alistLookup_cons_ne _ _ _ _ hi.symm,
          alistLookup_cons_ne _ _ _ _ hi.symm, hi1]

theorem process_normal_effect (umask : Nat) (fs : FsState)
    (row : FTRegularRow) (first : Bool) (fs2 : FsState)
    (hrun : process_normal_file umask fs row first = some fs2)
    (habs : alistLookup fs.link (DeployPath.tgt row.path) = none)
    (hx : (row.xattrs.map Prod.fst).Nodup)
    (hres : ∀ ino m0,
      alistLookup fs.link (DeployPath.res row.digest) = some ino →
      alistLookup fs.inodes ino = some m0 → m0.ftype = FType.reg) :
    FreshRegEffect umask fs row fs2 ∨
      (first = true ∧ LinkFirstEffect umask fs row fs2) := by
  unfold process_normal_file at hrun
  by_cases hi : row.inlined
  · rw [if_pos hi] at hrun
    exact Or.inl (prepare_inlined_effect umask fs row fs2 hrun habs hx)
  · rw [if_neg hi] at hrun
    by_cases hf : first = true
    · rw [if_pos hf] at hrun
      exact Or.inr ⟨hf, prepare_linkfirst_effect umask fs row fs2 hrun hx
        hres⟩
    · rw [if_neg hf] at hrun
      exact Or.inl (prepare_copy_effect umask fs row _ fs2 hrun habs hx)

theorem process_hardlinked_effect (umask : Nat) (fs : FsState)
    (groups : List (Nat × Nat)) (row : FTRegularRow) (first : Bool)
    (fs2 : FsState) (groups2 : List (Nat × Nat))
    (hrun : process_hardlinked_file umask fs groups row first =
      some (fs2, groups2))
    (habs : alistLookup fs.link (DeployPath.tgt row.path) = none)
    (hx : (row.xattrs.map Prod.fst).Nodup)
    (hres : ∀ ino m0,
      alistLookup fs.link (DeployPath.res row.digest) = some ino →
      alistLookup fs.inodes ino = some m0 → m0.ftype = FType.reg) :
    (∃ head ino, alistLookup groups row.inode_id = some head ∧
      groups2 = groups ∧
      alistLookup fs.link (DeployPath.tgt head) = some ino ∧
      fs2 = { fs with link :=
        (DeployPath.tgt row.path, ino) :: fs.link }) ∨
    (alistLookup groups row.inode_id = none ∧
      groups2 = (row.inode_id, row.path) :: groups ∧
      (FreshRegEffect umask fs row fs2 ∨
        (first = true ∧ LinkFirstEffect umask fs row fs2))) := by
  unfold process_hardlinked_file at hrun
  cases hg : alistLookup groups row.inode_id with
  | some head =>
    rw [hg] at hrun
    have hrunB : Option.map (fun f2 => (f2, groups))
        (prepare_regular_hardlink fs row (DeployPath.tgt head) true) =
        some (fs2, groups2) := hrun
    cases hp : prepare_regular_hardlink fs row (DeployPath.tgt head) true
      with
    | none => rw [hp] at hrunB; exact Option.noConfusion hrunB
    | some fsX =>
      rw [hp] at hrunB
      have hrun2 : some (fsX, groups) = some (fs2, groups2) := hrunB
      injection Option.some.inj hrun2 with h2a h2b
      subst h2a
      subst h2b
      obtain ⟨habs2, ino, hsrc, hst⟩ :=
        prepare_member_effect fs row (DeployPath.tgt head) fsX hp
      exact Or.inl ⟨head, ino, rfl, rfl, hsrc, hst⟩
  | none =>
    rw [hg] at hrun
    have hrunB : (if row.inlined = true then
        Option.map (fun f2 => (f2, (row.inode_id, row.path) :: groups))
          (prepare_regular_inlined umask fs row)
      else if first = true then
        Option.map (fun f2 => (f2, (row.inode_id, row.path) :: groups))
          (prepare_regular_hardlink fs row (DeployPath.res row.digest)
            false)
      else
        Option.map (fun f2 => (f2, (row.inode_id, row.path) :: groups))
          (prepare_regular_copy umask fs row (DeployPath.res row.digest)))
        = some (fs2, groups2) := hrun
    by_cases hi : row.inlined
    · rw [if_pos hi] at hrunB
      cases hp : prepare_regular_inlined umask fs row with
      | none => rw [hp] at hrunB; exact Option.noConfusion hrunB
      | some fsX =>
        rw [hp] at hrunB
        have hrun2 : some (fsX, (row.inode_id, row.path) :: groups) =
          some (fs2, groups2) := hrunB
        injection Option.some.inj hrun2 with h2a h2b
        subst h2a
        subst h2b
        exact Or.inr ⟨rfl, rfl,
          Or.inl (prepare_inlined_effect umask fs row fsX hp habs hx)⟩
    · rw [if_neg hi] at hrunB
      by_cases hf : first = true
      · rw [if_pos hf] at hrunB
        cases hp : prepare_regular_hardlink fs row
            (DeployPath.res row.digest) false with
        | none => rw [hp] at hrunB; exact Option.noConfusion hrunB
        | some fsX =>
          rw [hp] at hrunB
          have hrun2 : some (fsX, (row.inode_id, row.path) :: groups) =
            some (fs2, groups2) := hrunB
          injection Option.some.inj hrun2 with h2a h2b
          subst h2a
          subst h2b
          exact Or.inr ⟨rfl, rfl, Or.inr ⟨hf,
            prepare_linkfirst_effect umask fs row fsX hp hx hres⟩⟩
      · rw [if_neg hf] at hrunB
        cases hp : prepare_regular_copy umask fs row
            (DeployPath.res row.digest) with
        | none => rw [hp] at hrunB; exact Option.noConfusion hrunB
        | some fsX =>
          rw [hp] at hrunB
          have hrun2 : some (fsX, (row.inode_id, row.path) :: groups) =
            some (fs2, groups2) := hrunB
          injection Option.some.inj hrun2 with h2a h2b
          subst h2a
          subst h2b
          exact Or.inr ⟨rfl, rfl,
            Or.inl (prepare_copy_effect umask fs row _ fsX hp habs hx)⟩

theorem fresh_step_facts (umask : Nat) (fs : FsState) (row : FTRegularRow)
    (fs2 : FsState) (he : FreshRegEffect umask fs row fs2)
    (habs : alistLookup fs.link (DeployPath.tgt row.path) = none)
    (hlt : ∀ p ino, alistLookup fs.link p = some ino → ino < fs.nextInode) :
    (∃ m2, statOf fs2 (DeployPath.tgt row.path) = some m2 ∧
      RegGood umask row m2) ∧
    (∀ p, p ≠ row.path → alistLookup fs2.link (DeployPath.tgt p) =
      alistLookup fs.link (DeployPath.tgt p)) ∧
    (∀ d, alistLookup fs2.link (DeployPath.res d) =
      alistLookup fs.link (DeployPath.res d)) ∧
    (∀ p ino, alistLookup fs2.link p = some ino → ino < fs2.nextInode) ∧
    (∀ p ino, alistLookup fs.link (DeployPath.tgt p) = some ino →
      alistLookup fs2.link (DeployPath.tgt p) = some ino ∧
      statOf fs2 (DeployPath.tgt p) = statOf fs (DeployPath.tgt p)) ∧
    (∀ p ino, alistLookup fs2.link (DeployPath.tgt p) = some ino →
      alistLookup fs.link (DeployPath.tgt p) = some ino ∨
      (p = row.path ∧ ino = fs.nextInode)) ∧
    (∀ i, i < fs.nextInode →
      alistLookup fs2.inodes i = alistLookup fs.inodes i) ∧
    fs.nextInode ≤ fs2.nextInode := by
  obtain ⟨m2, e1, e2, e3, e4, e5, e6⟩ := he
  have htgt : ∀ p : Nat, p ≠ row.path →
      alistLookup fs2.link (DeployPath.tgt p) =
      alistLookup fs.link (DeployPath.tgt p) := by
    intro p hp
    exact e4 _ (fun h => hp (DeployPath.tgt.inj h))
  have hresl : ∀ d, alistLookup fs2.link (DeployPath.res d) =
      alistLookup fs.link (DeployPath.res d) := by
    intro d
    exact e4 _ (fun h => DeployPath.noConfusion h)
  have hi5 : ∀ i, i < fs.nextInode →
      alistLookup fs2.inodes i = alistLookup fs.inodes i := by
    intro i hi
    exact e5 i (Nat.ne_of_lt hi)
  refine ⟨⟨m2, ?_, e3⟩, htgt, hresl, ?_, ?_, ?_, hi5, by omega⟩
  · simp only [statOf, e1, e2]
  · intro p ino hp
    by_cases hpe : p = DeployPath.tgt row.path
    · subst hpe
      rw [e1] at hp
      have := Option.some.inj hp
      omega
    · rw [e4 p hpe] at hp
      have := hlt p ino hp
      omega
  · intro p ino hp
    have hpne : p ≠ row.path := by
      intro hq
      subst hq
      rw [habs] at hp
      exact Option.noConfusion hp
    have hl2 := htgt p hpne
    refine ⟨by rw [hl2]; exact hp, ?_⟩
    have hbound := hlt _ _ hp
    simp only [statOf, hl2, hp]
    exact hi5 ino hbound
  · intro p ino hp
    by_cases hpe : p = row.path
    · subst hpe
      rw [e1] at hp
      exact Or.inr ⟨rfl, (Option.some.inj hp).symm⟩
    · rw [htgt p hpe] at hp
      exact Or.inl hp

theorem linkfirst_step_facts (umask : Nat) (fs : FsState)
    (row : FTRegularRow) (fs2 : FsState)
    (he : LinkFirstEffect umask fs row fs2)
    (habs : alistLookup fs.link (DeployPath.tgt row.path) = none)
    (hlt : ∀ p ino, alistLookup fs.link p = some ino → ino < fs.nextInode)
    (hnoal : ∀ p i, alistLookup fs.link (DeployPath.tgt p) = some i →
      alistLookup fs.link (DeployPath.res row.digest) = some i → False) :
    (∃ m2, statOf fs2 (DeployPath.tgt row.path) = some m2 ∧
      RegGood umask row m2) ∧
    (∀ p, p ≠ row.path → alistLookup fs2.link (DeployPath.tgt p) =
      alistLookup fs.link (DeployPath.tgt p)) ∧
    (∀ d, alistLookup fs2.link (DeployPath.res d) =
      alistLookup fs.link (DeployPath.res d)) ∧
    (∀ p ino, alistLookup fs2.link p = some ino → ino < fs2.nextInode) ∧
    (∀ p ino, alistLookup fs.link (DeployPath.tgt p) = some ino →
      alistLookup fs2.link (DeployPath.tgt p) = some ino ∧
      statOf fs2 (DeployPath.tgt p) = statOf fs (DeployPath.tgt p)) ∧
    (∀ p ino, alistLookup fs2.link (DeployPath.tgt p) = some ino →
      alistLookup fs.link (DeployPath.tgt p) = some ino ∨
      (p = row.path ∧
        alistLookup fs.link (DeployPath.res row.digest) = some ino)) ∧
    (∀ d i m, alistLookup fs2.link (DeployPath.res d) = some i →
      alistLookup fs2.inodes i = some m →
      (alistLookup fs.inodes i = some m ∨ m.ftype = FType.reg)) ∧
    fs.nextInode ≤ fs2.nextInode := by
  obtain ⟨ino0, m2, e0, e1, e2, e3, e4, e5, e6⟩ := he
  have htgt : ∀ p : Nat, p ≠ row.path →
      alistLookup fs2.link (DeployPath.tgt p) =
      alistLookup fs.link (DeployPath.tgt p) := by
    intro p hp
    exact e4 _ (fun h => hp (DeployPath.tgt.inj h))
  have hresl : ∀ d, alistLookup fs2.link (DeployPath.res d) =
      alistLookup fs.link (DeployPath.res d) := by
    intro d
    exact e4 _ (fun h => DeployPath.noConfusion h)
  refine ⟨⟨m2, ?_, e3⟩, htgt, hresl, ?_, ?_, ?_, ?_, by rw [e6]⟩
  · simp only [statOf, e1, e2]
  · intro p ino hp
    rw [e6]
    by_cases hpe : p = DeployPath.tgt row.path
    · subst hpe
      rw [e1] at hp
      have hq := Option.some.inj hp
      subst hq
      exact hlt _ _ e0
    · rw [e4 p hpe] at hp
      exact hlt p ino hp
  · intro p ino hp
    have hpne : p ≠ row.path := by
      intro hq
      subst hq
      rw [habs] at hp
      exact Option.noConfusion hp
    have hl2 := htgt p hpne
    refine ⟨by rw [hl2]; exact hp, ?_⟩
    have hdiff : ino ≠ ino0 := by
      intro hq
      subst hq
      exact hnoal p ino hp e0
    simp only [statOf, hl2, hp]
    exact e5 ino hdiff
  · intro p ino hp
    by_cases hpe : p = row.path
    · subst hpe
      rw [e1] at hp
      have hq := Option.some.inj hp
      subst hq
      exact Or.inr ⟨rfl, e0⟩
    · rw [htgt p hpe] at hp
      exact Or.inl hp
  · intro d i m hd hm
    by_cases hie : i = ino0
    · subst hie
      rw [e2] at hm
      have hq := Option.some.inj hm
      subst hq
      exact Or.inr e3.1
    · rw [e5 i hie] at hm
      exact Or.inl hm

theorem statOf_some_inv (st : FsState) (p : DeployPath) (m : InodeMeta)
    (h : statOf st p = some m) : ∃ ino,
    alistLookup st.link p = some ino ∧
    alistLookup st.inodes ino = some m := by
  unfold statOf at h
  cases hl : alistLookup st.link p with
  | none => rw [hl] at h; exact Option.noConfusion h
  | some ino =>
    rw [hl] at h
    exact ⟨ino, rfl, h⟩

/-- The shared tail of the induction step: once the one-row step's
effect on the filesystem is summarized (the M-facts) and the group
invariant is re-established, the remaining rows go through the
induction hypothesis and the conclusions compose. -/
theorem invariant_step (umask : Nat) (regs0 : List FTRegularRow)
    (row : FTRegularRow) (rest : List FTRegularRow)
    (ih : RegInvMotive umask regs0 rest)
    (ctx : DeployCtx) (fs2 : FsState) (fset : List Nat)
    (groups2 : List (Nat × Nat)) (ctxF : DeployCtx)
    (hrun : processRegulars umask ⟨fs2, fset, groups2⟩ rest = some ctxF)
    (hsub : ∀ r ∈ row :: rest, r ∈ regs0)
    (hx : ∀ r ∈ row :: rest, (r.xattrs.map Prod.fst).Nodup)
    (habs : ∀ r ∈ row :: rest,
      alistLookup ctx.fs.link (DeployPath.tgt r.path) = none)
    (hnd : ((row :: rest).map FTRegularRow.path).Nodup)
    (hresinj : ∀ d1 d2 ino,
      alistLookup ctx.fs.link (DeployPath.res d1) = some ino →
      alistLookup ctx.fs.link (DeployPath.res d2) = some ino → d1 = d2)
    (M1 : ∃ m2, statOf fs2 (DeployPath.tgt row.path) = some m2 ∧
      RegGood umask row m2)
    (M2 : ∀ p, p ≠ row.path → alistLookup fs2.link (DeployPath.tgt p) =
      alistLookup ctx.fs.link (DeployPath.tgt p))
    (M3 : ∀ d, alistLookup fs2.link (DeployPath.res d) =
      alistLookup ctx.fs.link (DeployPath.res d))
    (M4 : ∀ p ino, alistLookup fs2.link p = some ino → ino < fs2.nextInode)
    (M5 : ∀ p ino, alistLookup ctx.fs.link (DeployPath.tgt p) = some ino →
      alistLookup fs2.link (DeployPath.tgt p) = some ino ∧
      statOf fs2 (DeployPath.tgt p) = statOf ctx.fs (DeployPath.tgt p))
    (M6 : ∀ p ino d, alistLookup fs2.link (DeployPath.tgt p) = some ino →
      alistLookup fs2.link (DeployPath.res d) = some ino → d ∈ fset)
    (M7 : ∀ d ino m0, alistLookup fs2.link (DeployPath.res d) = some ino →
      alistLookup fs2.inodes ino = some m0 → m0.ftype = FType.reg)
    (hgood2 : ∀ ino p, alistLookup groups2 ino = some p →
      ∃ m, statOf fs2 (DeployPath.tgt p) = some m ∧
        ∀ r ∈ regs0, r.inode_id = ino → RegGood umask r m) :
    (∀ r ∈ row :: rest, ∃ m,
      statOf ctxF.fs (DeployPath.tgt r.path) = some m ∧
      RegGood umask r m) ∧
    (∀ p ino, alistLookup ctx.fs.link (DeployPath.tgt p) = some ino →
      alistLookup ctxF.fs.link (DeployPath.tgt p) = some ino ∧
      statOf ctxF.fs (DeployPath.tgt p) = statOf ctx.fs
        (DeployPath.tgt p)) := by
  have hnd2 : row.path ∉ rest.map FTRegularRow.path ∧
      (rest.map FTRegularRow.path).Nodup := by
    rw [List.map_cons, List.nodup_cons] at hnd
    exact hnd
  obtain ⟨ihGood, ihPres⟩ := ih ⟨fs2, fset, groups2⟩ ctxF hrun
    (fun r hr => hsub r (List.mem_cons_of_mem _ hr))
    (fun r hr => hx r (List.mem_cons_of_mem _ hr))
    (by
      intro r hr
      have hrp : r.path ≠ row.path := by
        intro he
        exact hnd2.1 (he ▸ List.mem_map_of_mem FTRegularRow.path hr)
      rw [show (⟨fs2, fset, groups2⟩ : DeployCtx).fs = fs2 from rfl,
        M2 r.path hrp]
      exact habs r (List.mem_cons_of_mem _ hr))
    hnd2.2 M4 M6
    (by
      intro d1 d2 ino h1 h2
      rw [show (⟨fs2, fset, groups2⟩ : DeployCtx).fs = fs2 from rfl, M3]
        at h1 h2
      exact hresinj d1 d2 ino h1 h2)
    M7 hgood2
  constructor
  · intro r hr
    rcases List.mem_cons.mp hr with he | hm
    · subst he
      obtain ⟨m2, hstat, hgood⟩ := M1
      obtain ⟨ino, hl2, _⟩ := statOf_some_inv fs2 _ m2 hstat
      have hp := ihPres r.path ino hl2
      exact ⟨m2, by rw [hp.2]; exact hstat, hgood⟩
    · exact ihGood r hm
  · intro p ino hp
    obtain ⟨hl2, hs2⟩ := M5 p ino hp
    obtain ⟨hlF, hsF⟩ := ihPres p ino hl2
    exact ⟨hlF, by rw [hsF, hs2]⟩

theorem fresh_M67 (umask : Nat) (fs : FsState) (row : FTRegularRow)
    (fs2 : FsState) (fp fset : List Nat)
    (he : FreshRegEffect umask fs row fs2)
    (habs : alistLookup fs.link (DeployPath.tgt row.path) = none)
    (hlt : ∀ p ino, alistLookup fs.link p = some ino → ino < fs.nextInode)
    (hJ4 : ∀ p ino d, alistLookup fs.link (DeployPath.tgt p) = some ino →
      alistLookup fs.link (DeployPath.res d) = some ino → d ∈ fp)
    (hres8 : ∀ d ino m0,
      alistLookup fs.link (DeployPath.res d) = some ino →
      alistLookup fs.inodes ino = some m0 → m0.ftype = FType.reg)
    (hfsub : ∀ d, d ∈ fp → d ∈ fset) :
    (∀ p ino d, alistLookup fs2.link (DeployPath.tgt p) = some ino →
      alistLookup fs2.link (DeployPath.res d) = some ino → d ∈ fset) ∧
    (∀ d ino m0, alistLookup fs2.link (DeployPath.res d) = some ino →
      alistLookup fs2.inodes ino = some m0 → m0.ftype = FType.reg) := by
  obtain ⟨_, _, hresl, _, _, hchar, hi5, _⟩ :=
    fresh_step_facts umask fs row fs2 he habs hlt
  constructor
  · intro p ino d h1 h2
    rw [hresl] at h2
    have hbound := hlt _ _ h2
    rcases hchar p ino h1 with hold | ⟨_, hnew⟩
    · exact hfsub d (hJ4 p ino d hold h2)
    · exact absurd hbound (by omega)
  · intro d ino m0 h1 h2
    rw [hresl] at h1
    have hbound := hlt _ _ h1
    rw [hi5 ino hbound] at h2
    exact hres8 d ino m0 h1 h2

theorem linkfirst_M67 (umask : Nat) (fs : FsState) (row : FTRegularRow)
    (fs2 : FsState) (fp fset : List Nat)
    (he : LinkFirstEffect umask fs row fs2)
    (habs : alistLookup fs.link (DeployPath.tgt row.path) = none)
    (hlt : ∀ p ino, alistLookup fs.link p = some ino → ino < fs.nextInode)
    (hnoal : ∀ p i, alistLookup fs.link (DeployPath.tgt p) = some i →
      alistLookup fs.link (DeployPath.res row.digest) = some i → False)
    (hJ4 : ∀ p ino d, alistLookup fs.link (DeployPath.tgt p) = some ino →
      alistLookup fs.link (DeployPath.res d) = some ino → d ∈ fp)
    (hresinj : ∀ d1 d2 ino,
      alistLookup fs.link (DeployPath.res d1) = some ino →
      alistLookup fs.link (DeployPath.res d2) = some ino → d1 = d2)
    (hres8 : ∀ d ino m0,
      alistLookup fs.link (DeployPath.res d) = some ino →
      alistLookup fs.inodes ino = some m0 → m0.ftype = FType.reg)
    (hdigmem : row.digest ∈ fset)
    (hfsub : ∀ d, d ∈ fp → d ∈ fset) :
    (∀ p ino d, alistLookup fs2.link (DeployPath.tgt p) = some ino →
      alistLookup fs2.link (DeployPath.res d) = some ino → d ∈ fset) ∧
    (∀ d ino m0, alistLookup fs2.link (DeployPath.res d) = some ino →
      alistLookup fs2.inodes ino = some m0 → m0.ftype = FType.reg) := by
  obtain ⟨_, _, hresl, _, _, hchar, hmeta, _⟩ :=
    linkfirst_step_facts umask fs row fs2 he habs hlt hnoal
  constructor
  · intro p ino d h1 h2
    rw [hresl] at h2
    rcases hchar p ino h1 with hold | ⟨_, hres0⟩
    · exact hfsub d (hJ4 p ino d hold h2)
    · have hd := hresinj d row.digest ino h2 hres0
      subst hd
      exact hdigmem
  · intro d ino m0 h1 h2
    have h1b := h1
    rw [hresl] at h1b
    rcases hmeta d ino m0 h1 h2 with hold | hreg
    · exact hres8 d ino m0 h1b hold
    · exact hreg

theorem groups_preserved (umask : Nat) (regs0 : List FTRegularRow)
    (fs fs2 : FsState) (groups : List (Nat × Nat))
    (hJ7 : ∀ ino p, alistLookup groups ino = some p →
      ∃ m, statOf fs (DeployPath.tgt p) = some m ∧
        ∀ r ∈ regs0, r.inode_id = ino → RegGood umask r m)
    (M5 : ∀ p ino, alistLookup fs.link (DeployPath.tgt p) = some ino →
      alistLookup fs2.link (DeployPath.tgt p) = some ino ∧
      statOf fs2 (DeployPath.tgt p) = statOf fs (DeployPath.tgt p)) :
    ∀ ino p, alistLookup groups ino = some p →
      ∃ m, statOf fs2 (DeployPath.tgt p) = some m ∧
        ∀ r ∈ regs0, r.inode_id = ino → RegGood umask r m := by
  intro ino p hp
  obtain ⟨m, hs, hall⟩ := hJ7 ino p hp
  obtain ⟨i2, hl, _⟩ := statOf_some_inv fs _ m hs
  obtain ⟨_, hst⟩ := M5 p i2 hl
  exact ⟨m, by rw [hst]; exact hs, hall⟩

theorem groups_extended (umask : Nat) (regs0 : List FTRegularRow)
    (row : FTRegularRow) (fs2 : FsState) (groups : List (Nat × Nat))
    (hold : ∀ ino p, alistLookup groups ino = some p →
      ∃ m, statOf fs2 (DeployPath.tgt p) = some m ∧
        ∀ r ∈ regs0, r.inode_id = ino → RegGood umask r m)
    (hsubRow : row ∈ regs0)
    (hgroup : ∀ r1 ∈ regs0, ∀ r2 ∈ regs0, r1.inode_id = r2.inode_id →
      r1.uid = r2.uid ∧ r1.gid = r2.gid ∧ r1.mode = r2.mode ∧
      r1.xattrs = r2.xattrs)
    (M1 : ∃ m2, statOf fs2 (DeployPath.tgt row.path) = some m2 ∧
      RegGood umask row m2) :
    ∀ ino p, alistLookup ((row.inode_id, row.path) :: groups) ino =
        some p →
      ∃ m, statOf fs2 (DeployPath.tgt p) = some m ∧
        ∀ r ∈ regs0, r.inode_id = ino → RegGood umask r m := by
  intro ino p hp
  by_cases hie : row.inode_id = ino
  · subst hie
    rw [alistLookup_cons_self] at hp
    have hpe := Option.some.inj hp
    subst hpe
    obtain ⟨m2, hstat, hgood⟩ := M1
    refine ⟨m2, hstat, ?_⟩
    intro r hr hri
    obtain ⟨hu, hg, hm, hx⟩ := hgroup row hsubRow r hr hri.symm
    exact RegGood_congr umask row r m2 hu hg hm hx hgood
  · rw [alistLookup_cons_ne _ _ _ _ hie] at hp
    exact hold ino p hp

theorem fresh_branch (umask : Nat) (regs0 : List FTRegularRow)
    (hgroup : ∀ r1 ∈ regs0, ∀ r2 ∈ regs0, r1.inode_id = r2.inode_id →
      r1.uid = r2.uid ∧ r1.gid = r2.gid ∧ r1.mode = r2.mode ∧
      r1.xattrs = r2.xattrs)
    (row : FTRegularRow) (rest : List FTRegularRow)
    (ih : RegInvMotive umask regs0 rest) (ctx : DeployCtx) (fs2 : FsState)
    (fset : List Nat) (groups2 : List (Nat × Nat)) (ctxF : DeployCtx)
    (hrun : processRegulars umask ⟨fs2, fset, groups2⟩ rest = some ctxF)
    (hsub : ∀ r ∈ row :: rest, r ∈ regs0)
    (hx : ∀ r ∈ row :: rest, (r.xattrs.map Prod.fst).Nodup)
    (habs : ∀ r ∈ row :: rest,
      alistLookup ctx.fs.link (DeployPath.tgt r.path) = none)
    (hnd : ((row :: rest).map FTRegularRow.path).Nodup)
    (hlt : ∀ p ino, alistLookup ctx.fs.link p = some ino →
      ino < ctx.fs.nextInode)
    (hJ4 : ∀ p ino d,
      alistLookup ctx.fs.link (DeployPath.tgt p) = some ino →
      alistLookup ctx.fs.link (DeployPath.res d) = some ino →
      d ∈ ctx.firstPrepared)
    (hresinj : ∀ d1 d2 ino,
      alistLookup ctx.fs.link (DeployPath.res d1) = some ino →
      alistLookup ctx.fs.link (DeployPath.res d2) = some ino → d1 = d2)
    (hres8 : ∀ d ino m0,
      alistLookup ctx.fs.link (DeployPath.res d) = some ino →
      alistLookup ctx.fs.inodes ino = some m0 → m0.ftype = FType.reg)
    (hJ7 : ∀ ino p, alistLookup ctx.hardlinkGroup ino = some p →
      ∃ m, statOf ctx.fs (DeployPath.tgt p) = some m ∧
        ∀ r ∈ regs0, r.inode_id = ino → RegGood umask r m)
    (heff : FreshRegEffect umask ctx.fs row fs2)
    (hfsub : ∀ d, d ∈ ctx.firstPrepared → d ∈ fset)
    (hg2 : groups2 = ctx.hardlinkGroup ∨
      groups2 = (row.inode_id, row.path) :: ctx.hardlinkGroup) :
    (∀ r ∈ row :: rest, ∃ m,
      statOf ctxF.fs (DeployPath.tgt r.path) = some m ∧
      RegGood umask r m) ∧
    (∀ p ino, alistLookup ctx.fs.link (DeployPath.tgt p) = some ino →
      alistLookup ctxF.fs.link (DeployPath.tgt p) = some ino ∧
      statOf ctxF.fs (DeployPath.tgt p) = statOf ctx.fs
        (DeployPath.tgt p)) := by
  have habsRow := habs row (List.mem_cons_self _ _)
  obtain ⟨M1, M2, M3, M4, M5, _, _, _⟩ :=
    fresh_step_facts umask ctx.fs row fs2 heff habsRow hlt
  obtain ⟨M6, M7⟩ := fresh_M67 umask ctx.fs row fs2 ctx.firstPrepared fset
    heff habsRow hlt hJ4 hres8 hfsub
  have hbase := groups_preserved umask regs0 ctx.fs fs2 ctx.hardlinkGroup
    hJ7 M5
  have hgood2 : ∀ ino p, alistLookup groups2 ino = some p →
      ∃ m, statOf fs2 (DeployPath.tgt p) = some m ∧
        ∀ r ∈ regs0, r.inode_id = ino → RegGood umask r m := by
    rcases hg2 with h | h
    · subst h; exact hbase
    · subst h
      exact groups_extended umask regs0 row fs2 ctx.hardlinkGroup hbase
        (hsub row (List.mem_cons_self _ _)) hgroup M1
  exact invariant_step umask regs0 row rest ih ctx fs2 fset groups2 ctxF
    hrun hsub hx habs hnd hresinj M1 M2 M3 M4 M5 M6 M7 hgood2

theorem linkfirst_branch (umask : Nat) (regs0 : List FTRegularRow)
    (hgroup : ∀ r1 ∈ regs0, ∀ r2 ∈ regs0, r1.inode_id = r2.inode_id →
      r1.uid = r2.uid ∧ r1.gid = r2.gid ∧ r1.mode = r2.mode ∧
      r1.xattrs = r2.xattrs)
    (row : FTRegularRow) (rest : List FTRegularRow)
    (ih : RegInvMotive umask regs0 rest) (ctx : DeployCtx) (fs2 : FsState)
    (fset : List Nat) (groups2 : List (Nat × Nat)) (ctxF : DeployCtx)
    (hrun : processRegulars umask ⟨fs2, fset, groups2⟩ rest = some ctxF)
    (hsub : ∀ r ∈ row :: rest, r ∈ regs0)
    (hx : ∀ r ∈ row :: rest, (r.xattrs.map Prod.fst).Nodup)
    (habs : ∀ r ∈ row :: rest,
      alistLookup ctx.fs.link (DeployPath.tgt r.path) = none)
    (hnd : ((row :: rest).map FTRegularRow.path).Nodup)
    (hlt : ∀ p ino, alistLookup ctx.fs.link p = some ino →
      ino < ctx.fs.nextInode)
    (hJ4 : ∀ p ino d,
      alistLookup ctx.fs.link (DeployPath.tgt p) = some ino →
      alistLookup ctx.fs.link (DeployPath.res d) = some ino →
      d ∈ ctx.firstPrepared)
    (hresinj : ∀ d1 d2 ino,
      alistLookup ctx.fs.link (DeployPath.res d1) = some ino →
      alistLookup ctx.fs.link (DeployPath.res d2) = some ino → d1 = d2)
    (hres8 : ∀ d ino m0,
      alistLookup ctx.fs.link (DeployPath.res d) = some ino →
      alistLookup ctx.fs.inodes ino = some m0 → m0.ftype = FType.reg)
    (hJ7 : ∀ ino p, alistLookup ctx.hardlinkGroup ino = some p →
      ∃ m, statOf ctx.fs (DeployPath.tgt p) = some m ∧
        ∀ r ∈ regs0, r.inode_id = ino → RegGood umask r m)
    (heff : LinkFirstEffect umask ctx.fs row fs2)
    (hdignotin : row.digest ∉ ctx.firstPrepared)
    (hdigmem : row.digest ∈ fset)
    (hfsub : ∀ d, d ∈ ctx.firstPrepared → d ∈ fset)
    (hg2 : groups2 = ctx.hardlinkGroup ∨
      groups2 = (row.inode_id, row.path) :: ctx.hardlinkGroup) :
    (∀ r ∈ row :: rest, ∃ m,
      statOf ctxF.fs (DeployPath.tgt r.path) = some m ∧
      RegGood umask r m) ∧
    (∀ p ino, alistLookup ctx.fs.link (DeployPath.tgt p) = some ino →
      alistLookup ctxF.fs.link (DeployPath.tgt p) = some ino ∧
      statOf ctxF.fs (DeployPath.tgt p) = statOf ctx.fs
        (DeployPath.tgt p)) := by
  have habsRow := habs row (List.mem_cons_self _ _)
  have hnoal : ∀ p i,
      alistLookup ctx.fs.link (DeployPath.tgt p) = some i →
      alistLookup ctx.fs.link (DeployPath.res row.digest) = some i →
      False :=
    fun p i h1 h2 => hdignotin (hJ4 p i row.digest h1 h2)
  obtain ⟨M1, M2, M3, M4, M5, _, _, _⟩ :=
    linkfirst_step_facts umask ctx.fs row fs2 heff habsRow hlt hnoal
  obtain ⟨M6, M7⟩ := linkfirst_M67 umask ctx.fs row fs2 ctx.firstPrepared
    fset heff habsRow hlt hnoal hJ4 hresinj hres8 hdigmem hfsub
  have hbase := groups_preserved umask regs0 ctx.fs fs2 ctx.hardlinkGroup
    hJ7 M5
  have hgood2 : ∀ ino p, alistLookup groups2 ino = some p →
      ∃ m, statOf fs2 (DeployPath.tgt p) = some m ∧
        ∀ r ∈ regs0, r.inode_id = ino → RegGood umask r m := by
    rcases hg2 with h | h
    · subst h; exact hbase
    · subst h
      exact groups_extended umask regs0 row fs2 ctx.hardlinkGroup hbase
        (hsub row (List.mem_cons_self _ _)) hgroup M1
  exact invariant_step umask regs0 row rest ih ctx fs2 fset groups2 ctxF
    hrun hsub hx habs hnd hresinj M1 M2 M3 M4 M5 M6 M7 hgood2

theorem member_branch (umask : Nat) (regs0 : List FTRegularRow)
    (row : FTRegularRow) (rest : List FTRegularRow)
    (ih : RegInvMotive umask regs0 rest) (ctx : DeployCtx)
    (fset : List Nat) (ctxF : DeployCtx) (head ino0 : Nat)
    (hghead : alistLookup ctx.hardlinkGroup row.inode_id = some head)
    (hheadlink : alistLookup ctx.fs.link (DeployPath.tgt head) = some ino0)
    (hrun : processRegulars umask
      ⟨{ ctx.fs with link :=
          (DeployPath.tgt row.path, ino0) :: ctx.fs.link },
        fset, ctx.hardlinkGroup⟩ rest = some ctxF)
    (hsub : ∀ r ∈ row :: rest, r ∈ regs0)
    (hx : ∀ r ∈ row :: rest, (r.xattrs.map Prod.fst).Nodup)
    (habs : ∀ r ∈ row :: rest,
      alistLookup ctx.fs.link (DeployPath.tgt r.path) = none)
    (hnd : ((row :: rest).map FTRegularRow.path).Nodup)
    (hlt : ∀ p ino, alistLookup ctx.fs.link p = some ino →
      ino < ctx.fs.nextInode)
    (hJ4 : ∀ p ino d,
      alistLookup ctx.fs.link (DeployPath.tgt p) = some ino →
      alistLookup ctx.fs.link (DeployPath.res d) = some ino →
      d ∈ ctx.firstPrepared)
    (hresinj : ∀ d1 d2 ino,
      alistLookup ctx.fs.link (DeployPath.res d1) = some ino →
      alistLookup ctx.fs.link (DeployPath.res d2) = some ino → d1 = d2)
    (hres8 : ∀ d ino m0,
      alistLookup ctx.fs.link (DeployPath.res d) = some ino →
      alistLookup ctx.fs.inodes ino = some m0 → m0.ftype = FType.reg)
    (hJ7 : ∀ ino p, alistLookup ctx.hardlinkGroup ino = some p →
      ∃ m, statOf ctx.fs (DeployPath.tgt p) = some m ∧
        ∀ r ∈ regs0, r.inode_id = ino → RegGood umask r m)
    (hfsub : ∀ d, d ∈ ctx.firstPrepared → d ∈ fset) :
    (∀ r ∈ row :: rest, ∃ m,
      statOf ctxF.fs (DeployPath.tgt r.path) = some m ∧
      RegGood umask r m) ∧
    (∀ p ino, alistLookup ctx.fs.link (DeployPath.tgt p) = some ino →
      alistLookup ctxF.fs.link (DeployPath.tgt p) = some ino ∧
      statOf ctxF.fs (DeployPath.tgt p) = statOf ctx.fs
        (DeployPath.tgt p)) := by
  have habsRow := habs row (List.mem_cons_self _ _)
  obtain ⟨m, hsm, hall⟩ := hJ7 row.inode_id head hghead
  obtain ⟨i0, hl0, hm0⟩ := statOf_some_inv ctx.fs _ m hsm
  have hieq : i0 = ino0 := Option.some.inj (hl0.symm.trans hheadlink)
  subst hieq
  have M1 : ∃ m2, statOf
      { ctx.fs with link :=
        (DeployPath.tgt row.path, i0) :: ctx.fs.link }
      (DeployPath.tgt row.path) = some m2 ∧ RegGood umask row m2 := by
    refine ⟨m, ?_, hall row (hsub row (List.mem_cons_self _ _)) rfl⟩
    simp only [statOf, alistLookup_cons_self]
    exact hm0
  have M2 : ∀ p, p ≠ row.path → alistLookup
      ((DeployPath.tgt row.path, i0) :: ctx.fs.link)
      (DeployPath.tgt p) =
      alistLookup ctx.fs.link (DeployPath.tgt p) := by
    intro p hp
    exact alistLookup_cons_ne _ _ _ _
      (fun h => hp (DeployPath.tgt.inj h).symm)
  have M3 : ∀ d, alistLookup
      ((DeployPath.tgt row.path, i0) :: ctx.fs.link)
      (DeployPath.res d) =
      alistLookup ctx.fs.link (DeployPath.res d) := by
    intro d
    exact alistLookup_cons_ne _ _ _ _ (fun h => DeployPath.noConfusion h)
  have M4 : ∀ p ino, alistLookup
      ((DeployPath.tgt row.path, i0) :: ctx.fs.link) p = some ino →
      ino < ctx.fs.nextInode := by
    intro p ino hp
    by_cases hpe : DeployPath.tgt row.path = p
    · subst hpe
      rw [alistLookup_cons_self] at hp
      have := Option.some.inj hp
      subst this
      exact hlt _ _ hheadlink
    · rw [alistLookup_cons_ne _ _ _ _ hpe] at hp
      exact hlt p ino hp
  have M5 : ∀ p ino,
      alistLookup ctx.fs.link (DeployPath.tgt p) = some ino →
      alistLookup ((DeployPath.tgt row.path, i0) :: ctx.fs.link)
        (DeployPath.tgt p) = some ino ∧
      statOf { ctx.fs with link :=
          (DeployPath.tgt row.path, i0) :: ctx.fs.link }
        (DeployPath.tgt p) = statOf ctx.fs (DeployPath.tgt p) := by
    intro p ino hp
    have hpne : p ≠ row.path := by
      intro he
      subst he
      rw [habsRow] at hp
      exact Option.noConfusion hp
    have hl2 := M2 p hpne
    exact ⟨by rw [hl2]; exact hp, by simp only [statOf]; rw [hl2]⟩
  have M6 : ∀ p ino d, alistLookup
      ((DeployPath.tgt row.path, i0) :: ctx.fs.link)
      (DeployPath.tgt p) = some ino →
      alistLookup ((DeployPath.tgt row.path, i0) :: ctx.fs.link)
        (DeployPath.res d) = some ino → d ∈ fset := by
    intro p ino d h1 h2
    rw [M3 d] at h2
    by_cases hpe : p = row.path
    · subst hpe
      rw [alistLookup_cons_self] at h1
      have := Option.some.inj h1
      subst this
      exact hfsub d (hJ4 head i0 d hheadlink h2)
    · rw [M2 p hpe] at h1
      exact hfsub d (hJ4 p ino d h1 h2)
  have M7 : ∀ d ino m0, alistLookup
      ((DeployPath.tgt row.path, i0) :: ctx.fs.link)
      (DeployPath.res d) = some ino →
      alistLookup ctx.fs.inodes ino = some m0 →
      m0.ftype = FType.reg := by
    intro d ino m0 h1 h2
    rw [M3 d] at h1
    exact hres8 d ino m0 h1 h2
  have hgood2 := groups_preserved umask regs0 ctx.fs
    { ctx.fs with link := (DeployPath.tgt row.path, i0) :: ctx.fs.link }
    ctx.hardlinkGroup hJ7 M5
  exact invariant_step umask regs0 row rest ih ctx
    { ctx.fs with link := (DeployPath.tgt row.path, i0) :: ctx.fs.link }
    fset ctx.hardlinkGroup ctxF hrun hsub hx habs hnd hresinj
    M1 M2 M3 M4 M5 M6 M7 hgood2

/-- The regular-file phase satisfies its loop invariant on every row
list. -/
theorem processRegulars_invariant (umask : Nat)
    (regs0 : List FTRegularRow)
    (hgroup : ∀ r1 ∈ regs0, ∀ r2 ∈ regs0, r1.inode_id = r2.inode_id →
      r1.uid = r2.uid ∧ r1.gid = r2.gid ∧ r1.mode = r2.mode ∧
      r1.xattrs = r2.xattrs) :
    ∀ todo : List FTRegularRow, RegInvMotive umask regs0 todo := by
  intro todo
  induction todo with
  | nil =>
    unfold RegInvMotive
    intro ctx ctxF hrun _ _ _ _ _ _ _ _ _
    have h2 : some ctx = some ctxF := hrun
    have h3 := Option.some.inj h2
    subst h3
    exact ⟨fun r hr => absurd hr (List.not_mem_nil _),
      fun p ino hp => ⟨hp, rfl⟩⟩
  | cons row rest ih =>
    unfold RegInvMotive
    intro ctx ctxF hrun hsub hx habs hnd hlt hJ4 hresinj hres8 hJ7
    have hrun1 : (match processOneRegular umask ctx row with
      | none => none
      | some c => processRegulars umask c rest) = some ctxF := hrun
    cases hstep : processOneRegular umask ctx row with
    | none => rw [hstep] at hrun1; exact Option.noConfusion hrun1
    | some ctx1 =>
      rw [hstep] at hrun1
      have habsRow := habs row (List.mem_cons_self _ _)
      have hxRow := hx row (List.mem_cons_self _ _)
      have hresRow : ∀ ino m0,
          alistLookup ctx.fs.link (DeployPath.res row.digest) = some ino →
          alistLookup ctx.fs.inodes ino = some m0 →
          m0.ftype = FType.reg :=
        fun ino m0 h1 h2 => hres8 row.digest ino m0 h1 h2
      by_cases hc : ctx.firstPrepared.contains row.digest = true
      · have hstepB : (if row.hardlinked = true then
            match process_hardlinked_file umask ctx.fs ctx.hardlinkGroup
              row false with
            | none => none
            | some (f2, g2) => some ⟨f2, ctx.firstPrepared, g2⟩
          else
            match process_normal_file umask ctx.fs row false with
            | none => none
            | some f2 => some ⟨f2, ctx.firstPrepared, ctx.hardlinkGroup⟩)
            = some ctx1 := by
          have h0 := hstep
          unfold processOneRegular at h0
          simp only [hc, Bool.not_true, Bool.false_eq_true, if_false]
            at h0
          exact h0
        by_cases hh : row.hardlinked = true
        · rw [if_pos hh] at hstepB
          cases hw : process_hardlinked_file umask ctx.fs
              ctx.hardlinkGroup row false with
          | none => rw [hw] at hstepB; exact Option.noConfusion hstepB
          | some pr =>
            obtain ⟨fs2, groups2⟩ := pr
            rw [hw] at hstepB
            have hq : some (⟨fs2, ctx.firstPrepared, groups2⟩ :
              DeployCtx) = some ctx1 := hstepB
            have hq2 := Option.some.inj hq
            subst hq2
            rcases process_hardlinked_effect umask ctx.fs
                ctx.hardlinkGroup row false fs2 groups2 hw habsRow hxRow
                hresRow with
              ⟨head, ino0, hghead, hgsame, hheadlink, hfs2⟩ |
              ⟨hgnone, hgcons, heff⟩
            · subst hgsame
              subst hfs2
              exact member_branch umask regs0 row rest ih ctx
                ctx.firstPrepared ctxF head ino0 hghead hheadlink hrun1
                hsub hx habs hnd hlt hJ4 hresinj hres8 hJ7
                (fun d hd => hd)
            · subst hgcons
              rcases heff with hF | ⟨hfirst, _⟩
              · exact fresh_branch umask regs0 hgroup row rest ih ctx fs2
                  ctx.firstPrepared
                  ((row.inode_id, row.path) :: ctx.hardlinkGroup) ctxF
                  hrun1 hsub hx habs hnd hlt hJ4 hresinj hres8 hJ7 hF
                  (fun d hd => hd) (Or.inr rfl)
              · exact absurd hfirst (by simp)
        · rw [if_neg hh] at hstepB
          cases hw : process_normal_file umask ctx.fs row false with
          | none => rw [hw] at hstepB; exact Option.noConfusion hstepB
          | some fs2 =>
            rw [hw] at hstepB
            have hq : some (⟨fs2, ctx.firstPrepared, ctx.hardlinkGroup⟩ :
              DeployCtx) = some ctx1 := hstepB
            have hq2 := Option.some.inj hq
            subst hq2
            rcases process_normal_effect umask ctx.fs row false fs2 hw
                habsRow hxRow hresRow with hF | ⟨hfirst, _⟩
            · exact fresh_branch umask regs0 hgroup row rest ih ctx fs2
                ctx.firstPrepared ctx.hardlinkGroup ctxF hrun1 hsub hx
                habs hnd hlt hJ4 hresinj hres8 hJ7 hF (fun d hd => hd)
                (Or.inl rfl)
            · exact absurd hfirst (by simp)
      · have hcf : ctx.firstPrepared.contains row.digest = false := by
          revert hc
          cases ctx.firstPrepared.contains row.digest <;> simp
        have hnotmem : row.digest ∉ ctx.firstPrepared := by
          intro hm
          exact hc (List.elem_iff.mpr hm)
        have hstepB : (if row.hardlinked = true then
            match process_hardlinked_file umask ctx.fs ctx.hardlinkGroup
              row true with
            | none => none
            | some (f2, g2) =>
              some ⟨f2, row.digest :: ctx.firstPrepared, g2⟩
          else
            match process_normal_file umask ctx.fs row true with
            | none => none
            | some f2 => some ⟨f2, row.digest :: ctx.firstPrepared,
              ctx.hardlinkGroup⟩) = some ctx1 := by
          have h0 := hstep
          unfold processOneRegular at h0
          simp only [hcf, Bool.not_false, eq_self_iff_true, if_true]
            at h0
          exact h0
        by_cases hh : row.hardlinked = true
        · rw [if_pos hh] at hstepB
          cases hw : process_hardlinked_file umask ctx.fs
              ctx.hardlinkGroup row true with
          | none => rw [hw] at hstepB; exact Option.noConfusion hstepB
          | some pr =>
            obtain ⟨fs2, groups2⟩ := pr
            rw [hw] at hstepB
            have hq : some (⟨fs2, row.digest :: ctx.firstPrepared,
              groups2⟩ : DeployCtx) = some ctx1 := hstepB
            have hq2 := Option.some.inj hq
            subst hq2
            rcases process_hardlinked_effect umask ctx.fs
                ctx.hardlinkGroup row true fs2 groups2 hw habsRow hxRow
                hresRow with
              ⟨head, ino0, hghead, hgsame, hheadlink, hfs2⟩ |
              ⟨hgnone, hgcons, heff⟩
            · subst hgsame
              subst hfs2
              exact member_branch umask regs0 row rest ih ctx
                (row.digest :: ctx.firstPrepared) ctxF head ino0 hghead
                hheadlink hrun1 hsub hx habs hnd hlt hJ4 hresinj hres8
                hJ7 (fun d hd => List.mem_cons_of_mem _ hd)
            · subst hgcons
              rcases heff with hF | ⟨_, hL⟩
              · exact fresh_branch umask regs0 hgroup row rest ih ctx fs2
                  (row.digest :: ctx.firstPrepared)
                  ((row.inode_id, row.path) :: ctx.hardlinkGroup) ctxF
                  hrun1 hsub hx habs hnd hlt hJ4 hresinj hres8 hJ7 hF
                  (fun d hd => List.mem_cons_of_mem _ hd) (Or.inr rfl)
              · exact linkfirst_branch umask regs0 hgroup row rest ih ctx
                  fs2 (row.digest :: ctx.firstPrepared)
                  ((row.inode_id, row.path) :: ctx.hardlinkGroup) ctxF
                  hrun1 hsub hx habs hnd hlt hJ4 hresinj hres8 hJ7 hL
                  hnotmem (List.mem_cons_self _ _)
                  (fun d hd => List.mem_cons_of_mem _ hd) (Or.inr rfl)
        · rw [if_neg hh] at hstepB
          cases hw : process_normal_file umask ctx.fs row true with
          | none => rw [hw] at hstepB; exact Option.noConfusion hstepB
          | some fs2 =>
            rw [hw] at hstepB
            have hq : some (⟨fs2, row.digest :: ctx.firstPrepared,
              ctx.hardlinkGroup⟩ : DeployCtx) = some ctx1 := hstepB
            have hq2 := Option.some.inj hq
            subst hq2
            rcases process_normal_effect umask ctx.fs row true fs2 hw
                habsRow hxRow hresRow with hF | ⟨_, hL⟩
            · exact fresh_branch umask regs0 hgroup row rest ih ctx fs2
                (row.digest :: ctx.firstPrepared) ctx.hardlinkGroup ctxF
                hrun1 hsub hx habs hnd hlt hJ4 hresinj hres8 hJ7 hF
                (fun d hd => List.mem_cons_of_mem _ hd) (Or.inl rfl)
            · exact linkfirst_branch umask regs0 hgroup row rest ih ctx
                fs2 (row.digest :: ctx.firstPrepared) ctx.hardlinkGroup
                ctxF hrun1 hsub hx habs hnd hlt hJ4 hresinj hres8 hJ7 hL
                hnotmem (List.mem_cons_self _ _)
                (fun d hd => List.mem_cons_of_mem _ hd) (Or.inl rfl)

theorem prepare_dir_effect (umask : Nat) (st : FsState) (row : FTDirRow)
    (st2 : FsState)
    (hrun : prepare_dir umask st row = some st2)
    (habs : alistLookup st.link (DeployPath.tgt row.path) = none)
    (hx : (row.xattrs.map Prod.fst).Nodup) :
    ∃ m2, alistLookup st2.link (DeployPath.tgt row.path) =
        some st.nextInode ∧
      alistLookup st2.inodes st.nextInode = some m2 ∧ DirGood row m2 ∧
      (∀ q, q ≠ DeployPath.tgt row.path →
        alistLookup st2.link q = alistLookup st.link q) ∧
      (∀ i, i ≠ st.nextInode →
        alistLookup st2.inodes i = alistLookup st.inodes i) ∧
      st2.nextInode = st.nextInode + 1 := by
  have hrun2 : (match fsChown
      (fsMkdir umask st (DeployPath.tgt row.path))
      (DeployPath.tgt row.path) row.uid row.gid with
    | none => none
    | some stA =>
      match fsChmod stA (DeployPath.tgt row.path) row.mode with
      | none => none
      | some stB =>
        if row.xattrs.isEmpty then some stB
        else fsSetXattrs stB (DeployPath.tgt row.path) row.xattrs) =
      some st2 := hrun
  rw [fsMkdir_spec umask st _ habs] at hrun2
  have hchown := updInodeMeta_spec
    { link := (DeployPath.tgt row.path, st.nextInode) :: st.link,
      inodes := (st.nextInode,
        ⟨FType.dir, maskPerm umask 511, 0, 0, []⟩) :: st.inodes,
      nextInode := st.nextInode + 1 }
    (DeployPath.tgt row.path)
    (fun m => { m with uid := row.uid, gid := row.gid })
    st.nextInode ⟨FType.dir, maskPerm umask 511, 0, 0, []⟩
    (alistLookup_cons_self _ _ _) (alistLookup_cons_self _ _ _)
  have hchownF : fsChown
      { link := (DeployPath.tgt row.path, st.nextInode) :: st.link,
        inodes := (st.nextInode,
          ⟨FType.dir, maskPerm umask 511, 0, 0, []⟩) :: st.inodes,
        nextInode := st.nextInode + 1 }
      (DeployPath.tgt row.path) row.uid row.gid =
      some
      { link := (DeployPath.tgt row.path, st.nextInode) :: st.link,
        inodes :=
          (st.nextInode, ⟨FType.dir, maskPerm umask 511, row.uid,
            row.gid, []⟩) ::
          (st.nextInode, ⟨FType.dir, maskPerm umask 511, 0, 0, []⟩) ::
          st.inodes,
        nextInode := st.nextInode + 1 } := hchown
  rw [hchownF] at hrun2
  have hchmod := updInodeMeta_spec
    { link := (DeployPath.tgt row.path, st.nextInode) :: st.link,
      inodes :=
        (st.nextInode, ⟨FType.dir, maskPerm umask 511, row.uid,
          row.gid, []⟩) ::
        (st.nextInode, ⟨FType.dir, maskPerm umask 511, 0, 0, []⟩) ::
        st.inodes,
      nextInode := st.nextInode + 1 }
    (DeployPath.tgt row.path)
    (fun m => { m with perm := row.mode &&& 4095 })
    st.nextInode
    ⟨FType.dir, maskPerm umask 511, row.uid, row.gid, []⟩
    (alistLookup_cons_self _ _ _) (alistLookup_cons_self _ _ _)
  have hchmodF : fsChmod
      { link := (DeployPath.tgt row.path, st.nextInode) :: st.link,
        inodes :=
          (st.nextInode, ⟨FType.dir, maskPerm umask 511, row.uid,
            row.gid, []⟩) ::
          (st.nextInode, ⟨FType.dir, maskPerm umask 511, 0, 0, []⟩) ::
          st.inodes,
        nextInode := st.nextInode + 1 }
      (DeployPath.tgt row.path) row.mode =
      some
      { link := (DeployPath.tgt row.path, st.nextInode) :: st.link,
        inodes :=
          (st.nextInode, ⟨FType.dir, row.mode &&& 4095, row.uid,
            row.gid, []⟩) ::
          (st.nextInode, ⟨FType.dir, maskPerm umask 511, row.uid,
            row.gid, []⟩) ::
          (st.nextInode, ⟨FType.dir, maskPerm umask 511, 0, 0, []⟩) ::
          st.inodes,
        nextInode := st.nextInode + 1 } := hchmod
  have hrun3 : (match fsChmod
      { link := (DeployPath.tgt row.path, st.nextInode) :: st.link,
        inodes :=
          (st.nextInode, ⟨FType.dir, maskPerm umask 511, row.uid,
            row.gid, []⟩) ::
          (st.nextInode, ⟨FType.dir, maskPerm umask 511, 0, 0, []⟩) ::
          st.inodes,
        nextInode := st.nextInode + 1 }
      (DeployPath.tgt row.path) row.mode with
    | none => none
    | some stB =>
      if row.xattrs.isEmpty then some stB
      else fsSetXattrs stB (DeployPath.tgt row.path) row.xattrs) =
      some st2 := hrun2
  rw [hchmodF] at hrun3
  have hrun4 : (if row.xattrs.isEmpty then
      some
      { link := (DeployPath.tgt row.path, st.nextInode) :: st.link,
        inodes :=
          (st.nextInode, ⟨FType.dir, row.mode &&& 4095, row.uid,
            row.gid, []⟩) ::
          (st.nextInode, ⟨FType.dir, maskPerm umask 511, row.uid,
            row.gid, []⟩) ::
          (st.nextInode, ⟨FType.dir, maskPerm umask 511, 0, 0, []⟩) ::
          st.inodes,
        nextInode := st.nextInode + 1 }
    else fsSetXattrs
      { link := (DeployPath.tgt row.path, st.nextInode) :: st.link,
        inodes :=
          (st.nextInode, ⟨FType.dir, row.mode &&& 4095, row.uid,
            row.gid, []⟩) ::
          (st.nextInode, ⟨FType.dir, maskPerm umask 511, row.uid,
            row.gid, []⟩) ::
          (st.nextInode, ⟨FType.dir, maskPerm umask 511, 0, 0, []⟩) ::
          st.inodes,
        nextInode := st.nextInode + 1 }
      (DeployPath.tgt row.path) row.xattrs) = some st2 := hrun3
  by_cases he : row.xattrs.isEmpty
  · rw [if_pos he] at hrun4
    have hst := Option.some.inj hrun4
    subst hst
    have hxe : row.xattrs = [] := List.isEmpty_iff.mp he
    refine ⟨⟨FType.dir, row.mode &&& 4095, row.uid, row.gid, []⟩,
      alistLookup_cons_self _ _ _, alistLookup_cons_self _ _ _,
      ⟨rfl, rfl, rfl, rfl,
        by rw [hxe]; intro kv h; exact absurd h (List.not_mem_nil _)⟩,
      ?_, ?_, rfl⟩
    · intro q hq
      exact alistLookup_cons_ne _ _ _ _ hq.symm
    · intro i hi
      rw [alistLookup_cons_ne _ _ _ _ hi.symm,
        alistLookup_cons_ne _ _ _ _ hi.symm,
        alistLookup_cons_ne _ _ _ _ hi.symm]
  · rw [if_neg he] at hrun4
    have hupd := updInodeMeta_spec
      { link := (DeployPath.tgt row.path, st.nextInode) :: st.link,
        inodes :=
          (st.nextInode, ⟨FType.dir, row.mode &&& 4095, row.uid,
            row.gid, []⟩) ::
          (st.nextInode, ⟨FType.dir, maskPerm umask 511, row.uid,
            row.gid, []⟩) ::
          (st.nextInode, ⟨FType.dir, maskPerm umask 511, 0, 0, []⟩) ::
          st.inodes,
        nextInode := st.nextInode + 1 }
      (DeployPath.tgt row.path)
      (fun m => { m with
        xattrs := row.xattrs.foldl (fun acc kv => kv :: acc) m.xattrs })
      st.nextInode
      ⟨FType.dir, row.mode &&& 4095, row.uid, row.gid, []⟩
      (alistLookup_cons_self _ _ _) (alistLookup_cons_self _ _ _)
    have hupdF : fsSetXattrs
        { link := (DeployPath.tgt row.path, st.nextInode) :: st.link,
          inodes :=
            (st.nextInode, ⟨FType.dir, row.mode &&& 4095, row.uid,
              row.gid, []⟩) ::
            (st.nextInode, ⟨FType.dir, maskPerm umask 511, row.uid,
              row.gid, []⟩) ::
            (st.nextInode, ⟨FType.dir, maskPerm umask 511, 0, 0, []⟩) ::
            st.inodes,
          nextInode := st.nextInode + 1 }
        (DeployPath.tgt row.path) row.xattrs =
        some
        { link :=
            (DeployPath.tgt row.path, st.nextInode) :: st.link,
          inodes :=
            (st.nextInode, ⟨FType.dir, row.mode &&& 4095, row.uid,
              row.gid,
              row.xattrs.foldl (fun acc kv => kv :: acc) []⟩) ::
            (st.nextInode, ⟨FType.dir, row.mode &&& 4095, row.uid,
              row.gid, []⟩) ::
            (st.nextInode, ⟨FType.dir, maskPerm umask 511, row.uid,
              row.gid, []⟩) ::
            (st.nextInode, ⟨FType.dir, maskPerm umask 511, 0, 0, []⟩) ::
            st.inodes,
          nextInode := st.nextInode + 1 } := hupd
    rw [hupdF] at hrun4
    have hst := Option.some.inj hrun4
    subst hst
    refine ⟨⟨FType.dir, row.mode &&& 4095, row.uid, row.gid,
        row.xattrs.foldl (fun acc kv => kv :: acc) []⟩,
      alistLookup_cons_self _ _ _, alistLookup_cons_self _ _ _,
      ⟨rfl, rfl, rfl, rfl, fun kv h => xfold_mem row.xattrs hx [] kv h⟩,
      ?_, ?_, rfl⟩
    · intro q hq
      exact alistLookup_cons_ne _ _ _ _ hq.symm
    · intro i hi
      rw [alistLookup_cons_ne _ _ _ _ hi.symm,
        alistLookup_cons_ne _ _ _ _ hi.symm,
        alistLookup_cons_ne _ _ _ _ hi.symm,
        alistLookup_cons_ne _ _ _ _ hi.symm]

/-- The directory phase satisfies its loop invariant on every row
list. -/
theorem processDirs_invariant (umask : Nat) :
    ∀ dirs : List FTDirRow, DirInvMotive umask dirs := by
  intro dirs
  induction dirs with
  | nil =>
    unfold DirInvMotive
    intro st stF hrun _ _ _ hlt
    have h2 : some st = some stF := hrun
    have h3 := Option.some.inj h2
    subst h3
    exact ⟨fun r hr => absurd hr (List.not_mem_nil _),
      fun p ino hp => ⟨hp, rfl⟩,
      fun d => rfl, fun i _ => rfl, hlt, le_refl _,
      fun p hp _ => hp, fun p ino hp => Or.inl hp⟩
  | cons row rest ih =>
    unfold DirInvMotive
    intro st stF hrun habs hnd hx hlt
    have hrun1 : (match prepare_dir umask st row with
      | none => none
      | some st1 => processDirs umask st1 rest) = some stF := hrun
    cases hstep : prepare_dir umask st row with
    | none => rw [hstep] at hrun1; exact Option.noConfusion hrun1
    | some st1 =>
      rw [hstep] at hrun1
      have habsRow := habs row (List.mem_cons_self _ _)
      obtain ⟨m2, e1, e2, egood, e4, e5, e6⟩ :=
        prepare_dir_effect umask st row st1 hstep habsRow
          (hx row (List.mem_cons_self _ _))
      have hnd2 : row.path ∉ rest.map FTDirRow.path ∧
          (rest.map FTDirRow.path).Nodup := by
        rw [List.map_cons, List.nodup_cons] at hnd
        exact hnd
      have htgt : ∀ p : Nat, p ≠ row.path →
          alistLookup st1.link (DeployPath.tgt p) =
          alistLookup st.link (DeployPath.tgt p) :=
        fun p hp => e4 _ (fun h => hp (DeployPath.tgt.inj h))
      have hres : ∀ d, alistLookup st1.link (DeployPath.res d) =
          alistLookup st.link (DeployPath.res d) :=
        fun d => e4 _ (fun h => DeployPath.noConfusion h)
      have hlt1 : ∀ p ino, alistLookup st1.link p = some ino →
          ino < st1.nextInode := by
        intro p ino hp
        rw [e6]
        by_cases hpe : p = DeployPath.tgt row.path
        · subst hpe
          rw [e1] at hp
          have := Option.some.inj hp
          omega
        · rw [e4 p hpe] at hp
          have := hlt p ino hp
          omega
      obtain ⟨IH1, IH2, IH3, IH4, IH5, IH6, IH7, IH8⟩ := ih st1 stF hrun1
        (by
          intro r hr
          have hrp : r.path ≠ row.path := by
            intro he
            exact hnd2.1 (he ▸ List.mem_map_of_mem FTDirRow.path hr)
          rw [htgt r.path hrp]
          exact habs r (List.mem_cons_of_mem _ hr))
        hnd2.2 (fun r hr => hx r (List.mem_cons_of_mem _ hr)) hlt1
      have hstat1 : ∀ p ino,
          alistLookup st.link (DeployPath.tgt p) = some ino →
          alistLookup st1.link (DeployPath.tgt p) = some ino ∧
          statOf st1 (DeployPath.tgt p) = statOf st (DeployPath.tgt p)
          := by
        intro p ino hp
        have hpne : p ≠ row.path := by
          intro he
          subst he
          rw [habsRow] at hp
          exact Option.noConfusion hp
        have hl2 := htgt p hpne
        refine ⟨by rw [hl2]; exact hp, ?_⟩
        have hbound := hlt _ _ hp
        simp only [statOf, hl2, hp]
        exact e5 ino (Nat.ne_of_lt hbound)
      refine ⟨?_, ?_, ?_, ?_, IH5, ?_, ?_, ?_⟩
      · intro r hr
        rcases List.mem_cons.mp hr with herow | hm
        · subst herow
          have hstatrow : statOf st1 (DeployPath.tgt r.path) = some m2
              := by
            simp only [statOf, e1, e2]
          obtain ⟨_, hpres⟩ := IH2 r.path st.nextInode e1
          exact ⟨m2, by rw [hpres]; exact hstatrow, egood⟩
        · exact IH1 r hm
      · intro p ino hp
        obtain ⟨hl2, hs2⟩ := hstat1 p ino hp
        obtain ⟨hlF, hsF⟩ := IH2 p ino hl2
        exact ⟨hlF, by rw [hsF, hs2]⟩
      · intro d
        rw [IH3, hres]
      · intro i hi
        have hi1 : i < st1.nextInode := by rw [e6]; omega
        rw [IH4 i hi1, e5 i (Nat.ne_of_lt hi)]
      · rw [e6] at IH6
        omega
      · intro p hp hnmem
        rw [List.map_cons, List.mem_cons] at hnmem
        push_neg at hnmem
        apply IH7 p _ hnmem.2
        rw [htgt p hnmem.1]
        exact hp
      · intro p ino hp
        rcases IH8 p ino hp with h1 | h1
        · by_cases hpe : p = row.path
          · subst hpe
            rw [e1] at h1
            have := Option.some.inj h1
            exact Or.inr (by omega)
          · rw [htgt p hpe] at h1
            exact Or.inl h1
        · rw [e6] at h1
          exact Or.inr (by omega)

theorem alistLookup_none_of_isres (l : List (DeployPath × Nat))
    (h : ∀ e ∈ l, IsRes e.1 = true) (p : Nat) :
    alistLookup l (DeployPath.tgt p) = none := by
  induction l with
  | nil => rfl
  | cons e rest ih =>
    have he := h e (List.mem_cons_self _ _)
    rcases e with ⟨q, ino⟩
    cases q with
    | res d =>
      rw [alistLookup_cons_ne _ _ _ _ (fun hq => DeployPath.noConfusion
        hq)]
      exact ih (fun e2 he2 => h e2 (List.mem_cons_of_mem _ he2))
    | tgt p2 => exact absurd he (by simp [IsRes])

/-- **C6 (amended).** After a successful `setup_rootfs` on a fresh
rootfs (run as root, with the resource dir holding only regular blobs
on distinct inodes, file-table paths distinct, xattr keys unique per
row, and rows of one hardlink group agreeing on uid/gid/mode/xattrs —
the file-table inode invariant), every directory row's deployed path
has exactly the row's uid, gid, mode permission bits and xattrs, and
every regular row's deployed path has exactly the row's uid, gid and
xattrs — but its permission bits equal the row's mode only when
chown/chmod actually ran: a row deployed through the copy or inlined
path with uid 0 and gid 0 keeps the creation bits, i.e. the row's mode
masked by the process umask (`RegGood`'s second disjunct). -/
theorem deploy_permission_invariant
    (umask : Nat) (st0 : FsState) (dirs : List FTDirRow)
    (regs : List FTRegularRow) (stF : FsState)
    (hrun : setup_rootfs umask st0 dirs regs = some stF)
    (hfresh : ∀ e ∈ st0.link, IsRes e.1 = true)
    (hlt0 : ∀ e ∈ st0.link, e.2 < st0.nextInode)
    (hresinj0 : ∀ e1 ∈ st0.link, ∀ e2 ∈ st0.link, e1.2 = e2.2 →
      e1.1 = e2.1)
    (hmeta0 : ∀ em ∈ st0.inodes, (em.2).ftype = FType.reg)
    (hpaths : (dirs.map FTDirRow.path ++
      regs.map FTRegularRow.path).Nodup)
    (hgroup : ∀ r1 ∈ regs, ∀ r2 ∈ regs, r1.inode_id = r2.inode_id →
      r1.uid = r2.uid ∧ r1.gid = r2.gid ∧ r1.mode = r2.mode ∧
      r1.xattrs = r2.xattrs)
    (hxd : ∀ r ∈ dirs, (r.xattrs.map Prod.fst).Nodup)
    (hxr : ∀ r ∈ regs, (r.xattrs.map Prod.fst).Nodup) :
    (∀ r ∈ dirs, ∃ m, statOf stF (DeployPath.tgt r.path) = some m ∧
      DirGood r m) ∧
    (∀ r ∈ regs, ∃ m, statOf stF (DeployPath.tgt r.path) = some m ∧
      RegGood umask r m) := by
  have hfreshL : ∀ p : Nat,
      alistLookup st0.link (DeployPath.tgt p) = none :=
    alistLookup_none_of_isres st0.link hfresh
  have hltL : ∀ p ino, alistLookup st0.link p = some ino →
      ino < st0.nextInode :=
    fun p ino hp => hlt0 (p, ino) (alistLookup_mem _ _ _ hp)
  have hresinjL : ∀ d1 d2 ino,
      alistLookup st0.link (DeployPath.res d1) = some ino →
      alistLookup st0.link (DeployPath.res d2) = some ino → d1 = d2 := by
    intro d1 d2 ino h1 h2
    have hm1 := alistLookup_mem _ _ _ h1
    have hm2 := alistLookup_mem _ _ _ h2
    have := hresinj0 _ hm1 _ hm2 rfl
    exact DeployPath.res.inj this
  have hres8L : ∀ d ino m0,
      alistLookup st0.link (DeployPath.res d) = some ino →
      alistLookup st0.inodes ino = some m0 → m0.ftype = FType.reg :=
    fun d ino m0 _ h2 => hmeta0 (ino, m0) (alistLookup_mem _ _ _ h2)
  have hrun2 : (match processDirs umask st0 dirs with
    | none => none
    | some st1 =>
      match processRegulars umask ⟨st1, [], []⟩ regs with
      | none => none
      | some ctx => some ctx.fs) = some stF := hrun
  cases hd : processDirs umask st0 dirs with
  | none => rw [hd] at hrun2; exact Option.noConfusion hrun2
  | some st1 =>
    rw [hd] at hrun2
    have hrun3 : (match processRegulars umask ⟨st1, [], []⟩ regs with
      | none => none
      | some ctx => some ctx.fs) = some stF := hrun2
    cases hreg : processRegulars umask ⟨st1, [], []⟩ regs with
    | none => rw [hreg] at hrun3; exact Option.noConfusion hrun3
    | some ctxE =>
      rw [hreg] at hrun3
      have hstF := Option.some.inj hrun3
      rw [List.nodup_append] at hpaths
      obtain ⟨hndD, hndR, hdisj⟩ := hpaths
      obtain ⟨G1, G2, G3, G4, G5, G6, G7, G8⟩ :=
        processDirs_invariant umask dirs st0 st1 hd
          (fun r _ => hfreshL r.path) hndD hxd hltL
      have habsR : ∀ r ∈ regs,
          alistLookup st1.link (DeployPath.tgt r.path) = none := by
        intro r hr
        apply G7 r.path (hfreshL r.path)
        intro hmem
        exact hdisj hmem (List.mem_map_of_mem FTRegularRow.path hr)
      have hJ4R : ∀ p ino d,
          alistLookup st1.link (DeployPath.tgt p) = some ino →
          alistLookup st1.link (DeployPath.res d) = some ino →
          d ∈ ([] : List Nat) := by
        intro p ino d h1 h2
        rw [G3] at h2
        have hbound := hltL _ _ h2
        rcases G8 p ino h1 with hold | hge
        · rw [hfreshL p] at hold
          exact Option.noConfusion hold
        · exact absurd hbound (by omega)
      have hresinjR : ∀ d1 d2 ino,
          alistLookup st1.link (DeployPath.res d1) = some ino →
          alistLookup st1.link (DeployPath.res d2) = some ino →
          d1 = d2 := by
        intro d1 d2 ino h1 h2
        rw [G3] at h1 h2
        exact hresinjL d1 d2 ino h1 h2
      have hres8R : ∀ d ino m0,
          alistLookup st1.link (DeployPath.res d) = some ino →
          alistLookup st1.inodes ino = some m0 →
          m0.ftype = FType.reg := by
        intro d ino m0 h1 h2
        rw [G3] at h1
        have hbound := hltL _ _ h1
        rw [G4 ino hbound] at h2
        exact hres8L d ino m0 h1 h2
      obtain ⟨R1, R2⟩ := processRegulars_invariant umask regs hgroup regs
        ⟨st1, [], []⟩ ctxE hreg (fun r hr => hr) hxr habsR hndR G5 hJ4R
        hresinjR hres8R
        (fun ino p hp => Option.noConfusion hp)
      constructor
      · intro r hr
        obtain ⟨m, hsm, hgood⟩ := G1 r hr
        obtain ⟨ino, hl1, _⟩ := statOf_some_inv st1 _ m hsm
        obtain ⟨_, hpres⟩ := R2 r.path ino hl1
        refine ⟨m, ?_, hgood⟩
        rw [← hstF, hpres]
        exact hsm
      · intro r hr
        obtain ⟨m, hsm, hgood⟩ := R1 r hr
        refine ⟨m, ?_, hgood⟩
        rw [← hstF]
        exact hsm

/-- **C6, counterexample.** An inlined regular row with uid 0, gid 0
and mode `0o100666` (33206) deployed under umask `0o022` (18) ends up
with permission bits `0o644` (420), not the row's `0o666` (438): the
uid-0/gid-0 fast path of `prepare_regular_inlined` skips chown/chmod,
so the file keeps the umask-masked bits from `touch`, and the claim's
"stat mode equals the row's mode" fails. -/
theorem deploy_mode_counterexample :
    ((setup_rootfs 18 ⟨[], [], 0⟩ []
        [⟨0, 0, 0, 33206, [], 0, 0, false, true⟩]).bind
      (fun st => statOf st (DeployPath.tgt 0))).map InodeMeta.perm =
      some 420 ∧
    (33206 : Nat) &&& 4095 = 438 ∧ (420 : Nat) ≠ 438 :=
  ⟨by decide, by decide, by decide⟩

theorem deploy_permission_invariant_witness :
    ∃ stF, setup_rootfs 18
        ⟨[(DeployPath.res 7, 0)], [(0, ⟨FType.reg, 420, 0, 0, []⟩)], 1⟩
        [⟨1, 10, 20, 16877, [(5, 6)]⟩]
        [⟨2, 30, 40, 33184, [], 7, 3, false, false⟩] = some stF ∧
      (∀ r ∈ [(⟨1, 10, 20, 16877, [(5, 6)]⟩ : FTDirRow)],
        ∃ m, statOf stF (DeployPath.tgt r.path) = some m ∧ DirGood r m) ∧
      (∀ r ∈ [(⟨2, 30, 40, 33184, [], 7, 3, false, false⟩ :
          FTRegularRow)],
        ∃ m, statOf stF (DeployPath.tgt r.path) = some m ∧
          RegGood 18 r m) := by
  cases hrun : setup_rootfs 18
      ⟨[(DeployPath.res 7, 0)], [(0, ⟨FType.reg, 420, 0, 0, []⟩)], 1⟩
      [⟨1, 10, 20, 16877, [(5, 6)]⟩]
      [⟨2, 30, 40, 33184, [], 7, 3, false, false⟩] with
  | none => exact absurd hrun (by decide)
  | some stF =>
    have h := deploy_permission_invariant 18
      ⟨[(DeployPath.res 7, 0)], [(0, ⟨FType.reg, 420, 0, 0, []⟩)], 1⟩
      [⟨1, 10, 20, 16877, [(5, 6)]⟩]
      [⟨2, 30, 40, 33184, [], 7, 3, false, false⟩] stF hrun
      (by decide) (by decide) (by decide) (by decide) (by decide)
      (by decide) (by decide) (by decide)
    exact ⟨stF, rfl, h.1, h.2⟩

/-- **C10.** For every filter value `f` (a `BundleFilter`,
`CompressFilter` or `SliceFilter`) whose option list serializes (msgpack
accepts the values and the packed body is within the 1 MiB
`FILTER_STRING_MAX_SIZE` gate), the serialized form is exactly the
one-byte registry tag (98 `b` / 99 `c` / 115 `s`) followed by `:` (58)
and the msgpack-packed option list, and
`FilterConfig.bytes_schema_validator` on those bytes returns exactly
`f` again: serialization round-trips through validation. -/
theorem filter_serialization_roundtrip (fc : FilterConfig)
    (bytes : List Nat) (hser : fc.bytes_schema_serializer = some bytes) :
    (∃ body, packValue fc.optionsValue = some body ∧
      bytes = fc.filterTag :: 58 :: body) ∧
    FilterConfig.bytes_schema_validator bytes = some fc := by
  have hs : (match pack_obj fc.optionsValue with
    | none => none
    | some body => some (fc.filterTag :: 58 :: body)) = some bytes := hser
  cases hpo : pack_obj fc.optionsValue with
  | none => rw [hpo] at hs; exact Option.noConfusion hs
  | some body =>
    rw [hpo] at hs
    have hbytes := Option.some.inj hs
    subst hbytes
    obtain ⟨hpv, hlen⟩ := pack_obj_spec _ _ hpo
    have hparse := parse_pack_body _ _ hpo
    refine ⟨⟨body, hpv, rfl⟩, ?_⟩
    have ht : fc.filterTag ≠ 58 := by
      cases fc <;> simp [FilterConfig.filterTag]
    have hpre : pre_process_raw (fc.filterTag :: 58 :: body) =
        some ([fc.filterTag], body) :=
      pre_process_raw_tag _ _ ht
    cases fc with
    | bundle f =>
      unfold FilterConfig.bytes_schema_validator
      rw [hpre]
      simp [FilterConfig.filterTag, BundleFilter.from_raw_options,
        unpack_list, hparse, FilterConfig.optionsValue]
    | compress f =>
      unfold FilterConfig.bytes_schema_validator
      rw [hpre]
      simp [FilterConfig.filterTag, CompressFilter.from_raw_options,
        unpack_list, hparse, FilterConfig.optionsValue]
    | slice f =>
      unfold FilterConfig.bytes_schema_validator
      rw [hpre]
      simp [FilterConfig.filterTag, SliceFilter.from_raw_options,
        unpack_list, hparse, FilterConfig.optionsValue, extractInts_map]

theorem filter_serialization_roundtrip_witness :
    FilterConfig.bytes_schema_serializer
        (.bundle ⟨5, 1000, 70000⟩) =
      some [98, 58, 147, 5, 205, 3, 232, 206, 0, 1, 17, 112] ∧
    (∃ body,
      packValue (FilterConfig.optionsValue (.bundle ⟨5, 1000, 70000⟩)) =
        some body ∧
      [98, 58, 147, 5, 205, 3, 232, 206, 0, 1, 17, 112] =
        FilterConfig.filterTag (.bundle ⟨5, 1000, 70000⟩) :: 58 :: body) ∧
    FilterConfig.bytes_schema_validator
        [98, 58, 147, 5, 205, 3, 232, 206, 0, 1, 17, 112] =
      some (.bundle ⟨5, 1000, 70000⟩) := by
  have h := filter_serialization_roundtrip (.bundle ⟨5, 1000, 70000⟩)
    [98, 58, 147, 5, 205, 3, 232, 206, 0, 1, 17, 112] (by decide)
  exact ⟨by decide, h.1, h.2⟩

end OtaImageLibs
